import Mathlib

/-!
The class `dcgp::expression`: chromosome bounds, validity and active-set analysis.

A shallow embedding of `src/expression.cpp` (class `dcgp::expression`):
the constructor that builds the per-gene bounds and samples a chromosome,
`set`, `get`, `mutate`, `is_valid`, `update_active` and `fitness`; and of
`src/wrapped_functions.hpp`: the kernels `my_sum`, `my_diff`, `my_mul`, `my_div`
and their printers. The class `expression_ann`, whose header is not among the
sources, is modelled after the specification.

Conventions of the embedding
* `unsigned int` values are natural numbers; every arithmetic operation of the
  source is performed with `uadd`, `usub`, `umul`, i.e. modulo `2^32`.
* `std::vector<unsigned int>` is `List Nat`; `v[i]` is `vec_at v i` and
  `v[i] = a` is `List.set`.
* The random engine `m_e` is the stream of the values that decide the
  successive draws; `uniform_int_distribution(a, b)(m_e)` consumes one value
  and returns a number of `[a, b]`.
* The two unbounded loops (`do … while` in `update_active` and in `mutate`)
  take a budget of iterations: with the budget exhausted there is no result.
* A method call returns the object as it leaves it (`outcome`), also when it
  throws.
* `std::string` is `String`; the numeric type of a kernel is any type with the
  four operations, and a field where the value of a printed form is computed.
* `double` is a carrier `D` with the operations that `fitness` performs
  (`double_ops`); the member function `compute`, defined in a header, is a
  parameter of `fitness`. A `const` method returns an `evaluation`; the read
  `v[j]` of a `std::vector<double>` has a value for `j < v.size()` only, and a
  call that reads past the end of a vector has the evaluation `undefined`.
* The definitions whose comment starts with "Modelled from the spec" follow the
  words of the specification; numbers are natural numbers and the values of the
  nodes are elements of a field, with the activation functions as a parameter.
  What the specification leaves open (the initial weights and biases of a new
  `expression_ann`) is a parameter too. Derivatives are taken over the reals.

Statements about the genes of a chromosome are made for shapes whose chromosome
length `3*r*c + m` is an `unsigned int`; statements that need the bounds to be
ordered (`lb[i] ≤ ub[i]`) are made for shapes that satisfy `no_overflow`.
-/

namespace dcgp

/-! ## Machine arithmetic -/

/-- Number of values of an `unsigned int`. -/
def UINT_RANGE : Nat := 2 ^ 32

/-- Unsigned addition `a + b`. -/
def uadd (a b : Nat) : Nat := (a + b) % UINT_RANGE

/-- Unsigned multiplication `a * b`. -/
def umul (a b : Nat) : Nat := (a * b) % UINT_RANGE

/-- Unsigned subtraction `a - b` (wraps around below zero). -/
def usub (a b : Nat) : Nat := (a % UINT_RANGE + (UINT_RANGE - b % UINT_RANGE)) % UINT_RANGE

/-- Read access `v[i]` of a vector. -/
def vec_at (v : List Nat) (i : Nat) : Nat := v.getD i 0

/-! ## Random draws -/

/-- The call `std::uniform_int_distribution<unsigned int>(a, b)(m_e)`: the value drawn
(a number of `[a, b]`, for `a ≤ b`) and the engine after the draw. -/
def uniform_int_distribution (a b : Nat) (m_e : Nat → Nat) : Nat × (Nat → Nat) :=
  (a + m_e 0 % (b - a + 1), fun k => m_e (k + 1))

/-! ## Sorting and duplicate removal -/

/-- The call `std::sort(v.begin(), v.end())`. -/
def sort (v : List Nat) : List Nat := v.insertionSort (fun a b => a ≤ b)

/-- The call `v.erase(std::unique(v.begin(), v.end()), v.end())`: of every run of equal
consecutive elements one is kept. -/
def unique : List Nat → List Nat
  | [] => []
  | [a] => [a]
  | a :: b :: t => if a = b then unique (b :: t) else a :: unique (b :: t)

/-! ## The expression -/

/-- Data members of `dcgp::expression` (the tolerance `m_tol`, a `double` read by `fitness`
only, is not part of the integer state). The type `F` is `dcgp::basis_function`. -/
structure expression (F : Type) where
  m_n : Nat
  m_m : Nat
  m_r : Nat
  m_c : Nat
  m_l : Nat
  m_f : List F
  m_lb : List Nat
  m_ub : List Nat
  m_x : List Nat
  m_active_nodes : List Nat
  m_active_genes : List Nat
  m_e : Nat → Nat

/-- What a constructor call produces: the object, the exception `input_error(what)` (no object
exists then), or nothing when a loop does not end within the budget. -/
inductive construction (α : Type) where
  | ok (object : α)
  | input_error (what : String)
  | no_result

/-- What a method call on an object produces: it returns, or it throws `input_error(what)`, and
`after` is the object as the call leaves it; or nothing when a loop does not end within the
budget. -/
inductive outcome (α : Type) where
  | ok (after : α)
  | input_error (what : String) (after : α)
  | no_result

/-- Loop `for (auto i = 0u; i < k; ++i) body(i)` over a state. -/
def for_range {σ : Type} (k : Nat) (body : Nat → σ → σ) (s : σ) : σ :=
  (List.range k).foldl (fun s i => body i s) s

/-- Bounds for the function genes: `for (i = 0u; i < 3*m_r*m_c; i += 3) m_ub[i] = f.size() - 1`.
The state is the pair `(m_lb, m_ub)`. -/
def function_gene_bounds (r c fsize : Nat) (s : List Nat × List Nat) : List Nat × List Nat :=
  for_range ((umul (umul 3 r) c + 2) / 3)
    (fun k s => (s.1, s.2.set (3 * k) ((fsize - 1) % UINT_RANGE))) s

/-- Bounds for the output genes: the loop `for (i = 3u*m_r*m_c; i < m_ub.size(); ++i)`. -/
def output_gene_bounds (n r c l : Nat) (s : List Nat × List Nat) : List Nat × List Nat :=
  for_range (s.2.length - umul (umul 3 r) c)
    (fun k s =>
      let i := umul (umul 3 r) c + k
      let ub := s.2.set i (usub (uadd n (umul r c)) 1)
      if l ≤ c then (s.1.set i (uadd n (umul r (usub c l))), ub) else (s.1, ub)) s

/-- Bounds for the node connection genes: the double loop over columns `i` and rows `j`. -/
def connection_gene_bounds (n r c l : Nat) (s : List Nat × List Nat) : List Nat × List Nat :=
  for_range c
    (fun i s => for_range r
      (fun j s =>
        let g := umul (uadd (umul i r) j) 3
        let ub := (s.2.set (uadd g 1) (usub (uadd n (umul i r)) 1)).set (uadd g 2)
          (usub (uadd n (umul i r)) 1)
        if l ≤ i then
          ((s.1.set (uadd g 1) (uadd n (umul r (usub i l)))).set (uadd g 2)
            (uadd n (umul r (usub i l))), ub)
        else (s.1, ub)) s) s

/-- The pair `(m_lb, m_ub)` after the three loops of the constructor, from the zero vectors of
length `3*m_r*m_c + m_m`. -/
def bounds (n m r c l fsize : Nat) : List Nat × List Nat :=
  let size := uadd (umul (umul 3 r) c) m
  connection_gene_bounds n r c l
    (output_gene_bounds n r c l
      (function_gene_bounds r c fsize (List.replicate size 0, List.replicate size 0)))

/-- The loop `for (i = 0u; i < m_x.size(); ++i) m_x[i] = uniform_int_distribution(m_lb[i], m_ub[i])(m_e)`.
The state is the pair `(m_x, m_e)`. -/
def random_chromosome (lb ub : List Nat) (s : List Nat × (Nat → Nat)) : List Nat × (Nat → Nat) :=
  for_range s.1.length
    (fun i s =>
      let d := uniform_int_distribution (vec_at lb i) (vec_at ub i) s.2
      (s.1.set i d.1, d.2)) s

/-- The read `m_x[(node_id - m_n) * 3 + k]` of `update_active`: for `k = 1, 2` the value of
a connection gene of the node `node_id`. -/
def connection (n : Nat) (x : List Nat) (node_id k : Nat) : Nat :=
  vec_at x (uadd (umul (usub node_id n) 3) k)

/-- The read `m_x[3 * m_r * m_c + i]` of `update_active`: the value of the output gene `i`. -/
def output_gene (r c : Nat) (x : List Nat) (i : Nat) : Nat :=
  vec_at x (uadd (umul (umul 3 r) c) i)

/-- Body of `for (auto node_id : current)`; the state is `(m_active_nodes, next)`. -/
def visit (n : Nat) (x : List Nat) (s : List Nat × List Nat) (node_id : Nat) :
    List Nat × List Nat :=
  if n ≤ node_id then (s.1, s.2 ++ [connection n x node_id 1, connection n x node_id 2])
  else (s.1 ++ [node_id], s.2)

/-- The `do … while (current.size() > 0)` loop of `update_active`, with a budget of rounds;
it returns `m_active_nodes` as it is when the loop ends. -/
def active_loop (n : Nat) (x : List Nat) : Nat → List Nat → List Nat → Option (List Nat)
  | 0, _, _ => none
  | fuel + 1, current, active =>
    let s := current.foldl (visit n x) (active ++ current, [])
    let next := unique (sort s.2)
    if 0 < next.length then active_loop n x fuel next s.1 else some s.1

/-- First part of `update_active`: the sorted, duplicate-free `m_active_nodes` of chromosome `x`. -/
def active_nodes (fuel n m r c : Nat) (x : List Nat) : Option (List Nat) :=
  let current := (List.range m).map (fun i => output_gene r c x i)
  (active_loop n x fuel current []).map (fun a => unique (sort a))

/-- Second part of `update_active`: `m_active_genes` from `m_active_nodes`. -/
def active_genes (n m r c : Nat) (nodes : List Nat) : List Nat :=
  let genes := nodes.foldl
    (fun g node =>
      if n ≤ node then
        let idx := umul (usub node n) 3
        g ++ [idx, uadd idx 1, uadd idx 2]
      else g) []
  for_range m (fun i g => g ++ [uadd (umul (umul r c) 3) i]) genes

/-- The method `expression::update_active`. Its leading `assert(m_x.size() == m_lb.size())` is
not part of the model: the sizes agree at each of its calls (`reachable_sizes`). -/
def update_active {F : Type} (fuel : Nat) (e : expression F) : Option (expression F) :=
  (active_nodes fuel e.m_n e.m_m e.m_r e.m_c e.m_x).map
    (fun nodes => { e with
      m_active_nodes := nodes
      m_active_genes := active_genes e.m_n e.m_m e.m_r e.m_c nodes })

/-- The method `expression::is_valid`. -/
def is_valid {F : Type} (e : expression F) (x : List Nat) : Bool :=
  if x.length ≠ e.m_lb.length then false
  else (List.range x.length).all
    (fun i => !(decide (vec_at x i > vec_at e.m_ub i) || decide (vec_at x i < vec_at e.m_lb i)))

/-- The constructor `expression::expression(n, m, r, c, l, f, tol, seed)`; `seed` is the
stream of the engine built from the seed. -/
def construct {F : Type} (fuel n m r c l : Nat) (f : List F) (seed : Nat → Nat) :
    construction (expression F) :=
  if n = 0 then .input_error "Number of inputs is 0"
  else if m = 0 then .input_error "Number of outputs is 0"
  else if c = 0 then .input_error "Number of columns is 0"
  else if r = 0 then .input_error "Number of rows is 0"
  else if l = 0 then .input_error "Number of level-backs is 0"
  else if f.length = 0 then .input_error "Number of basis functions is 0"
  else
    let b := bounds n m r c l f.length
    let xe := random_chromosome b.1 b.2
      (List.replicate (uadd (umul (umul 3 r) c) m) 0, seed)
    match update_active fuel
      { m_n := n, m_m := m, m_r := r, m_c := c, m_l := l, m_f := f, m_lb := b.1, m_ub := b.2,
        m_x := xe.1, m_active_nodes := [], m_active_genes := [], m_e := xe.2 } with
    | some e => .ok e
    | none => .no_result

/-- The method `expression::set`. -/
def set {F : Type} (fuel : Nat) (e : expression F) (x : List Nat) : outcome (expression F) :=
  if !is_valid e x then .input_error "Chromosome is incompatible" e
  else
    match update_active fuel { e with m_x := x } with
    | some e1 => .ok e1
    | none => .no_result

/-- The method `expression::get`. -/
def get {F : Type} (e : expression F) : List Nat := e.m_x

/-- The method `expression::get_active_genes`. -/
def get_active_genes {F : Type} (e : expression F) : List Nat := e.m_active_genes

/-- The method `expression::get_active_nodes`. -/
def get_active_nodes {F : Type} (e : expression F) : List Nat := e.m_active_nodes

/-- The loop `do new_value = uniform_int_distribution(lb, ub)(m_e); while (new_value == old)`
of `mutate`, with a budget of draws: the value kept and the engine after the loop. -/
def draw_new_value (lb ub old : Nat) : Nat → (Nat → Nat) → Option (Nat × (Nat → Nat))
  | 0, _ => none
  | fuel + 1, m_e =>
    let d := uniform_int_distribution lb ub m_e
    if d.1 = old then draw_new_value lb ub old fuel d.2 else some d

/-- The method `expression::mutate`. -/
def mutate {F : Type} (fuel : Nat) (e : expression F) : outcome (expression F) :=
  let d := uniform_int_distribution 0 (usub e.m_active_genes.length 1) e.m_e
  let idx := vec_at e.m_active_genes d.1
  if vec_at e.m_lb idx < vec_at e.m_ub idx then
    match draw_new_value (vec_at e.m_lb idx) (vec_at e.m_ub idx) (vec_at e.m_x idx) fuel d.2 with
    | none => .no_result
    | some v =>
      match update_active fuel { e with m_x := e.m_x.set idx v.1, m_e := v.2 } with
      | some e1 => .ok e1
      | none => .no_result
  else .ok { e with m_e := d.2 }

/-- States of an expression: the one left by a constructor call that returns, and those left
by calls of `set` (whether they return or throw) and of `mutate` on such a state. -/
inductive reachable {F : Type} : expression F → Prop where
  | construct (fuel n m r c l : Nat) (f : List F) (seed : Nat → Nat) (e : expression F)
      (h : dcgp.construct fuel n m r c l f seed = construction.ok e) : reachable e
  | set (fuel : Nat) (e : expression F) (x : List Nat) (e1 : expression F)
      (he : reachable e) (h : dcgp.set fuel e x = outcome.ok e1) : reachable e1
  | set_throws (fuel : Nat) (e : expression F) (x : List Nat) (what : String)
      (e1 : expression F) (he : reachable e)
      (h : dcgp.set fuel e x = outcome.input_error what e1) : reachable e1
  | mutate (fuel : Nat) (e e1 : expression F)
      (he : reachable e) (h : dcgp.mutate fuel e = outcome.ok e1) : reachable e1

/-- No unsigned overflow in `n + r*c` and in the chromosome length `3*r*c + m`. -/
def no_overflow (n m r c : Nat) : Prop := n + r * c < UINT_RANGE ∧ 3 * r * c + m < UINT_RANGE

instance (n m r c : Nat) : Decidable (no_overflow n m r c) := by
  unfold no_overflow; infer_instance

/-- Engine stream of the sample expression. -/
def sample_seed : Nat → Nat := fun k => 7 * k + 3

/-- The expression built by `expression(1, 1, 2, 2, 1, f, tol, seed)` with two kernels and the
engine stream `sample_seed`: one input, one output, a 2x2 grid, one level back. -/
def sample_expression : expression Unit :=
  { m_n := 1, m_m := 1, m_r := 2, m_c := 2, m_l := 1, m_f := [(), ()],
    m_lb := [0, 0, 0, 0, 0, 0, 0, 1, 1, 0, 1, 1, 3],
    m_ub := [1, 0, 0, 1, 0, 0, 1, 2, 2, 1, 2, 2, 4],
    m_x := [1, 0, 0, 0, 0, 0, 1, 1, 2, 0, 2, 1, 4],
    m_active_nodes := [0, 1, 2, 4],
    m_active_genes := [0, 1, 2, 3, 4, 5, 9, 10, 11, 12],
    m_e := fun k => sample_seed (k + 13) }

/-- A chromosome within the bounds of `sample_expression`. -/
def sample_chromosome : List Nat := [0, 0, 0, 1, 0, 0, 0, 1, 1, 1, 2, 2, 3]

/-- Engine stream of the second sample expression. -/
def counting_seed : Nat → Nat := fun k => k

/-- The expression built by `expression(1, 1, 2, 2, 1, f, tol, seed)` with two kernels and the
engine stream `counting_seed`; its first call of `mutate` selects the gene `3`. -/
def counting_expression : expression Unit :=
  { m_n := 1, m_m := 1, m_r := 2, m_c := 2, m_l := 1, m_f := [(), ()],
    m_lb := [0, 0, 0, 0, 0, 0, 0, 1, 1, 0, 1, 1, 3],
    m_ub := [1, 0, 0, 1, 0, 0, 1, 2, 2, 1, 2, 2, 4],
    m_x := [0, 0, 0, 1, 0, 0, 0, 2, 1, 1, 1, 2, 3],
    m_active_nodes := [0, 1, 2, 3],
    m_active_genes := [0, 1, 2, 3, 4, 5, 6, 7, 8, 12],
    m_e := fun k => counting_seed (k + 13) }

/-- The state left by `mutate` called on `counting_expression`: the gene `3` went from `1`
to `0`. -/
def counting_mutated : expression Unit :=
  { counting_expression with
    m_x := [0, 0, 0, 0, 0, 0, 0, 2, 1, 1, 1, 2, 3]
    m_e := fun k => counting_seed (k + 15) }

/-- Engine stream of the third sample expression. -/
def wide_seed : Nat → Nat := fun k => 5 * k + 1

/-- The expression built by `expression(1, 1, 2, 2, 3, f, tol, seed)` with two kernels and the
engine stream `wide_seed`: more levels back than columns. -/
def wide_expression : expression Unit :=
  { m_n := 1, m_m := 1, m_r := 2, m_c := 2, m_l := 3, m_f := [(), ()],
    m_lb := [0, 0, 0, 0, 0, 0, 0, 0, 0, 0, 0, 0, 0],
    m_ub := [1, 0, 0, 1, 0, 0, 1, 2, 2, 1, 2, 2, 4],
    m_x := [1, 0, 0, 0, 0, 0, 1, 0, 2, 0, 0, 2, 1],
    m_active_nodes := [0, 1],
    m_active_genes := [0, 1, 2, 12],
    m_e := fun k => wide_seed (k + 13) }

/-- The gene index selected by `mutate`:
`m_active_genes[uniform_int_distribution(0, m_active_genes.size() - 1)(m_e)]`. -/
def selected_gene {F : Type} (e : expression F) : Nat :=
  vec_at e.m_active_genes (uniform_int_distribution 0 (usub e.m_active_genes.length 1) e.m_e).1

/-! ## The wrapped functions (`src/wrapped_functions.hpp`) -/

/-- The kernel `my_sum`: `return x + y`, in the numeric type `T`. -/
def my_sum {T : Type} [Add T] (x y : T) : T := x + y

/-- The kernel `my_diff`: `return x - y`. -/
def my_diff {T : Type} [Sub T] (x y : T) : T := x - y

/-- The kernel `my_mul`: `return (x * y)`. -/
def my_mul {T : Type} [Mul T] (x y : T) : T := x * y

/-- The kernel `my_div`: `return x / y`. -/
def my_div {T : Type} [Div T] (x y : T) : T := x / y

/-- The printer `print_my_sum`. -/
def print_my_sum (s1 s2 : String) : String :=
  if s1 = s2 then "(2*" ++ s1 ++ ")"
  else if s1 = "0" then s2
  else if s2 = "0" then s1
  else "(" ++ s1 ++ "+" ++ s2 ++ ")"

/-- The printer `print_my_diff`. -/
def print_my_diff (s1 s2 : String) : String :=
  if s1 = s2 then "0"
  else if s1 = "0" then "(-" ++ s2 ++ ")"
  else if s2 = "0" then s1
  else "(" ++ s1 ++ "-" ++ s2 ++ ")"

/-- The printer `print_my_mul`. -/
def print_my_mul (s1 s2 : String) : String :=
  if s1 = "0" ∨ s2 = "0" then "0"
  else if s1 = s2 then s1 ++ "^2"
  else if s1 = "1" then s2
  else if s2 = "1" then s1
  else "(" ++ s1 ++ "*" ++ s2 ++ ")"

/-- The printer `print_my_div`. -/
def print_my_div (s1 s2 : String) : String :=
  if s1 = "0" ∧ s2 ≠ "0" then "0"
  else if s1 = s2 then "1"
  else "(" ++ s1 ++ "/" ++ s2 ++ ")"

/-- Reading of a string returned by a printer as an arithmetic expression, after the words of
the specification: with the argument strings `s1`, `s2` denoting the numbers `a`, `b`, the
string `out` is one of the forms `"0"`, `"1"`, `s1`, `s2`, `"(2*s1)"`, `"s1^2"`, `"(-s2)"`,
`"(s1+s2)"`, `"(s1-s2)"`, `"(s1*s2)"`, `"(s1/s2)"` and `v` is the number this form denotes. -/
def denotes {K : Type} [Field K] (s1 s2 : String) (a b : K) (out : String) (v : K) : Prop :=
  (out = "0" ∧ v = 0) ∨ (out = "1" ∧ v = 1) ∨ (out = s1 ∧ v = a) ∨ (out = s2 ∧ v = b) ∨
  (out = "(2*" ++ s1 ++ ")" ∧ v = 2 * a) ∨ (out = s1 ++ "^2" ∧ v = a ^ 2) ∨
  (out = "(-" ++ s2 ++ ")" ∧ v = -b) ∨
  (out = "(" ++ s1 ++ "+" ++ s2 ++ ")" ∧ v = a + b) ∨
  (out = "(" ++ s1 ++ "-" ++ s2 ++ ")" ∧ v = a - b) ∨
  (out = "(" ++ s1 ++ "*" ++ s2 ++ ")" ∧ v = a * b) ∨
  (out = "(" ++ s1 ++ "/" ++ s2 ++ ")" ∧ v = a / b)

/-! ## The fitness (`expression::fitness`) -/

/-- The operations on `double` that `fitness` performs, over a carrier `D`: the literals `0.`
and `1.0`, the operators `+`, `-`, `/`, `<`, and the calls `fabs` and `std::isfinite`. -/
structure double_ops (D : Type) where
  zero : D
  one : D
  add : D → D → D
  sub : D → D → D
  div : D → D → D
  fabs : D → D
  lt : D → D → Bool
  isfinite : D → Bool

/-- The enumeration `fitness_type` (its declaration is in the header `expression.h`): the two
values that `fitness` names. -/
inductive fitness_type where
  | ERROR_BASED
  | HITS_BASED

/-- What a call of a `const` method with a result produces: the value returned, the exception
`input_error(what)`, or nothing that the language defines, when the call has read a vector past
its end. -/
inductive evaluation (α : Type) where
  | value (v : α)
  | input_error (what : String)
  | undefined

/-- The read `v[j]` of a `std::vector<double>`: `operator[]` checks no bound, and there is a
value for `j < v.size()` only. -/
def row_at {D : Type} (v : List D) (j : Nat) : Option D := v[j]?

/-- The distance `fabs(out_des[i][j] - out_real[j])`. -/
def deviation {D : Type} (ops : double_ops D) (desired real : D) : D :=
  ops.fabs (ops.sub desired real)

/-- The body of the loop over `j` in `fitness`, for the point `i`: the state of the call after
the update of `retval` for the output component `j`, with `out_des_i = out_des[i]`. The label
`out_des[i][j]` is read for a finite `out_real[j]` only. -/
def fitness_step {D : Type} (ops : double_ops D) (m_tol : D) (type : fitness_type)
    (out_des_i out_real : List D) (j : Nat) (s : evaluation D) : evaluation D :=
  match s with
  | evaluation.value retval =>
    match type with
    | fitness_type.ERROR_BASED =>
      match row_at out_real j with
      | some real =>
        if ops.isfinite real then
          match row_at out_des_i j with
          | some desired =>
            evaluation.value
              (ops.add retval (ops.div ops.one (ops.add ops.one (deviation ops desired real))))
          | none => evaluation.undefined
        else evaluation.value retval
      | none => evaluation.undefined
    | fitness_type.HITS_BASED =>
      match row_at out_real j with
      | some real =>
        if ops.isfinite real then
          match row_at out_des_i j with
          | some desired =>
            if ops.lt (deviation ops desired real) m_tol then
              evaluation.value (ops.add retval ops.one)
            else evaluation.value retval
          | none => evaluation.undefined
        else evaluation.value retval
      | none => evaluation.undefined
  | other => other

/-- The method `fitness`. The member function `compute` (defined in the header) is a
parameter: it returns the outputs of the expression on a point, or throws. The counters `i` and
`j` are `unsigned int` compared with a `size_t`; the loops are those of data sets and outputs
with fewer than `2^32` entries. After the size test `in_des[i]` and `out_des[i]` are reads
within range. -/
def fitness {D : Type} (ops : double_ops D) (compute : List D → evaluation (List D)) (m_tol : D)
    (in_des out_des : List (List D)) (type : fitness_type) : evaluation D :=
  if in_des.length ≠ out_des.length then
    evaluation.input_error "Size of the input vector must be the size of the output vector"
  else
    for_range in_des.length
      (fun i s =>
        match s with
        | evaluation.value retval =>
          match compute (in_des.getD i []) with
          | evaluation.value out_real =>
            for_range out_real.length
              (fitness_step ops m_tol type (out_des.getD i []) out_real) (evaluation.value retval)
          | evaluation.input_error what => evaluation.input_error what
          | evaluation.undefined => evaluation.undefined
        | other => other)
      (evaluation.value ops.zero)

/-- The output components of one point that `std::isfinite` accepts, each with its label:
the pairs `(out_des[i][j], out_real[j])`, in the order of `j`, for a label row with an entry
for every output component. -/
def finite_components {D : Type} (ops : double_ops D) (out_des_i out_real : List D) :
    List (D × D) :=
  (out_des_i.zip out_real).filter (fun p => ops.isfinite p.2)

/-- The aggregate of the specification over a list of components `(label, output)`: for the
error-based fitness every component adds `1/(1 + |label - output|)`, for the hits-based fitness
every component with `|label - output| < tol` adds `1`; the additions are made from left to
right, starting from `retval`. -/
def aggregate {D : Type} (ops : double_ops D) (m_tol : D) (type : fitness_type)
    (components : List (D × D)) (retval : D) : D :=
  components.foldl
    (fun acc p =>
      match type with
      | fitness_type.ERROR_BASED =>
        ops.add acc (ops.div ops.one (ops.add ops.one (deviation ops p.1 p.2)))
      | fitness_type.HITS_BASED =>
        if ops.lt (deviation ops p.1 p.2) m_tol then ops.add acc ops.one else acc)
    retval

/-- The finite components of a whole data set, point after point; `outputs p` is the output of
the expression on the point `p`. -/
def finite_data {D : Type} (ops : double_ops D) (outputs : List D → List D)
    (in_des out_des : List (List D)) : List (D × D) :=
  (List.range in_des.length).flatMap
    (fun i => finite_components ops (out_des.getD i []) (outputs (in_des.getD i [])))

/-- Exact arithmetic in an ordered field as an instance of the operations: every value is
finite. -/
def field_ops (K : Type) [LinearOrderedField K] : double_ops K where
  zero := 0
  one := 1
  add := fun a b => a + b
  sub := fun a b => a - b
  div := fun a b => a / b
  fabs := fun a => |a|
  lt := fun a b => decide (a < b)
  isfinite := fun _ => true

/-- Exact rational arithmetic with one value that is not finite: `none` stands for NaN, which
every operation propagates and a division by zero produces. -/
def extended_ops : double_ops (Option ℚ) where
  zero := some 0
  one := some 1
  add := fun a b => match a, b with
    | some x, some y => some (x + y)
    | _, _ => none
  sub := fun a b => match a, b with
    | some x, some y => some (x - y)
    | _, _ => none
  div := fun a b => match a, b with
    | some x, some y => if y = 0 then none else some (x / y)
    | _, _ => none
  fabs := fun a => a.map (fun x => |x|)
  lt := fun a b => match a, b with
    | some x, some y => decide (x < y)
    | _, _ => false
  isfinite := fun a => a.isSome

/-- The member function `compute` of an expression with one input whose only output gene is
the input node `0`: the output is the input. -/
def identity_compute {D : Type} (p : List D) : evaluation (List D) := evaluation.value p

/-- The mean squared error of the specification: the mean over the samples of
`(sum over the outputs j of (yhat_j - y_j)^2) / m`, with `yhat = outputs p` on the point `p`. -/
def mean_squared_error {K : Type} [Field K] (m : Nat) (outputs : List K → List K)
    (points labels : List (List K)) : K :=
  ((List.range points.length).map
    (fun i => ((List.range m).map
      (fun j => ((outputs (points.getD i [])).getD j 0 - (labels.getD i []).getD j 0) ^ 2)).sum
        / (m : K))).sum / (points.length : K)

/-- The member function `compute` of an expression that returns `1/x` for every input `x`,
in the arithmetic `extended_ops`: at `x = 0` the output is not finite. -/
def reciprocal_outputs (p : List (Option ℚ)) : List (Option ℚ) :=
  p.map (fun x => extended_ops.div extended_ops.one x)

/-! ## The class `expression_ann`, after the specification -/

/-- Modelled from the spec: the data of an `expression_ann` (the header
`dcgp/expression_ann.hpp` and the class template it derives from are not among the sources):
the shape `n, m, r, c, l`, the arity of every column, the names of the kernels, the
chromosome, one weight per incoming edge, one bias per node of the grid, the active nodes and
the random engine. -/
structure expression_ann (K : Type) where
  m_n : Nat
  m_m : Nat
  m_r : Nat
  m_c : Nat
  m_l : Nat
  m_arity : List Nat
  m_f : List String
  m_x : List Nat
  m_weights : List K
  m_biases : List K
  m_active_nodes : List Nat
  m_e : Nat → Nat

/-- Modelled from the spec: the arity `a_j` of the nodes of column `j`. -/
def column_arity (arity : List Nat) (j : Nat) : Nat := arity.getD j 0

/-- Modelled from the spec: the number of genes of the columns before column `j`; every one of
the `r` nodes of a column `k` has one function gene followed by `a_k` connection genes. -/
def genes_before (r : Nat) (arity : List Nat) (j : Nat) : Nat :=
  ((List.range j).map (fun k => r * (1 + column_arity arity k))).sum

/-- Modelled from the spec: the number of weights of the columns before column `j`, one per
incoming edge of every node (`r * a_k` in column `k`). -/
def weights_before (r : Nat) (arity : List Nat) (j : Nat) : Nat :=
  ((List.range j).map (fun k => r * column_arity arity k)).sum

/-- Modelled from the spec: the column of the node with id `u = n + j*r + i`. -/
def node_column (n r u : Nat) : Nat := (u - n) / r

/-- Modelled from the spec: the row of the node with id `u = n + j*r + i`. -/
def node_row (n r u : Nat) : Nat := (u - n) % r

/-- Modelled from the spec: the index in the chromosome of the function gene of the node `u`;
its connection genes follow. -/
def gene_index (n r : Nat) (arity : List Nat) (u : Nat) : Nat :=
  genes_before r arity (node_column n r u) +
    node_row n r u * (1 + column_arity arity (node_column n r u))

/-- Modelled from the spec: the arity of the node `u`. -/
def ann_arity {K : Type} (e : expression_ann K) (u : Nat) : Nat :=
  column_arity e.m_arity (node_column e.m_n e.m_r u)

/-- Modelled from the spec: the function gene of the node `u`. -/
def ann_function_gene {K : Type} (e : expression_ann K) (u : Nat) : Nat :=
  vec_at e.m_x (gene_index e.m_n e.m_r e.m_arity u)

/-- Modelled from the spec: the connection gene of the slot `i` of the node `u`, the id of the
source `s_{u,i}`. -/
def ann_connection {K : Type} (e : expression_ann K) (u i : Nat) : Nat :=
  vec_at e.m_x (gene_index e.m_n e.m_r e.m_arity u + 1 + i)

/-- Modelled from the spec: the output gene `o_k`; the output genes follow the genes of the
`c` columns. -/
def ann_output_gene {K : Type} (e : expression_ann K) (k : Nat) : Nat :=
  vec_at e.m_x (genes_before e.m_r e.m_arity e.m_c + k)

/-- Modelled from the spec: the sources of the node `u`, slot after slot. -/
def ann_sources {K : Type} (e : expression_ann K) (u : Nat) : List Nat :=
  (List.range (ann_arity e u)).map (ann_connection e u)

/-- Modelled from the spec: lower bound of the connection genes of column `j`:
`n + r*(j - l)` if `j ≥ l`, else `0`. -/
def connection_lower (n r l j : Nat) : Nat := if l ≤ j then n + r * (j - l) else 0

/-- Modelled from the spec: upper bound of the connection genes of column `j`: `n + j*r - 1`. -/
def connection_upper (n r j : Nat) : Nat := n + j * r - 1

/-- Modelled from the spec: lower bound of the output genes: `n + r*(c - l)` if `l ≤ c`, else
`0`. -/
def output_lower (n r c l : Nat) : Nat := if l ≤ c then n + r * (c - l) else 0

/-- Modelled from the spec: upper bound of the output genes: `n + r*c - 1`. -/
def output_upper (n r c : Nat) : Nat := n + r * c - 1

/-- Modelled from the spec: invariants 1 and 2 of the chromosome of an `expression_ann`: its
length is `L` and every gene lies within its bounds (function genes in `[0, |kernels| - 1]`,
connection genes and output genes within the bounds above). -/
def ann_valid {K : Type} (e : expression_ann K) : Prop :=
  e.m_x.length = genes_before e.m_r e.m_arity e.m_c + e.m_m ∧
  (∀ u, u < e.m_n + e.m_r * e.m_c → e.m_n ≤ u →
    ann_function_gene e u ≤ e.m_f.length - 1 ∧
    ∀ i, i < ann_arity e u →
      connection_lower e.m_n e.m_r e.m_l (node_column e.m_n e.m_r u) ≤ ann_connection e u i ∧
      ann_connection e u i ≤ connection_upper e.m_n e.m_r (node_column e.m_n e.m_r u)) ∧
  ∀ k, k < e.m_m →
    output_lower e.m_n e.m_r e.m_c e.m_l ≤ ann_output_gene e k ∧
    ann_output_gene e k ≤ output_upper e.m_n e.m_r e.m_c

instance {K : Type} (e : expression_ann K) : Decidable (ann_valid e) := by
  unfold ann_valid
  infer_instance

/-- Modelled from the spec: one round of the active-set analysis: the connection targets of the
non-input nodes already included are pulled in; the set is kept sorted and deduplicated. -/
def ann_pull {K : Type} (e : expression_ann K) (S : List Nat) : List Nat :=
  unique (sort (S ++ (S.filter (fun u => decide (e.m_n ≤ u))).flatMap (ann_sources e)))

/-- Modelled from the spec: the rounds are repeated until a fixpoint is reached, at most `k`
times. -/
def ann_fixpoint {K : Type} (e : expression_ann K) : Nat → List Nat → List Nat
  | 0, S => S
  | k + 1, S => if ann_pull e S = S then S else ann_fixpoint e k (ann_pull e S)

/-- Modelled from the spec: the active set: starting from the node ids that the output genes
reference, connection targets are pulled in until a fixpoint is reached. A round descends by
at least one column, which bounds the number of rounds by `c + 1`. -/
def ann_active_nodes {K : Type} (e : expression_ann K) : List Nat :=
  ann_fixpoint e (e.m_c + 1) (unique (sort ((List.range e.m_m).map (ann_output_gene e))))

/-- Modelled from the spec: the refresh of the active set after a change of the chromosome. -/
def ann_update_active {K : Type} (e : expression_ann K) : expression_ann K :=
  { e with m_active_nodes := ann_active_nodes e }

/-- Modelled from the spec: the bias `b_u` of the node `u`; the biases are indexed by
`u - n`. -/
def ann_bias {K : Type} [Zero K] (e : expression_ann K) (u : Nat) : K :=
  e.m_biases.getD (u - e.m_n) 0

/-- Modelled from the spec: the weight `w_{u,i}` of the slot `i` of the node `u`; the weights
are indexed linearly, node after node and slot after slot. -/
def ann_weight {K : Type} [Zero K] (e : expression_ann K) (u i : Nat) : K :=
  e.m_weights.getD
    (weights_before e.m_r e.m_arity (node_column e.m_n e.m_r u) +
      node_row e.m_n e.m_r u * ann_arity e u + i) 0

/-- Modelled from the spec: the kernel of the node `u`, by name. -/
def ann_kernel {K : Type} (e : expression_ann K) (u : Nat) : String :=
  e.m_f.getD (ann_function_gene e u) ""

/-- Modelled from the spec: the value of the node `u` computed from the working buffer:
`phi_k(b_u + sum over the slots i of w_{u,i} * buffer[s_{u,i}])`, where `phi` gives the scalar
activation of a kernel name. -/
def ann_node_value {K : Type} [Field K] (e : expression_ann K) (phi : String → K → K)
    (buffer : Nat → K) (u : Nat) : K :=
  phi (ann_kernel e u)
    (ann_bias e u +
      ((List.range (ann_arity e u)).map
        (fun i => ann_weight e u i * buffer (ann_connection e u i))).sum)

/-- Modelled from the spec: the visit of one active node by the forward pass: the value of a
non-input node is computed from the working buffer and written to its slot; the slot of an
input node holds the input already. -/
def ann_visit {K : Type} [Field K] (e : expression_ann K) (phi : String → K → K)
    (buffer : Nat → K) (u : Nat) : Nat → K :=
  if u < e.m_n then buffer else Function.update buffer u (ann_node_value e phi buffer u)

/-- Modelled from the spec: the forward pass: the working buffer, indexed by node id, holds the
inputs; the active nodes are visited in the order of `m_active_nodes`, that is in ascending id
order. -/
def ann_forward {K : Type} [Field K] (e : expression_ann K) (phi : String → K → K)
    (inputs : List K) : Nat → K :=
  e.m_active_nodes.foldl (ann_visit e phi) (fun u => inputs.getD u 0)

/-- Modelled from the spec: `evaluate(inputs)`: output `k` is the value of the node that the
output gene `k` references. -/
def ann_evaluate {K : Type} [Field K] (e : expression_ann K) (phi : String → K → K)
    (inputs : List K) : List K :=
  (List.range e.m_m).map (fun k => ann_forward e phi inputs (ann_output_gene e k))

/-- Modelled from the spec: the incoming edges `(source, destination)` of the active non-input
nodes. -/
def ann_edges {K : Type} (e : expression_ann K) : List (Nat × Nat) :=
  (e.m_active_nodes.filter (fun u => decide (e.m_n ≤ u))).flatMap
    (fun u => (ann_sources e u).map (fun s => (s, u)))

/-- Modelled from the spec: `n_active_weights(unique)`: the count of the weights attached to
the active subgraph; with `unique = true` the weights that connect the same pair
(source, destination) are counted once. -/
def n_active_weights {K : Type} (e : expression_ann K) (unique_pairs : Bool) : Nat :=
  if unique_pairs then (ann_edges e).dedup.length else (ann_edges e).length

/-- Modelled from the spec: an `expression_ann` of a valid shape whose state satisfies the
invariants 1 to 4: no shape parameter is zero, there is one positive arity per column, the
chromosome is valid, the active nodes are those of the chromosome, and there are one weight
per incoming edge and one bias per node of the grid. -/
def ann_well_formed {K : Type} (e : expression_ann K) : Prop :=
  0 < e.m_n ∧ 0 < e.m_m ∧ 0 < e.m_r ∧ 0 < e.m_c ∧ 0 < e.m_l ∧ e.m_f ≠ [] ∧
  e.m_arity.length = e.m_c ∧ (∀ a ∈ e.m_arity, 0 < a) ∧
  ann_valid e ∧ e.m_active_nodes = ann_active_nodes e ∧
  e.m_weights.length = weights_before e.m_r e.m_arity e.m_c ∧
  e.m_biases.length = e.m_r * e.m_c

instance {K : Type} (e : expression_ann K) : Decidable (ann_well_formed e) := by
  unfold ann_well_formed
  infer_instance

/-- Modelled from the spec: what the construction of an `expression_ann` produces: the object,
or the exception `std::invalid_argument`; `what` names the kind of the error in the taxonomy of
the specification (`InputError`, `KernelIncompatible`). -/
inductive ann_construction (α : Type) where
  | ok (object : α)
  | invalid_argument (what : String)

/-- Modelled from the spec: the names of the ANN-compatible kernels. -/
def ann_kernels : List String := ["sig", "tanh", "ReLu", "ELU", "ISRU", "sum"]

/-- Modelled from the spec: the bounds `(lb, ub)` of the genes of one node of column `j`: the
function gene, then `a` connection genes. -/
def node_bounds (n r l fsize a j : Nat) : List (Nat × Nat) :=
  (0, fsize - 1) :: List.replicate a (connection_lower n r l j, connection_upper n r j)

/-- Modelled from the spec: the bounds `(lb, ub)` of all the genes, in the layout of the
chromosome: column after column and row after row the genes of a node, then the `m` output
genes. -/
def ann_gene_bounds (n m r c l : Nat) (arity : List Nat) (fsize : Nat) : List (Nat × Nat) :=
  (List.range c).flatMap
    (fun j => (List.range r).flatMap
      (fun _ => node_bounds n r l fsize (column_arity arity j) j)) ++
    List.replicate m (output_lower n r c l, output_upper n r c)

/-- Modelled from the spec: every gene is sampled uniformly from its bounds, one draw of the
random engine per gene, in the order of the chromosome. -/
def ann_random_chromosome : List (Nat × Nat) → (Nat → Nat) → List Nat × (Nat → Nat)
  | [], m_e => ([], m_e)
  | b :: t, m_e =>
    ((uniform_int_distribution b.1 b.2 m_e).1 ::
        (ann_random_chromosome t (uniform_int_distribution b.1 b.2 m_e).2).1,
      (ann_random_chromosome t (uniform_int_distribution b.1 b.2 m_e).2).2)

/-- Modelled from the spec: the constructor of `expression_ann`, with one arity per column
(a scalar arity `a` is the list of `c` copies of it). It fails if one of `n, m, r, c, l` or the
kernel list is zero, if the arity list has the wrong length or holds a zero, and if a kernel
is outside the ANN-compatible set; else it samples the chromosome within the bounds and
performs an active-set pass. The specification gives the lengths of the weight and bias
vectors and not their initial content: `weights k` and `biases k`, the initial values of the
entries `k`, are parameters. -/
def construct_ann {K : Type} [Field K] (n m r c l : Nat) (arity : List Nat) (f : List String)
    (seed : Nat → Nat) (weights biases : Nat → K) : ann_construction (expression_ann K) :=
  if n = 0 ∨ m = 0 ∨ r = 0 ∨ c = 0 ∨ l = 0 ∨ f = [] ∨ arity.length ≠ c ∨ 0 ∈ arity then
    ann_construction.invalid_argument "InputError"
  else if ∃ k ∈ f, k ∉ ann_kernels then
    ann_construction.invalid_argument "KernelIncompatible"
  else
    ann_construction.ok
      (ann_update_active
        { m_n := n, m_m := m, m_r := r, m_c := c, m_l := l, m_arity := arity, m_f := f,
          m_x := (ann_random_chromosome (ann_gene_bounds n m r c l arity f.length) seed).1,
          m_weights := (List.range (weights_before r arity c)).map weights,
          m_biases := (List.range (r * c)).map biases,
          m_active_nodes := [],
          m_e := (ann_random_chromosome (ann_gene_bounds n m r c l arity f.length) seed).2 })

/-- Modelled from the spec: the network of scenario S1, over a field `K`: shape
`(n, m, r, c, l) = (1, 1, 1, 2, 1)`, arity 1, the kernel `tanh`, weights `[0.1, 0.2]` and
biases `[0.3, 0.4]`. Every gene of this shape has a single admissible value. -/
def scenario_ann (K : Type) [Field K] : expression_ann K :=
  { m_n := 1, m_m := 1, m_r := 1, m_c := 2, m_l := 1, m_arity := [1, 1], m_f := ["tanh"],
    m_x := [0, 0, 0, 1, 2], m_weights := [0.1, 0.2], m_biases := [0.3, 0.4],
    m_active_nodes := [0, 1, 2], m_e := fun k => k }

/-- Modelled from the spec: the network of scenario S4 after `set(x)`: shape
`(n, m, r, c, l) = (2, 2, 2, 2, 5)`, arity 2, kernels `sig`, `tanh`, `ReLu`, chromosome `x`. -/
def weights_ann (x : List Nat) : expression_ann ℚ :=
  ann_update_active
    ({ m_n := 2, m_m := 2, m_r := 2, m_c := 2, m_l := 5, m_arity := [2, 2],
       m_f := ["sig", "tanh", "ReLu"], m_x := x, m_weights := List.replicate 8 1,
       m_biases := List.replicate 4 0, m_active_nodes := [], m_e := fun k => k } :
      expression_ann ℚ)

/-- The dependence of a node on another through a chain of connections, after the words of
the specification: `u` depends on itself, and a non-input node `u` depends on whatever the
target of one of its two connection genes depends on. -/
inductive depends_on (n : Nat) (x : List Nat) : Nat → Nat → Prop where
  | self (u : Nat) : depends_on n x u u
  | first (u v : Nat) (hu : n ≤ u) (h : depends_on n x (vec_at x (3 * (u - n) + 1)) v) :
      depends_on n x u v
  | second (u v : Nat) (hu : n ≤ u) (h : depends_on n x (vec_at x (3 * (u - n) + 2)) v) :
      depends_on n x u v

/-- A second chromosome of the shape of `sample_expression`; it differs from
`sample_chromosome` in genes of the nodes 2 and 4 only. -/
def sample_variant : List Nat := [0, 0, 0, 0, 0, 0, 0, 1, 1, 0, 1, 1, 3]

/-- Modelled from the spec: the loss kinds `"MSE"` and `"CE"`. -/
inductive loss_type where
  | MSE
  | CE

/-- Modelled from the spec: component `j` of the softmax of the outputs `yhat`, applied across
the outputs; `exp` is the exponential function of the numeric type. -/
def softmax {K : Type} [Field K] (exp : K → K) (yhat : List K) (j : Nat) : K :=
  exp (yhat.getD j 0) / (yhat.map exp).sum

/-- Modelled from the spec: the loss of one sample with outputs `yhat` and label `y`: for `MSE`
`(sum over j of (yhat_j - y_j)^2) / m`, for `CE` `- sum over j of y_j * log(softmax(yhat)_j)`. -/
def sample_loss {K : Type} [Field K] (exp log : K → K) (kind : loss_type) (m : Nat)
    (yhat y : List K) : K :=
  match kind with
  | loss_type.MSE =>
    ((List.range m).map (fun j => (yhat.getD j 0 - y.getD j 0) ^ 2)).sum / (m : K)
  | loss_type.CE =>
    -((List.range m).map (fun j => y.getD j 0 * log (softmax exp yhat j))).sum

/-- Modelled from the spec: `loss(input, label, kind)` on one sample: the loss of the outputs
of `evaluate`. -/
def ann_loss {K : Type} [Field K] (e : expression_ann K) (phi : String → K → K)
    (exp log : K → K) (kind : loss_type) (input label : List K) : K :=
  sample_loss exp log kind e.m_m (ann_evaluate e phi input) label

/-- Modelled from the spec: `loss(points, labels, kind, parallel_shards)` of an expression with
`n` inputs and `m` outputs (the member function `loss` is not among the sources). The call
fails with `InputError` if the numbers of points and of labels differ, if a point has not `n`
entries or a label row has not `m` entries, and if `kind` is neither `"MSE"` nor `"CE"`; else
the per-sample losses are added up, sample after sample, and the sum is divided by the number
of samples. `evaluate` is the evaluation of the expression on a point. The shards of
`parallel_shards` change the order of the additions only, and are not modelled. The numbers
are those of a field, where every output is finite: the rule that non-finite samples are
skipped has no case. -/
def loss {K : Type} [Field K] (n m : Nat) (evaluate : List K → List K) (exp log : K → K)
    (points labels : List (List K)) (kind : String) : evaluation K :=
  if points.length ≠ labels.length then evaluation.input_error "InputError"
  else if (∃ p ∈ points, p.length ≠ n) ∨ (∃ y ∈ labels, y.length ≠ m) then
    evaluation.input_error "InputError"
  else if kind = "MSE" then
    evaluation.value
      ((points.zip labels).foldl
        (fun acc s => acc + sample_loss exp log loss_type.MSE m (evaluate s.1) s.2) 0 /
          (points.length : K))
  else if kind = "CE" then
    evaluation.value
      ((points.zip labels).foldl
        (fun acc s => acc + sample_loss exp log loss_type.CE m (evaluate s.1) s.2) 0 /
          (points.length : K))
  else evaluation.input_error "InputError"

/-- Modelled from the spec: the pre-activation `z_u = b_u + sum over i of w_{u,i} * v[s_{u,i}]`
of the node `u`, from the values `v`. -/
def ann_pre_activation {K : Type} [Field K] (e : expression_ann K) (v : Nat → K) (u : Nat) : K :=
  ann_bias e u +
    ((List.range (ann_arity e u)).map
      (fun i => ann_weight e u i * v (ann_connection e u i))).sum

/-- Modelled from the spec: step 1 of the backpropagation contract at one active node: `z_u`
and `v_u = phi(z_u)` of a non-input node are computed and both recorded. The state is the pair
`(v, z)`. -/
def ann_record_visit {K : Type} [Field K] (e : expression_ann K) (phi : String → K → K)
    (s : (Nat → K) × (Nat → K)) (u : Nat) : (Nat → K) × (Nat → K) :=
  if u < e.m_n then s
  else
    (Function.update s.1 u (phi (ann_kernel e u) (ann_pre_activation e s.1 u)),
      Function.update s.2 u (ann_pre_activation e s.1 u))

/-- Modelled from the spec: step 1 of the backpropagation contract: the forward pass over the
active nodes that records `v_u` and `z_u`. -/
def ann_forward_record {K : Type} [Field K] (e : expression_ann K) (phi : String → K → K)
    (input : List K) : (Nat → K) × (Nat → K) :=
  e.m_active_nodes.foldl (ann_record_visit e phi) (fun u => input.getD u 0, fun _ => 0)

/-- Modelled from the spec: step 2 of the backpropagation contract: the output error
`dL/dyhat_k`: `2 * (yhat_k - y_k) / m` for `MSE`, `softmax(yhat)_k - y_k` for `CE`. -/
def output_error {K : Type} [Field K] (exp : K → K) (kind : loss_type) (m : Nat)
    (yhat y : List K) (k : Nat) : K :=
  match kind with
  | loss_type.MSE => 2 * (yhat.getD k 0 - y.getD k 0) / (m : K)
  | loss_type.CE => softmax exp yhat k - y.getD k 0

/-- Modelled from the spec: the linear index of the weight of the slot `i` of the node `u`. -/
def ann_weight_index {K : Type} (e : expression_ann K) (u i : Nat) : Nat :=
  weights_before e.m_r e.m_arity (node_column e.m_n e.m_r u) +
    node_row e.m_n e.m_r u * ann_arity e u + i

/-- The update `g[i] += a` of an entry of a gradient vector. -/
def accumulate {K : Type} [Field K] (g : List K) (i : Nat) (a : K) : List K :=
  g.set i (g.getD i 0 + a)

/-- Modelled from the spec: step 4 of the backpropagation contract at one active non-input
node `u`: with `dL/dz_u = delta_u * phi'(z_u)`, every slot `i` with source `s` adds
`dL/dz_u * v_s` to `grad_w[idx(u, i)]` and, if `s` is not an input, `dL/dz_u * w_{u,i}` to
`delta_s`; `dL/dz_u` is added to `grad_b[u - n]`. The state is `(delta, grad_w, grad_b)`. -/
def ann_backward_visit {K : Type} [Field K] (e : expression_ann K) (dphi : String → K → K)
    (v z : Nat → K) (s : (Nat → K) × List K × List K) (u : Nat) :
    (Nat → K) × List K × List K :=
  if u < e.m_n then s
  else
    let t := (List.range (ann_arity e u)).foldl
      (fun t i =>
        (if e.m_n ≤ ann_connection e u i then
          Function.update t.1 (ann_connection e u i)
            (t.1 (ann_connection e u i) +
              s.1 u * dphi (ann_kernel e u) (z u) * ann_weight e u i)
         else t.1,
         accumulate t.2.1 (ann_weight_index e u i)
           (s.1 u * dphi (ann_kernel e u) (z u) * v (ann_connection e u i)),
         t.2.2)) s
    (t.1, t.2.1, accumulate t.2.2 (u - e.m_n) (s.1 u * dphi (ann_kernel e u) (z u)))

/-- Modelled from the spec: `d_loss(value, grad_w, grad_b, input, label, kind)` on one sample:
the forward pass that records `v` and `z`, the outputs `yhat_k = v[out_k]`, the loss value
written to `value`, the output errors added to the accumulators `delta` of the nodes that feed
the outputs, and the walk over the active nodes in descending id order that adds the
gradients to `grad_w` and `grad_b`. The result is `(value, grad_w, grad_b)`. -/
def ann_d_loss {K : Type} [Field K] (e : expression_ann K) (phi dphi : String → K → K)
    (exp log : K → K) (kind : loss_type) (grad_w grad_b input label : List K) :
    K × List K × List K :=
  let yhat := (List.range e.m_m).map
    (fun k => (ann_forward_record e phi input).1 (ann_output_gene e k))
  let delta := (List.range e.m_m).foldl
    (fun d k => Function.update d (ann_output_gene e k)
      (d (ann_output_gene e k) + output_error exp kind e.m_m yhat label k))
    (fun _ => 0)
  let s := e.m_active_nodes.reverse.foldl
    (ann_backward_visit e dphi (ann_forward_record e phi input).1
      (ann_forward_record e phi input).2)
    (delta, grad_w, grad_b)
  (sample_loss exp log kind e.m_m yhat label, s.2.1, s.2.2)

/-! ## The gradients of `d_loss`: changes of one weight or bias, differences, activations -/

/-- Modelled from the spec: `set_weight(idx, w)`: the weight with the linear index `idx`
becomes `w`. -/
def ann_set_weight {K : Type} (e : expression_ann K) (idx : Nat) (w : K) : expression_ann K :=
  { e with m_weights := e.m_weights.set idx w }

/-- Modelled from the spec: `set_bias(node_id, b)`, by the index `j = node_id - n` of the bias:
the bias of the node `n + j` becomes `b`. -/
def ann_set_bias {K : Type} (e : expression_ann K) (j : Nat) (b : K) : expression_ann K :=
  { e with m_biases := e.m_biases.set j b }

/-- Modelled from the spec: the network after `set_weights(w)` and `set_biases(b)`. -/
def ann_set_parameters {K : Type} (e : expression_ann K) (w b : List K) : expression_ann K :=
  { e with m_weights := w, m_biases := b }

/-- The central finite difference of the single-sample loss in the weight `idx`, with the step
`h`: `(loss(w + h) - loss(w - h)) / (2 h)`, where `w` is the weight of the network. -/
def weight_difference {K : Type} [Field K] (e : expression_ann K) (phi : String → K → K)
    (exp log : K → K) (kind : loss_type) (input label : List K) (idx : Nat) (h : K) : K :=
  (ann_loss (ann_set_weight e idx (e.m_weights.getD idx 0 + h)) phi exp log kind input label -
    ann_loss (ann_set_weight e idx (e.m_weights.getD idx 0 - h)) phi exp log kind input label) /
      (2 * h)

/-- The central finite difference of the single-sample loss in the bias `j`, with the step
`h`. -/
def bias_difference {K : Type} [Field K] (e : expression_ann K) (phi : String → K → K)
    (exp log : K → K) (kind : loss_type) (input label : List K) (j : Nat) (h : K) : K :=
  (ann_loss (ann_set_bias e j (e.m_biases.getD j 0 + h)) phi exp log kind input label -
    ann_loss (ann_set_bias e j (e.m_biases.getD j 0 - h)) phi exp log kind input label) /
      (2 * h)

/-- The agreement of a gradient entry `g` with a difference quotient `d`: the error `|d - g|`
is within 5% of `|g|`, or within `1e-8`. -/
def agrees {K : Type} [LinearOrderedField K] (g d : K) : Prop :=
  |d - g| ≤ 5 / 100 * |g| ∨ |d - g| ≤ 1 / 100000000

/-- Modelled from the spec: a network with one input, one output and one node with the kernel
`ReLu`, the weight `1` and the bias `-1`: on the input `1` the pre-activation of the node
is `0`. -/
def kink_ann : expression_ann ℚ :=
  { m_n := 1, m_m := 1, m_r := 1, m_c := 1, m_l := 1, m_arity := [1], m_f := ["ReLu"],
    m_x := [0, 0, 1], m_weights := [1], m_biases := [-1], m_active_nodes := [0, 1],
    m_e := fun k => k }

/-- Modelled from the spec: a network with one input, one output and one node with the kernel
`sum`, the weight `1` and the bias `0`: the output is the input. -/
def unit_ann (K : Type) [Field K] : expression_ann K :=
  { m_n := 1, m_m := 1, m_r := 1, m_c := 1, m_l := 1, m_arity := [1], m_f := ["sum"],
    m_x := [0, 0, 1], m_weights := [1], m_biases := [0], m_active_nodes := [0, 1],
    m_e := fun k => k }
/-- Modelled from the spec: the scalar activation of a kernel, by name: `sig(z) = 1/(1+e^{-z})`,
`tanh`, `ReLu(z) = max(0, z)`, `ELU(z) = z` if `z > 0` else `e^z - 1`,
`ISRU(z) = z / sqrt(1 + z^2)`, and the identity for `sum`; `exp`, `tanh` and `sqrt` are the
functions of the numeric type. -/
def activation {K : Type} [LinearOrderedField K] (exp tanh sqrt : K → K) (k : String) (z : K) :
    K :=
  if k = "sig" then 1 / (1 + exp (-z))
  else if k = "tanh" then tanh z
  else if k = "ReLu" then max 0 z
  else if k = "ELU" then (if 0 < z then z else exp z - 1)
  else if k = "ISRU" then z / sqrt (1 + z ^ 2)
  else z

/-- Modelled from the spec: the derivative that step 4 of the backpropagation contract uses
for a kernel: `sig' = sig (1 - sig)`, `tanh' = 1 - tanh^2`, `ReLu' = 1` if `z > 0` else `0`,
`ELU' = 1` if `z > 0` else `e^z`, `ISRU' = (1 + z^2)^(-3/2)`, and `1` for `sum`. -/
def activation_derivative {K : Type} [LinearOrderedField K] (exp tanh sqrt : K → K)
    (k : String) (z : K) : K :=
  if k = "sig" then 1 / (1 + exp (-z)) * (1 - 1 / (1 + exp (-z)))
  else if k = "tanh" then 1 - tanh z ^ 2
  else if k = "ReLu" then (if 0 < z then 1 else 0)
  else if k = "ELU" then (if 0 < z then 1 else exp z)
  else if k = "ISRU" then 1 / sqrt (1 + z ^ 2) ^ 3
  else 1
/-- The visit of one active node by the pass that propagates a variation of the weights and
biases through the network: with `dw u i` and `db u` the variations of the weight `w_{u,i}` and
of the bias `b_u`, and `v`, `z` the recorded values and pre-activations, the variation of the
value of a non-input node `u` is
`phi'(z_u) * (db u + sum over the slots i of (dw u i * v[s_{u,i}] + w_{u,i} * d[s_{u,i}]))`. -/
def ann_tangent_visit {K : Type} [Field K] (e : expression_ann K) (dphi : String → K → K)
    (v z : Nat → K) (dw : Nat → Nat → K) (db : Nat → K) (d : Nat → K) (u : Nat) : Nat → K :=
  if u < e.m_n then d
  else
    Function.update d u
      (dphi (ann_kernel e u) (z u) *
        (db u + ((List.range (ann_arity e u)).map
          (fun i => dw u i * v (ann_connection e u i) +
            ann_weight e u i * d (ann_connection e u i))).sum))

/-- The variation of the value of every node along a variation of the weights and biases: the
pass over the active nodes in ascending id order; inputs and inactive nodes do not vary. -/
def ann_tangent {K : Type} [Field K] (e : expression_ann K) (dphi : String → K → K)
    (v z : Nat → K) (dw : Nat → Nat → K) (db : Nat → K) : Nat → K :=
  e.m_active_nodes.foldl (ann_tangent_visit e dphi v z dw db) (fun _ => 0)

/-! ## Machine arithmetic without overflow -/

theorem uadd_eq {a b : Nat} (h : a + b < UINT_RANGE) : uadd a b = a + b :=
  Nat.mod_eq_of_lt h

theorem umul_eq {a b : Nat} (h : a * b < UINT_RANGE) : umul a b = a * b :=
  Nat.mod_eq_of_lt h

theorem usub_eq {a b : Nat} (hb : b ≤ a) (ha : a < UINT_RANGE) : usub a b = a - b := by
  unfold usub
  have hb1 : b < UINT_RANGE := lt_of_le_of_lt hb ha
  rw [Nat.mod_eq_of_lt ha, Nat.mod_eq_of_lt hb1]
  have : a + (UINT_RANGE - b) = (a - b) + UINT_RANGE := by omega
  rw [this, Nat.add_mod_right]
  exact Nat.mod_eq_of_lt (by omega)

theorem uadd_lt (a b : Nat) : uadd a b < UINT_RANGE := Nat.mod_lt _ (by decide)

theorem umul_lt (a b : Nat) : umul a b < UINT_RANGE := Nat.mod_lt _ (by decide)

theorem usub_lt (a b : Nat) : usub a b < UINT_RANGE := Nat.mod_lt _ (by decide)

theorem umul_le (a b : Nat) : umul a b ≤ a * b := Nat.mod_le _ _

/-- The unsigned value of `n + a - 1` is below `n + b` for `a ≤ b`, also when it wraps. -/
theorem usub_one_lt {n a b : Nat} (hn : 0 < n) (hab : a ≤ b) : usub (uadd n a) 1 < n + b := by
  unfold usub uadd UINT_RANGE
  omega

/-! ## Vectors and loops -/

theorem vec_at_of_lt {v : List Nat} {i : Nat} (h : i < v.length) : vec_at v i = v[i] := by
  unfold vec_at
  exact List.getD_eq_getElem v 0 h

theorem vec_at_of_le {v : List Nat} {i : Nat} (h : v.length ≤ i) : vec_at v i = 0 := by
  unfold vec_at
  exact List.getD_eq_default v 0 h

theorem vec_at_set (v : List Nat) (q a p : Nat) :
    vec_at (v.set q a) p = if p = q ∧ q < v.length then a else vec_at v p := by
  unfold vec_at
  simp only [List.getD_eq_getElem?_getD, List.getElem?_set]
  by_cases hpq : q = p
  · subst hpq
    by_cases hq : q < v.length
    · simp [hq]
    · simp [hq, List.getElem?_eq_none (not_lt.mp hq)]
  · have : ¬ (p = q ∧ q < v.length) := fun h => hpq h.1.symm
    simp [hpq, this]

theorem vec_at_replicate (k p : Nat) : vec_at (List.replicate k 0) p = 0 := by
  unfold vec_at
  by_cases h : p < k
  · rw [List.getD_eq_getElem _ _ (by simpa using h)]; simp
  · exact List.getD_eq_default _ _ (by simpa using h)

theorem vec_at_mem {v : List Nat} {i : Nat} (h : i < v.length) : vec_at v i ∈ v := by
  rw [vec_at_of_lt h]; exact List.getElem_mem h

theorem for_range_zero {σ : Type} (body : Nat → σ → σ) (s : σ) : for_range 0 body s = s := rfl

theorem for_range_succ {σ : Type} (k : Nat) (body : Nat → σ → σ) (s : σ) :
    for_range (k + 1) body s = body k (for_range k body s) := by
  unfold for_range
  rw [List.range_succ, List.foldl_append]
  rfl

/-- Loop invariant rule for `for_range`. -/
theorem for_range_invariant {σ : Type} (P : Nat → σ → Prop) (k : Nat) (body : Nat → σ → σ)
    (s : σ) (h0 : P 0 s) (hstep : ∀ i t, i < k → P i t → P (i + 1) (body i t)) :
    P k (for_range k body s) := by
  induction k with
  | zero => exact h0
  | succ k ih =>
    rw [for_range_succ]
    exact hstep k _ (Nat.lt_succ_self k)
      (ih (fun i t hi hp => hstep i t (Nat.lt_succ_of_lt hi) hp))

/-! ## The bounds built by the constructor -/

theorem umul3_eq {r c : Nat} (h : 3 * (r * c) < UINT_RANGE) :
    umul (umul 3 r) c = 3 * (r * c) := by
  unfold umul
  rw [Nat.mod_mul_mod, Nat.mul_assoc]
  exact Nat.mod_eq_of_lt h

theorem cell_lt {i j r c : Nat} (hi : i < c) (hj : j < r) : i * r + j < r * c := by
  have h1 : (i + 1) * r ≤ c * r := Nat.mul_le_mul_right r hi
  rw [Nat.succ_mul] at h1
  rw [Nat.mul_comm r c]
  omega

theorem cell_div {i j r : Nat} (hj : j < r) : (i * r + j) / r = i := by
  have hr : 0 < r := by omega
  rw [Nat.mul_comm i r, Nat.mul_add_div hr, Nat.div_eq_of_lt hj, Nat.add_zero]

/-- After the loop on the function genes, from the zero vectors of length `S`. -/
theorem function_gene_bounds_spec (r c fsize S : Nat)
    (hS : 3 * (r * c) ≤ S) (hU : 3 * (r * c) < UINT_RANGE) :
    (function_gene_bounds r c fsize (List.replicate S 0, List.replicate S 0)).1
        = List.replicate S 0 ∧
    (function_gene_bounds r c fsize (List.replicate S 0, List.replicate S 0)).2.length = S ∧
    ∀ p, vec_at (function_gene_bounds r c fsize
        (List.replicate S 0, List.replicate S 0)).2 p =
      if p % 3 = 0 ∧ p < 3 * (r * c) then (fsize - 1) % UINT_RANGE else 0 := by
  unfold function_gene_bounds
  rw [umul3_eq hU]
  have hk : (3 * (r * c) + 2) / 3 = r * c := by omega
  rw [hk]
  refine for_range_invariant
    (fun i (s : List Nat × List Nat) => s.1 = List.replicate S 0 ∧ s.2.length = S ∧
      ∀ p, vec_at s.2 p = if p % 3 = 0 ∧ p < 3 * i then (fsize - 1) % UINT_RANGE else 0)
    (r * c) _ _ ?_ ?_
  · refine ⟨rfl, by simp, fun p => ?_⟩
    rw [vec_at_replicate]
    simp
  · rintro i t hi ⟨h1, h2, h3⟩
    refine ⟨h1, by simpa using h2, fun p => ?_⟩
    simp only [vec_at_set, h3 p, h2]
    by_cases hp : p = 3 * i
    · subst hp
      have : 3 * i < S := by omega
      simp [this]
    · have e : (p % 3 = 0 ∧ p < 3 * (i + 1)) ↔ (p % 3 = 0 ∧ p < 3 * i) := by omega
      simp only [hp, false_and, if_false, e]


theorem mul_le_cells {i r c : Nat} (hi : i ≤ c) : i * r ≤ r * c := by
  rw [Nat.mul_comm r c]
  exact Nat.mul_le_mul_right r hi

theorem ub_output_val {n r c : Nat} (hn : 0 < n) (h : n + r * c < UINT_RANGE) :
    usub (uadd n (umul r c)) 1 = n + r * c - 1 := by
  rw [umul_eq (by omega), uadd_eq h, usub_eq (by omega) h]

theorem lb_val {n r c i l : Nat} (hr : 0 < r) (h : n + r * c < UINT_RANGE) (hi : i ≤ c)
    (hl : l ≤ i) : uadd n (umul r (usub i l)) = n + r * (i - l) := by
  have hc : c ≤ r * c := Nat.le_mul_of_pos_left c hr
  have h1 : r * (i - l) ≤ r * c := Nat.mul_le_mul_left r (by omega)
  rw [usub_eq hl (by omega), umul_eq (by omega), uadd_eq (by omega)]

theorem ub_conn_val {n r c i : Nat} (hn : 0 < n) (h : n + r * c < UINT_RANGE) (hi : i ≤ c) :
    usub (uadd n (umul i r)) 1 = n + i * r - 1 := by
  have h1 : i * r ≤ r * c := mul_le_cells hi
  rw [umul_eq (by omega), uadd_eq (by omega), usub_eq (by omega) (by omega)]

theorem conn_index {i j r c : Nat} (hi : i < c) (hj : j < r) (hU : 3 * (r * c) < UINT_RANGE) :
    umul (uadd (umul i r) j) 3 = 3 * (i * r + j) := by
  have h1 : i * r + j < r * c := cell_lt hi hj
  have e1 : umul i r = i * r := umul_eq (by omega)
  have e2 : uadd (i * r) j = i * r + j := uadd_eq (by omega)
  have e3 : umul (i * r + j) 3 = (i * r + j) * 3 := umul_eq (by omega)
  rw [e1, e2, e3]
  omega

theorem ub_conn_val_exact {n r i : Nat} (hn : 0 < n) (h : n + i * r - 1 < UINT_RANGE) :
    usub (uadd n (umul i r)) 1 = n + i * r - 1 := by
  have e1 : umul i r = i * r := umul_eq (by omega)
  rw [e1]
  unfold usub uadd
  unfold UINT_RANGE at *
  omega

theorem lb_val_exact {n r i l : Nat} (hn : 0 < n) (hr : 0 < r) (hl : 0 < l) (hli : l ≤ i)
    (h : n + i * r - 1 < UINT_RANGE) : uadd n (umul r (usub i l)) = n + r * (i - l) := by
  have h0 : i ≤ i * r := Nat.le_mul_of_pos_right i hr
  have h1 : r * (i - l) + r = r * (i - l + 1) := by rw [Nat.mul_add, Nat.mul_one]
  have h2 : r * (i - l + 1) ≤ r * i := Nat.mul_le_mul_left r (by omega)
  rw [Nat.mul_comm r i] at h2
  rw [usub_eq hli (by omega), umul_eq (by omega), uadd_eq (by omega)]

/-- After the loop on the output genes, from a state of two vectors of length `3*r*c + m`. -/
theorem output_gene_bounds_spec (n m r c l : Nat) (s : List Nat × List Nat)
    (h2 : 3 * (r * c) + m < UINT_RANGE)
    (hs1 : s.1.length = 3 * (r * c) + m) (hs2 : s.2.length = 3 * (r * c) + m) :
    (output_gene_bounds n r c l s).1.length = 3 * (r * c) + m ∧
    (output_gene_bounds n r c l s).2.length = 3 * (r * c) + m ∧
    ∀ p, vec_at (output_gene_bounds n r c l s).2 p =
        (if 3 * (r * c) ≤ p ∧ p < 3 * (r * c) + m then usub (uadd n (umul r c)) 1 else vec_at s.2 p) ∧
      vec_at (output_gene_bounds n r c l s).1 p =
        (if 3 * (r * c) ≤ p ∧ p < 3 * (r * c) + m ∧ l ≤ c then uadd n (umul r (usub c l))
         else vec_at s.1 p) := by
  unfold output_gene_bounds
  rw [umul3_eq (by omega), hs2]
  have hk : 3 * (r * c) + m - 3 * (r * c) = m := by omega
  rw [hk]
  refine for_range_invariant
    (fun i (t : List Nat × List Nat) => t.1.length = 3 * (r * c) + m ∧
      t.2.length = 3 * (r * c) + m ∧
      ∀ p, vec_at t.2 p =
          (if 3 * (r * c) ≤ p ∧ p < 3 * (r * c) + i then usub (uadd n (umul r c)) 1 else vec_at s.2 p) ∧
        vec_at t.1 p =
          (if 3 * (r * c) ≤ p ∧ p < 3 * (r * c) + i ∧ l ≤ c then uadd n (umul r (usub c l))
           else vec_at s.1 p))
    m _ _ ?_ ?_
  · refine ⟨hs1, hs2, fun p => ⟨?_, ?_⟩⟩
    · have : ¬ (3 * (r * c) ≤ p ∧ p < 3 * (r * c) + 0) := by omega
      simp only [this, if_false]
    · have : ¬ (3 * (r * c) ≤ p ∧ p < 3 * (r * c) + 0 ∧ l ≤ c) := by omega
      simp only [this, if_false]
  · rintro i t hi ⟨ht1, ht2, ht3⟩
    by_cases hl : l ≤ c
    · simp only [hl, if_true, List.length_set, and_true]
      refine ⟨ht1, ht2, fun p => ?_⟩
      simp only [vec_at_set, ht1, ht2, (ht3 p).1, (ht3 p).2]
      have hq : 3 * (r * c) + i < 3 * (r * c) + m := by omega
      simp only [hq, and_true, hl]
      by_cases hp : p = 3 * (r * c) + i
      · subst hp
        have e1 : 3 * (r * c) ≤ 3 * (r * c) + i ∧ 3 * (r * c) + i < 3 * (r * c) + (i + 1) := by
          omega
        simp [e1]
      · have e1 : (3 * (r * c) ≤ p ∧ p < 3 * (r * c) + (i + 1)) ↔
            (3 * (r * c) ≤ p ∧ p < 3 * (r * c) + i) := by omega
        simp only [hp, if_false, e1]
        trivial
    · simp only [hl, if_false, List.length_set, and_false]
      refine ⟨ht1, ht2, fun p => ?_⟩
      simp only [vec_at_set, ht2, (ht3 p).1, (ht3 p).2]
      have hq : 3 * (r * c) + i < 3 * (r * c) + m := by omega
      simp only [hq, and_true, hl, and_false, if_false]
      by_cases hp : p = 3 * (r * c) + i
      · subst hp
        have e1 : 3 * (r * c) ≤ 3 * (r * c) + i ∧ 3 * (r * c) + i < 3 * (r * c) + (i + 1) := by
          omega
        simp [e1]
      · have e1 : (3 * (r * c) ≤ p ∧ p < 3 * (r * c) + (i + 1)) ↔
            (3 * (r * c) ≤ p ∧ p < 3 * (r * c) + i) := by omega
        simp only [hp, if_false, e1]

/-- Invariant of the loops on the connection genes: the cells before `bound` are done. -/
theorem connection_gene_bounds_step (n m r c l i j : Nat) (s t : List Nat × List Nat)
    (h2 : 3 * (r * c) + m < UINT_RANGE)
    (hi : i < c) (hj : j < r)
    (ht : t.1.length = 3 * (r * c) + m ∧ t.2.length = 3 * (r * c) + m ∧
      ∀ p, vec_at t.2 p =
          (if p % 3 ≠ 0 ∧ p < 3 * (i * r + j) then usub (uadd n (umul (p / 3 / r) r)) 1 else vec_at s.2 p) ∧
        vec_at t.1 p =
          (if p % 3 ≠ 0 ∧ p < 3 * (i * r + j) ∧ l ≤ p / 3 / r then uadd n (umul r (usub (p / 3 / r) l))
           else vec_at s.1 p)) :
    let g := umul (uadd (umul i r) j) 3
    let ub := (t.2.set (uadd g 1) (usub (uadd n (umul i r)) 1)).set (uadd g 2)
      (usub (uadd n (umul i r)) 1)
    let t1 : List Nat × List Nat :=
      if l ≤ i then
        ((t.1.set (uadd g 1) (uadd n (umul r (usub i l)))).set (uadd g 2)
          (uadd n (umul r (usub i l))), ub)
      else (t.1, ub)
    t1.1.length = 3 * (r * c) + m ∧ t1.2.length = 3 * (r * c) + m ∧
      ∀ p, vec_at t1.2 p =
          (if p % 3 ≠ 0 ∧ p < 3 * (i * r + (j + 1)) then usub (uadd n (umul (p / 3 / r) r)) 1
           else vec_at s.2 p) ∧
        vec_at t1.1 p =
          (if p % 3 ≠ 0 ∧ p < 3 * (i * r + (j + 1)) ∧ l ≤ p / 3 / r
           then uadd n (umul r (usub (p / 3 / r) l)) else vec_at s.1 p) := by
  obtain ⟨ht1, ht2, ht3⟩ := ht
  have hq : i * r + j < r * c := cell_lt hi hj
  have hg : umul (uadd (umul i r) j) 3 = 3 * (i * r + j) := conn_index hi hj (by omega)
  have hg1 : uadd (3 * (i * r + j)) 1 = 3 * (i * r + j) + 1 := uadd_eq (by omega)
  have hg2 : uadd (3 * (i * r + j)) 2 = 3 * (i * r + j) + 2 := uadd_eq (by omega)
  have hd1 : (3 * (i * r + j) + 1) / 3 / r = i := by
    have : (3 * (i * r + j) + 1) / 3 = i * r + j := by omega
    rw [this, cell_div hj]
  have hd2 : (3 * (i * r + j) + 2) / 3 / r = i := by
    have : (3 * (i * r + j) + 2) / 3 = i * r + j := by omega
    rw [this, cell_div hj]
  have hin1 : 3 * (i * r + j) + 1 < 3 * (r * c) + m := by omega
  have hin2 : 3 * (i * r + j) + 2 < 3 * (r * c) + m := by omega
  have hm1 : (3 * (i * r + j) + 1) % 3 ≠ 0 ∧
      3 * (i * r + j) + 1 < 3 * (i * r + (j + 1)) := by omega
  have hm2 : (3 * (i * r + j) + 2) % 3 ≠ 0 ∧
      3 * (i * r + j) + 2 < 3 * (i * r + (j + 1)) := by omega
  have hub : ∀ p, vec_at ((t.2.set (3 * (i * r + j) + 1) (usub (uadd n (umul i r)) 1)).set
      (3 * (i * r + j) + 2) (usub (uadd n (umul i r)) 1)) p =
      (if p % 3 ≠ 0 ∧ p < 3 * (i * r + (j + 1)) then usub (uadd n (umul (p / 3 / r) r)) 1
       else vec_at s.2 p) := by
    intro p
    simp only [vec_at_set, List.length_set, ht2, hin1, hin2, and_true, (ht3 p).1]
    by_cases hp2 : p = 3 * (i * r + j) + 2
    · subst hp2
      simp only [if_true, hm2, hd2, and_self]
      rw [if_pos ⟨hm2.1, trivial⟩]
    · by_cases hp1 : p = 3 * (i * r + j) + 1
      · subst hp1
        simp only [if_true, hm1, hd1, and_self, hp2, if_false]
        rw [if_pos ⟨hm1.1, trivial⟩]
      · have e : (p % 3 ≠ 0 ∧ p < 3 * (i * r + (j + 1))) ↔
            (p % 3 ≠ 0 ∧ p < 3 * (i * r + j)) := by omega
        simp only [hp1, hp2, if_false, e]
  intro g ub t1
  have hub_eq : ub = (t.2.set (3 * (i * r + j) + 1) (usub (uadd n (umul i r)) 1)).set
      (3 * (i * r + j) + 2) (usub (uadd n (umul i r)) 1) := by
    show (t.2.set (uadd (umul (uadd (umul i r) j) 3) 1) (usub (uadd n (umul i r)) 1)).set
      (uadd (umul (uadd (umul i r) j) 3) 2) (usub (uadd n (umul i r)) 1) = _
    rw [hg, hg1, hg2]
  by_cases hl : l ≤ i
  · have ht1_eq : t1 = ((t.1.set (3 * (i * r + j) + 1) (uadd n (umul r (usub i l)))).set
        (3 * (i * r + j) + 2) (uadd n (umul r (usub i l))), ub) := by
      show (if l ≤ i then
        ((t.1.set (uadd (umul (uadd (umul i r) j) 3) 1) (uadd n (umul r (usub i l)))).set
          (uadd (umul (uadd (umul i r) j) 3) 2) (uadd n (umul r (usub i l))), ub)
        else (t.1, ub)) = _
      rw [if_pos hl, hg, hg1, hg2]
    rw [ht1_eq, hub_eq]
    refine ⟨by simp [ht1], by simp [ht2], fun p => ⟨hub p, ?_⟩⟩
    simp only [vec_at_set, List.length_set, ht1, hin1, hin2, and_true, (ht3 p).2]
    by_cases hp2 : p = 3 * (i * r + j) + 2
    · subst hp2
      simp only [if_true, hm2, hd2, hl, and_self]
      rw [if_pos ⟨hm2.1, trivial⟩]
    · by_cases hp1 : p = 3 * (i * r + j) + 1
      · subst hp1
        simp only [if_true, hm1, hd1, hl, and_self, hp2, if_false]
        rw [if_pos ⟨hm1.1, trivial⟩]
      · have e : (p % 3 ≠ 0 ∧ p < 3 * (i * r + (j + 1)) ∧ l ≤ p / 3 / r) ↔
            (p % 3 ≠ 0 ∧ p < 3 * (i * r + j) ∧ l ≤ p / 3 / r) := by
          constructor
          · rintro ⟨a, b, d⟩
            exact ⟨a, by omega, d⟩
          · rintro ⟨a, b, d⟩
            exact ⟨a, by omega, d⟩
        simp only [hp1, hp2, if_false, e]
  · have ht1_eq : t1 = (t.1, ub) := by
      show (if l ≤ i then _ else (t.1, ub)) = _
      rw [if_neg hl]
    rw [ht1_eq, hub_eq]
    refine ⟨ht1, by simp [ht2], fun p => ⟨hub p, ?_⟩⟩
    simp only [(ht3 p).2]
    by_cases hp2 : p = 3 * (i * r + j) + 2
    · subst hp2
      have a1 : ¬ ((3 * (i * r + j) + 2) % 3 ≠ 0 ∧
          3 * (i * r + j) + 2 < 3 * (i * r + j) ∧ l ≤ (3 * (i * r + j) + 2) / 3 / r) := by
        omega
      have a2 : ¬ ((3 * (i * r + j) + 2) % 3 ≠ 0 ∧
          3 * (i * r + j) + 2 < 3 * (i * r + (j + 1)) ∧
          l ≤ (3 * (i * r + j) + 2) / 3 / r) := by
        rw [hd2]; omega
      simp only [a1, a2, if_false]
    · by_cases hp1 : p = 3 * (i * r + j) + 1
      · subst hp1
        have a1 : ¬ ((3 * (i * r + j) + 1) % 3 ≠ 0 ∧
            3 * (i * r + j) + 1 < 3 * (i * r + j) ∧ l ≤ (3 * (i * r + j) + 1) / 3 / r) := by
          omega
        have a2 : ¬ ((3 * (i * r + j) + 1) % 3 ≠ 0 ∧
            3 * (i * r + j) + 1 < 3 * (i * r + (j + 1)) ∧
            l ≤ (3 * (i * r + j) + 1) / 3 / r) := by
          rw [hd1]; omega
        simp only [a1, a2, if_false]
      · have e : (p % 3 ≠ 0 ∧ p < 3 * (i * r + (j + 1)) ∧ l ≤ p / 3 / r) ↔
            (p % 3 ≠ 0 ∧ p < 3 * (i * r + j) ∧ l ≤ p / 3 / r) := by
          constructor
          · rintro ⟨a, b, d⟩
            exact ⟨a, by omega, d⟩
          · rintro ⟨a, b, d⟩
            exact ⟨a, by omega, d⟩
        simp only [e]

/-- After the double loop on the connection genes, from a state of two vectors of length
`3*r*c + m`. -/
theorem connection_gene_bounds_spec (n m r c l : Nat) (s : List Nat × List Nat)
    (h2 : 3 * (r * c) + m < UINT_RANGE)
    (hs1 : s.1.length = 3 * (r * c) + m) (hs2 : s.2.length = 3 * (r * c) + m) :
    (connection_gene_bounds n r c l s).1.length = 3 * (r * c) + m ∧
    (connection_gene_bounds n r c l s).2.length = 3 * (r * c) + m ∧
    ∀ p, vec_at (connection_gene_bounds n r c l s).2 p =
        (if p % 3 ≠ 0 ∧ p < 3 * (r * c) then usub (uadd n (umul (p / 3 / r) r)) 1 else vec_at s.2 p) ∧
      vec_at (connection_gene_bounds n r c l s).1 p =
        (if p % 3 ≠ 0 ∧ p < 3 * (r * c) ∧ l ≤ p / 3 / r then uadd n (umul r (usub (p / 3 / r) l))
         else vec_at s.1 p) := by
  unfold connection_gene_bounds
  have key := for_range_invariant
    (fun i (t : List Nat × List Nat) => t.1.length = 3 * (r * c) + m ∧
      t.2.length = 3 * (r * c) + m ∧
      ∀ p, vec_at t.2 p =
          (if p % 3 ≠ 0 ∧ p < 3 * (i * r + 0) then usub (uadd n (umul (p / 3 / r) r)) 1 else vec_at s.2 p) ∧
        vec_at t.1 p =
          (if p % 3 ≠ 0 ∧ p < 3 * (i * r + 0) ∧ l ≤ p / 3 / r then uadd n (umul r (usub (p / 3 / r) l))
           else vec_at s.1 p))
    c
    (fun i s => for_range r
      (fun j s =>
        let g := umul (uadd (umul i r) j) 3
        let ub := (s.2.set (uadd g 1) (usub (uadd n (umul i r)) 1)).set (uadd g 2)
          (usub (uadd n (umul i r)) 1)
        if l ≤ i then
          ((s.1.set (uadd g 1) (uadd n (umul r (usub i l)))).set (uadd g 2)
            (uadd n (umul r (usub i l))), ub)
        else (s.1, ub)) s)
    s ?_ ?_
  · have e : c * r + 0 = r * c := by rw [Nat.add_zero, Nat.mul_comm]
    simp only [e] at key
    exact key
  · refine ⟨hs1, hs2, fun p => ⟨?_, ?_⟩⟩
    · have : ¬ (p % 3 ≠ 0 ∧ p < 3 * (0 * r + 0)) := by omega
      rw [if_neg this]
    · have : ¬ (p % 3 ≠ 0 ∧ p < 3 * (0 * r + 0) ∧ l ≤ p / 3 / r) := by omega
      rw [if_neg this]
  · intro i t hi ht
    have inner := for_range_invariant
      (fun j (t : List Nat × List Nat) => t.1.length = 3 * (r * c) + m ∧
        t.2.length = 3 * (r * c) + m ∧
        ∀ p, vec_at t.2 p =
            (if p % 3 ≠ 0 ∧ p < 3 * (i * r + j) then usub (uadd n (umul (p / 3 / r) r)) 1
             else vec_at s.2 p) ∧
          vec_at t.1 p =
            (if p % 3 ≠ 0 ∧ p < 3 * (i * r + j) ∧ l ≤ p / 3 / r then uadd n (umul r (usub (p / 3 / r) l))
             else vec_at s.1 p))
      r
      (fun j s =>
        let g := umul (uadd (umul i r) j) 3
        let ub := (s.2.set (uadd g 1) (usub (uadd n (umul i r)) 1)).set (uadd g 2)
          (usub (uadd n (umul i r)) 1)
        if l ≤ i then
          ((s.1.set (uadd g 1) (uadd n (umul r (usub i l)))).set (uadd g 2)
            (uadd n (umul r (usub i l))), ub)
        else (s.1, ub))
      t ht
      (fun j u hj hu => connection_gene_bounds_step n m r c l i j s u h2 hi hj hu)
    have e : (i + 1) * r + 0 = i * r + r := by rw [Nat.add_zero, Nat.succ_mul]
    simp only [e]
    exact inner

/-- The vectors `m_lb` and `m_ub` built by the constructor, gene by gene, in the arithmetic of
the machine, when the length `3*r*c + m` does not overflow. -/
theorem bounds_machine (n m r c l fsize : Nat) (h2 : 3 * (r * c) + m < UINT_RANGE) :
    (bounds n m r c l fsize).1.length = 3 * (r * c) + m ∧
    (bounds n m r c l fsize).2.length = 3 * (r * c) + m ∧
    ∀ p, vec_at (bounds n m r c l fsize).2 p =
        (if p < 3 * (r * c) then
          (if p % 3 = 0 then (fsize - 1) % UINT_RANGE else usub (uadd n (umul (p / 3 / r) r)) 1)
         else if p < 3 * (r * c) + m then usub (uadd n (umul r c)) 1 else 0) ∧
      vec_at (bounds n m r c l fsize).1 p =
        (if p < 3 * (r * c) then
          (if p % 3 = 0 then 0 else if l ≤ p / 3 / r then uadd n (umul r (usub (p / 3 / r) l)) else 0)
         else if p < 3 * (r * c) + m then (if l ≤ c then uadd n (umul r (usub c l)) else 0) else 0) := by
  unfold bounds
  have hsize : uadd (umul (umul 3 r) c) m = 3 * (r * c) + m := by
    rw [umul3_eq (by omega), uadd_eq h2]
  simp only [hsize]
  obtain ⟨a1, a2, a3⟩ := function_gene_bounds_spec r c fsize (3 * (r * c) + m) (by omega)
    (by omega)
  have a1len : (function_gene_bounds r c fsize
      (List.replicate (3 * (r * c) + m) 0, List.replicate (3 * (r * c) + m) 0)).1.length
      = 3 * (r * c) + m := by rw [a1]; simp
  obtain ⟨b1, b2, b3⟩ := output_gene_bounds_spec n m r c l _ h2 a1len a2
  obtain ⟨c1, c2, c3⟩ := connection_gene_bounds_spec n m r c l _ h2 b1 b2
  refine ⟨c1, c2, fun p => ?_⟩
  rw [(c3 p).1, (c3 p).2, (b3 p).1, (b3 p).2, a3 p, a1, vec_at_replicate]
  constructor
  · by_cases hp : p < 3 * (r * c)
    · by_cases hp3 : p % 3 = 0
      · have x1 : ¬ (3 * (r * c) ≤ p ∧ p < 3 * (r * c) + m) := by omega
        simp only [hp, hp3, ne_eq, not_true_eq_false, false_and, if_false, x1, and_self,
          if_true]
      · simp only [hp, hp3, ne_eq, not_false_eq_true, and_self, if_true, if_false]
    · by_cases hp2 : p < 3 * (r * c) + m
      · have x1 : 3 * (r * c) ≤ p ∧ p < 3 * (r * c) + m := by omega
        simp only [hp, and_false, if_false, x1, and_self, if_true, hp2]
      · have x1 : ¬ (3 * (r * c) ≤ p ∧ p < 3 * (r * c) + m) := by omega
        simp only [hp, and_false, if_false, x1, hp2]
  · by_cases hp : p < 3 * (r * c)
    · by_cases hp3 : p % 3 = 0
      · have x1 : ¬ (3 * (r * c) ≤ p ∧ p < 3 * (r * c) + m ∧ l ≤ c) := by omega
        simp only [hp, hp3, ne_eq, not_true_eq_false, false_and, if_false, x1, if_true]
      · have x1 : ¬ (3 * (r * c) ≤ p ∧ p < 3 * (r * c) + m ∧ l ≤ c) := by omega
        by_cases hl : l ≤ p / 3 / r
        · simp only [hp, hp3, ne_eq, not_false_eq_true, hl, and_self, if_true, if_false]
        · simp only [hp, hp3, ne_eq, not_false_eq_true, hl, and_false, x1, if_true, if_false]
    · by_cases hp2 : p < 3 * (r * c) + m
      · by_cases hl : l ≤ c
        · have x1 : 3 * (r * c) ≤ p ∧ p < 3 * (r * c) + m ∧ l ≤ c := ⟨by omega, hp2, hl⟩
          simp only [hp, false_and, and_false, if_false, x1, and_self, if_true, hp2, hl]
        · simp only [hp, false_and, and_false, if_false, hp2, hl, if_true]
      · have x1 : ¬ (3 * (r * c) ≤ p ∧ p < 3 * (r * c) + m ∧ l ≤ c) := by omega
        simp only [hp, false_and, and_false, if_false, x1, hp2]

/-- The vectors `m_lb` and `m_ub` built by the constructor, gene by gene, when nothing
overflows: length `3*r*c + m`; function genes in `[0, |f| - 1]`; connection genes of column
`j` in `[n + r*(j - l) or 0, n + j*r - 1]`; output genes in `[n + r*(c - l) or 0, n + r*c - 1]`. -/
theorem bounds_spec (n m r c l fsize : Nat) (hn : 0 < n) (hr : 0 < r)
    (h1 : n + r * c < UINT_RANGE) (h2 : 3 * (r * c) + m < UINT_RANGE) :
    (bounds n m r c l fsize).1.length = 3 * (r * c) + m ∧
    (bounds n m r c l fsize).2.length = 3 * (r * c) + m ∧
    ∀ p, vec_at (bounds n m r c l fsize).2 p =
        (if p < 3 * (r * c) then
          (if p % 3 = 0 then (fsize - 1) % UINT_RANGE else n + p / 3 / r * r - 1)
         else if p < 3 * (r * c) + m then n + r * c - 1 else 0) ∧
      vec_at (bounds n m r c l fsize).1 p =
        (if p < 3 * (r * c) then
          (if p % 3 = 0 then 0 else if l ≤ p / 3 / r then n + r * (p / 3 / r - l) else 0)
         else if p < 3 * (r * c) + m then (if l ≤ c then n + r * (c - l) else 0) else 0) := by
  obtain ⟨b1, b2, b3⟩ := bounds_machine n m r c l fsize h2
  refine ⟨b1, b2, fun p => ?_⟩
  rw [(b3 p).1, (b3 p).2, ub_output_val hn h1]
  by_cases hp : p < 3 * (r * c)
  · have hcol : p / 3 / r < c := by
      rw [Nat.div_lt_iff_lt_mul hr, Nat.mul_comm]
      omega
    rw [if_pos hp, if_pos hp, if_pos hp, if_pos hp, ub_conn_val hn h1 (le_of_lt hcol)]
    refine ⟨rfl, ?_⟩
    by_cases hl : l ≤ p / 3 / r
    · rw [lb_val hr h1 (le_of_lt hcol) hl]
    · rw [if_neg hl, if_neg hl]
  · rw [if_neg hp, if_neg hp, if_neg hp, if_neg hp]
    refine ⟨rfl, ?_⟩
    by_cases hl : l ≤ c
    · rw [lb_val hr h1 (le_refl c) hl]
    · rw [if_neg hl, if_neg hl]

/-! ## Validity and the sampled chromosome -/

theorem is_valid_iff {F : Type} (e : expression F) (x : List Nat) :
    is_valid e x = true ↔
      x.length = e.m_lb.length ∧
      ∀ i, i < x.length → vec_at e.m_lb i ≤ vec_at x i ∧ vec_at x i ≤ vec_at e.m_ub i := by
  unfold is_valid
  by_cases hlen : x.length = e.m_lb.length
  · simp only [hlen, ne_eq, not_true_eq_false, if_false, List.all_eq_true, List.mem_range,
      Bool.not_eq_true', Bool.or_eq_false_iff, decide_eq_false_iff_not, not_lt, true_and,
      gt_iff_lt]
    constructor
    · intro h i hi
      exact ⟨(h i hi).2, (h i hi).1⟩
    · intro h i hi
      exact ⟨(h i hi).2, (h i hi).1⟩
  · simp [hlen]

theorem uniform_int_distribution_mem (a b : Nat) (m_e : Nat → Nat) (h : a ≤ b) :
    a ≤ (uniform_int_distribution a b m_e).1 ∧ (uniform_int_distribution a b m_e).1 ≤ b := by
  unfold uniform_int_distribution
  have : m_e 0 % (b - a + 1) < b - a + 1 := Nat.mod_lt _ (by omega)
  constructor
  · exact Nat.le_add_right _ _
  · show a + m_e 0 % (b - a + 1) ≤ b
    omega

/-- The chromosome sampled by the constructor has the length of the zero vector it starts
from and every gene within its bounds, when the bounds are ordered. -/
theorem random_chromosome_spec (lb ub : List Nat) (S : Nat) (seed : Nat → Nat)
    (h : ∀ i, i < S → vec_at lb i ≤ vec_at ub i) :
    (random_chromosome lb ub (List.replicate S 0, seed)).1.length = S ∧
    ∀ i, i < S →
      vec_at lb i ≤ vec_at (random_chromosome lb ub (List.replicate S 0, seed)).1 i ∧
      vec_at (random_chromosome lb ub (List.replicate S 0, seed)).1 i ≤ vec_at ub i := by
  unfold random_chromosome
  simp only [List.length_replicate]
  have key := for_range_invariant
    (fun k (t : List Nat × (Nat → Nat)) => t.1.length = S ∧
      ∀ i, i < k → vec_at lb i ≤ vec_at t.1 i ∧ vec_at t.1 i ≤ vec_at ub i)
    S
    (fun i s =>
      let d := uniform_int_distribution (vec_at lb i) (vec_at ub i) s.2
      (s.1.set i d.1, d.2))
    (List.replicate S 0, seed) ?_ ?_
  · exact key
  · exact ⟨by simp, fun i hi => absurd hi (Nat.not_lt_zero i)⟩
  · rintro k t hk ⟨ht1, ht2⟩
    refine ⟨by simp [ht1], fun i hi => ?_⟩
    simp only [vec_at_set, ht1, hk, and_true]
    by_cases hik : i = k
    · subst hik
      simp only [if_true]
      exact uniform_int_distribution_mem _ _ _ (h i hk)
    · simp only [hik, if_false]
      exact ht2 i (by omega)

/-! ## Sorting and duplicate removal -/

theorem mem_sort (v : List Nat) (a : Nat) : a ∈ sort v ↔ a ∈ v := by
  unfold sort
  exact List.mem_insertionSort _

theorem sorted_sort (v : List Nat) : (sort v).Sorted (fun a b => a ≤ b) := by
  unfold sort
  exact List.sorted_insertionSort _ v

theorem mem_unique (v : List Nat) (a : Nat) : a ∈ unique v ↔ a ∈ v := by
  induction v with
  | nil => simp [unique]
  | cons b t ih =>
    cases t with
    | nil => simp [unique]
    | cons d t1 =>
      by_cases h : b = d
      · subst h
        rw [unique, if_pos rfl, ih]
        simp
      · rw [unique, if_neg h, List.mem_cons, ih]
        exact List.mem_cons.symm

theorem sorted_unique (v : List Nat) (h : v.Sorted (fun a b => a ≤ b)) :
    (unique v).Sorted (fun a b => a < b) := by
  induction v with
  | nil => simp [unique]
  | cons b t ih =>
    cases t with
    | nil => simp [unique]
    | cons d t1 =>
      by_cases hbd : b = d
      · rw [unique, if_pos hbd]
        exact ih h.of_cons
      · rw [unique, if_neg hbd]
        refine List.sorted_cons.mpr ⟨fun y hy => ?_, ih h.of_cons⟩
        rw [mem_unique] at hy
        have h1 : b ≤ d := List.rel_of_sorted_cons h d (List.mem_cons_self d t1)
        have h2 : b < d := lt_of_le_of_ne h1 hbd
        rcases List.mem_cons.mp hy with hyd | hyt
        · rw [hyd]; exact h2
        · exact lt_of_lt_of_le h2 (List.rel_of_sorted_cons h.of_cons y hyt)

theorem unique_sort_eq_nil (v : List Nat) : unique (sort v) = [] ↔ v = [] := by
  constructor
  · intro h
    cases v with
    | nil => rfl
    | cons a t =>
      have : a ∈ unique (sort (a :: t)) := by
        rw [mem_unique, mem_sort]; exact List.mem_cons_self a t
      rw [h] at this
      exact absurd this (List.not_mem_nil a)
  · intro h
    subst h
    rfl

/-! ## The frontier loop of `update_active` -/

theorem visit_fold_fst (n : Nat) (x current : List Nat) (s : List Nat × List Nat) (v : Nat) :
    v ∈ (current.foldl (visit n x) s).1 ↔ v ∈ s.1 ∨ (v ∈ current ∧ v < n) := by
  induction current generalizing s with
  | nil => simp
  | cons u t ih =>
    rw [List.foldl_cons, ih]
    unfold visit
    by_cases hu : n ≤ u
    · simp only [hu, if_true, List.mem_cons]
      constructor
      · rintro (h | ⟨h1, h2⟩)
        · exact Or.inl h
        · exact Or.inr ⟨Or.inr h1, h2⟩
      · rintro (h | ⟨h1 | h1, h2⟩)
        · exact Or.inl h
        · omega
        · exact Or.inr ⟨h1, h2⟩
    · simp only [hu, if_false, List.mem_append, List.mem_cons, List.not_mem_nil, or_false]
      constructor
      · rintro ((h | h) | ⟨h1, h2⟩)
        · exact Or.inl h
        · exact Or.inr ⟨Or.inl h, by omega⟩
        · exact Or.inr ⟨Or.inr h1, h2⟩
      · rintro (h | ⟨h1 | h1, h2⟩)
        · exact Or.inl (Or.inl h)
        · exact Or.inl (Or.inr h1)
        · exact Or.inr ⟨h1, h2⟩

theorem visit_fold_snd (n : Nat) (x current : List Nat) (s : List Nat × List Nat) (v : Nat) :
    v ∈ (current.foldl (visit n x) s).2 ↔
      v ∈ s.2 ∨ ∃ u, u ∈ current ∧ n ≤ u ∧ (v = connection n x u 1 ∨ v = connection n x u 2) := by
  induction current generalizing s with
  | nil => simp
  | cons u t ih =>
    rw [List.foldl_cons, ih]
    unfold visit
    by_cases hu : n ≤ u
    · simp only [hu, if_true, List.mem_append, List.mem_cons, List.mem_singleton,
        List.not_mem_nil, or_false]
      constructor
      · rintro ((h | h) | ⟨w, h1, h2, h3⟩)
        · exact Or.inl h
        · exact Or.inr ⟨u, Or.inl rfl, hu, h⟩
        · exact Or.inr ⟨w, Or.inr h1, h2, h3⟩
      · rintro (h | ⟨w, h1 | h1, h2, h3⟩)
        · exact Or.inl (Or.inl h)
        · subst h1
          exact Or.inl (Or.inr h3)
        · exact Or.inr ⟨w, h1, h2, h3⟩
    · simp only [hu, if_false, List.mem_cons]
      constructor
      · rintro (h | ⟨w, h1, h2, h3⟩)
        · exact Or.inl h
        · exact Or.inr ⟨w, Or.inr h1, h2, h3⟩
      · rintro (h | ⟨w, h1 | h1, h2, h3⟩)
        · exact Or.inl h
        · subst h1
          exact absurd h2 hu
        · exact Or.inr ⟨w, h1, h2, h3⟩

theorem active_loop_succ (n : Nat) (x : List Nat) (fuel : Nat) (current active : List Nat) :
    active_loop n x (fuel + 1) current active =
      if 0 < (unique (sort (current.foldl (visit n x) (active ++ current, [])).2)).length then
        active_loop n x fuel (unique (sort (current.foldl (visit n x) (active ++ current, [])).2))
          (current.foldl (visit n x) (active ++ current, [])).1
      else some (current.foldl (visit n x) (active ++ current, [])).1 := rfl

theorem mem_next (n : Nat) (x current active : List Nat) (v : Nat) :
    v ∈ unique (sort (current.foldl (visit n x) (active ++ current, [])).2) ↔
      ∃ u, u ∈ current ∧ n ≤ u ∧ (v = connection n x u 1 ∨ v = connection n x u 2) := by
  rw [mem_unique, mem_sort, visit_fold_snd]
  simp

theorem mem_round (n : Nat) (x current active : List Nat) (v : Nat) :
    v ∈ (current.foldl (visit n x) (active ++ current, [])).1 ↔ v ∈ active ∨ v ∈ current := by
  rw [visit_fold_fst]
  simp only [List.mem_append]
  constructor
  · rintro (h | ⟨h, _⟩)
    · exact h
    · exact Or.inr h
  · intro h
    exact Or.inl h

/-- More budget does not change the result of the loop. -/
theorem active_loop_mono (n : Nat) (x : List Nat) (fuel : Nat) :
    ∀ (current active res : List Nat), active_loop n x fuel current active = some res →
      ∀ k, active_loop n x (fuel + k) current active = some res := by
  induction fuel with
  | zero => intro current active res h; simp [active_loop] at h
  | succ fuel ih =>
    intro current active res h k
    have e : fuel + 1 + k = (fuel + k) + 1 := by omega
    rw [e, active_loop_succ]
    rw [active_loop_succ] at h
    split
    · rename_i hpos
      rw [if_pos hpos] at h
      exact ih _ _ _ h k
    · rename_i hpos
      rw [if_neg hpos] at h
      exact h

/-- The result of the loop does not depend on the budget. -/
theorem active_loop_det (n : Nat) (x : List Nat) (f1 f2 : Nat) (current active r1 r2 : List Nat)
    (h1 : active_loop n x f1 current active = some r1)
    (h2 : active_loop n x f2 current active = some r2) : r1 = r2 := by
  have a1 := active_loop_mono n x f1 current active r1 h1 f2
  have a2 := active_loop_mono n x f2 current active r2 h2 f1
  rw [Nat.add_comm f2 f1, a1] at a2
  exact Option.some.inj a2

/-- Every id collected by the loop lies in any set that holds the frontier and the ids
collected so far and is closed under the connections of its non-input ids. -/
theorem active_loop_sound (n : Nat) (x : List Nat) (S : Nat → Prop)
    (hS : ∀ u, S u → n ≤ u → S (connection n x u 1) ∧ S (connection n x u 2)) (fuel : Nat) :
    ∀ (current active res : List Nat), active_loop n x fuel current active = some res →
      (∀ v, v ∈ current → S v) → (∀ v, v ∈ active → S v) → ∀ v, v ∈ res → S v := by
  induction fuel with
  | zero => intro current active res h; simp [active_loop] at h
  | succ fuel ih =>
    intro current active res h hc ha
    rw [active_loop_succ] at h
    have hround : ∀ v, v ∈ (current.foldl (visit n x) (active ++ current, [])).1 → S v := by
      intro v hv
      rcases (mem_round n x current active v).mp hv with h1 | h1
      · exact ha v h1
      · exact hc v h1
    split at h
    · refine ih _ _ _ h ?_ hround
      intro v hv
      obtain ⟨u, hu, hnu, hv1 | hv2⟩ := (mem_next n x current active v).mp hv
      · rw [hv1]; exact (hS u (hc u hu) hnu).1
      · rw [hv2]; exact (hS u (hc u hu) hnu).2
    · rw [← Option.some.inj h]
      exact hround

/-- The ids collected by the loop contain the frontier and the ids collected so far, and both
connections of every non-input id collected. -/
theorem active_loop_closed (n : Nat) (x : List Nat) (fuel : Nat) :
    ∀ (current active res : List Nat), active_loop n x fuel current active = some res →
      (∀ u, u ∈ active → n ≤ u →
        (connection n x u 1 ∈ active ∨ connection n x u 1 ∈ current) ∧
        (connection n x u 2 ∈ active ∨ connection n x u 2 ∈ current)) →
      (∀ v, v ∈ active ∨ v ∈ current → v ∈ res) ∧
      (∀ u, u ∈ res → n ≤ u → connection n x u 1 ∈ res ∧ connection n x u 2 ∈ res) := by
  induction fuel with
  | zero => intro current active res h; simp [active_loop] at h
  | succ fuel ih =>
    intro current active res h hinv
    rw [active_loop_succ] at h
    split at h
    · obtain ⟨i1, i2⟩ := ih _ _ _ h (by
        intro u hu hnu
        rcases (mem_round n x current active u).mp hu with h1 | h1
        · obtain ⟨a1, a2⟩ := hinv u h1 hnu
          exact ⟨Or.inl ((mem_round n x current active _).mpr a1),
            Or.inl ((mem_round n x current active _).mpr a2)⟩
        · exact ⟨Or.inr ((mem_next n x current active _).mpr ⟨u, h1, hnu, Or.inl rfl⟩),
            Or.inr ((mem_next n x current active _).mpr ⟨u, h1, hnu, Or.inr rfl⟩)⟩)
      exact ⟨fun v hv => i1 v (Or.inl ((mem_round n x current active v).mpr hv)), i2⟩
    · rename_i hpos
      have hnil : unique (sort (current.foldl (visit n x) (active ++ current, [])).2) = [] :=
        List.length_eq_zero.mp (by omega)
      rw [← Option.some.inj h]
      refine ⟨fun v hv => (mem_round n x current active v).mpr hv, ?_⟩
      intro u hu hnu
      rcases (mem_round n x current active u).mp hu with h1 | h1
      · obtain ⟨a1, a2⟩ := hinv u h1 hnu
        exact ⟨(mem_round n x current active _).mpr a1, (mem_round n x current active _).mpr a2⟩
      · have : connection n x u 1 ∈
            unique (sort (current.foldl (visit n x) (active ++ current, [])).2) :=
          (mem_next n x current active _).mpr ⟨u, h1, hnu, Or.inl rfl⟩
        rw [hnil] at this
        exact absurd this (List.not_mem_nil _)

/-- The loop ends within `j + 1` rounds when the frontier satisfies `B j`, the ids that
satisfy `B 0` are inputs, and connections lead from `B (j + 1)` to `B j`. -/
theorem active_loop_terminates (n c : Nat) (x : List Nat) (B : Nat → Nat → Prop)
    (hB : ∀ u, B 0 u → u < n)
    (hD : ∀ j u, j < c → n ≤ u → B (j + 1) u →
      B j (connection n x u 1) ∧ B j (connection n x u 2)) (j : Nat) :
    j ≤ c → ∀ (current active : List Nat), (∀ v, v ∈ current → B j v) →
      ∀ fuel, j + 1 ≤ fuel → ∃ res, active_loop n x fuel current active = some res := by
  induction j with
  | zero =>
    intro _ current active hc fuel hf
    obtain ⟨k, rfl⟩ : ∃ k, fuel = k + 1 := ⟨fuel - 1, by omega⟩
    rw [active_loop_succ]
    have hnil : unique (sort (current.foldl (visit n x) (active ++ current, [])).2) = [] := by
      rw [List.eq_nil_iff_forall_not_mem]
      intro v hv
      obtain ⟨u, hu, hnu, _⟩ := (mem_next n x current active v).mp hv
      have := hB u (hc u hu)
      omega
    rw [hnil]
    exact ⟨_, rfl⟩
  | succ j ih =>
    intro hj current active hc fuel hf
    obtain ⟨k, rfl⟩ : ∃ k, fuel = k + 1 := ⟨fuel - 1, by omega⟩
    rw [active_loop_succ]
    split
    · refine ih (by omega) _ _ ?_ k (by omega)
      intro v hv
      obtain ⟨u, hu, hnu, hv1 | hv2⟩ := (mem_next n x current active v).mp hv
      · rw [hv1]; exact (hD j u (by omega) hnu (hc u hu)).1
      · rw [hv2]; exact (hD j u (by omega) hnu (hc u hu)).2
    · exact ⟨_, rfl⟩


/-! ## What the calls return -/

theorem update_active_some {F : Type} (fuel : Nat) (e e1 : expression F)
    (h : update_active fuel e = some e1) :
    ∃ nodes, active_nodes fuel e.m_n e.m_m e.m_r e.m_c e.m_x = some nodes ∧
      e1 = { e with
        m_active_nodes := nodes
        m_active_genes := active_genes e.m_n e.m_m e.m_r e.m_c nodes } := by
  unfold update_active at h
  cases hn : active_nodes fuel e.m_n e.m_m e.m_r e.m_c e.m_x with
  | none => rw [hn] at h; simp at h
  | some nodes =>
    rw [hn] at h
    exact ⟨nodes, rfl, (Option.some.inj h).symm⟩

theorem construct_ok {F : Type} (fuel n m r c l : Nat) (f : List F) (seed : Nat → Nat)
    (e : expression F) (h : construct fuel n m r c l f seed = construction.ok e) :
    0 < n ∧ 0 < m ∧ 0 < r ∧ 0 < c ∧ 0 < l ∧ 0 < f.length ∧
    ∃ nodes,
      active_nodes fuel n m r c
        (random_chromosome (bounds n m r c l f.length).1 (bounds n m r c l f.length).2
          (List.replicate (uadd (umul (umul 3 r) c) m) 0, seed)).1 = some nodes ∧
      e = { m_n := n, m_m := m, m_r := r, m_c := c, m_l := l, m_f := f,
            m_lb := (bounds n m r c l f.length).1, m_ub := (bounds n m r c l f.length).2,
            m_x := (random_chromosome (bounds n m r c l f.length).1
              (bounds n m r c l f.length).2
              (List.replicate (uadd (umul (umul 3 r) c) m) 0, seed)).1,
            m_active_nodes := nodes,
            m_active_genes := active_genes n m r c nodes,
            m_e := (random_chromosome (bounds n m r c l f.length).1
              (bounds n m r c l f.length).2
              (List.replicate (uadd (umul (umul 3 r) c) m) 0, seed)).2 } := by
  unfold construct at h
  split at h
  · exact absurd h (by simp)
  split at h
  · exact absurd h (by simp)
  split at h
  · exact absurd h (by simp)
  split at h
  · exact absurd h (by simp)
  split at h
  · exact absurd h (by simp)
  split at h
  · exact absurd h (by simp)
  refine ⟨by omega, by omega, by omega, by omega, by omega, by omega, ?_⟩
  simp only at h
  split at h
  · rename_i e1 hu
    obtain ⟨nodes, hn, he⟩ := update_active_some _ _ _ hu
    refine ⟨nodes, hn, ?_⟩
    rw [← construction.ok.inj h, he]
  · exact absurd h (by simp)

theorem set_ok {F : Type} (fuel : Nat) (e : expression F) (x : List Nat) (e1 : expression F)
    (h : set fuel e x = outcome.ok e1) :
    is_valid e x = true ∧
    ∃ nodes, active_nodes fuel e.m_n e.m_m e.m_r e.m_c x = some nodes ∧
      e1 = { e with
        m_x := x
        m_active_nodes := nodes
        m_active_genes := active_genes e.m_n e.m_m e.m_r e.m_c nodes } := by
  unfold set at h
  split at h
  · exact absurd h (by simp)
  · rename_i hv
    refine ⟨by simpa using hv, ?_⟩
    split at h
    · rename_i e2 hu
      obtain ⟨nodes, hn, he⟩ := update_active_some _ _ _ hu
      refine ⟨nodes, hn, ?_⟩
      rw [← outcome.ok.inj h, he]
    · exact absurd h (by simp)

theorem set_input_error {F : Type} (fuel : Nat) (e : expression F) (x : List Nat) (what : String)
    (e1 : expression F) (h : set fuel e x = outcome.input_error what e1) :
    is_valid e x = false ∧ what = "Chromosome is incompatible" ∧ e1 = e := by
  unfold set at h
  split at h
  · rename_i hv
    injection h with h1 h2
    exact ⟨by simpa using hv, h1.symm, h2.symm⟩
  · split at h
    · exact absurd h (by simp)
    · exact absurd h (by simp)

theorem draw_new_value_some (lb ub old : Nat) (hb : lb ≤ ub) (fuel : Nat) :
    ∀ (m_e : Nat → Nat) (v : Nat × (Nat → Nat)), draw_new_value lb ub old fuel m_e = some v →
      lb ≤ v.1 ∧ v.1 ≤ ub ∧ v.1 ≠ old := by
  induction fuel with
  | zero => intro m_e v h; simp [draw_new_value] at h
  | succ fuel ih =>
    intro m_e v h
    unfold draw_new_value at h
    simp only at h
    split at h
    · exact ih _ _ h
    · rename_i hne
      rw [← Option.some.inj h]
      exact ⟨(uniform_int_distribution_mem lb ub m_e hb).1,
        (uniform_int_distribution_mem lb ub m_e hb).2, hne⟩

theorem mutate_ok {F : Type} (fuel : Nat) (e e1 : expression F)
    (h : mutate fuel e = outcome.ok e1) :
    (vec_at e.m_lb (vec_at e.m_active_genes
        (uniform_int_distribution 0 (usub e.m_active_genes.length 1) e.m_e).1) <
      vec_at e.m_ub (vec_at e.m_active_genes
        (uniform_int_distribution 0 (usub e.m_active_genes.length 1) e.m_e).1) ∧
      ∃ v nodes,
        draw_new_value
          (vec_at e.m_lb (vec_at e.m_active_genes
            (uniform_int_distribution 0 (usub e.m_active_genes.length 1) e.m_e).1))
          (vec_at e.m_ub (vec_at e.m_active_genes
            (uniform_int_distribution 0 (usub e.m_active_genes.length 1) e.m_e).1))
          (vec_at e.m_x (vec_at e.m_active_genes
            (uniform_int_distribution 0 (usub e.m_active_genes.length 1) e.m_e).1))
          fuel (uniform_int_distribution 0 (usub e.m_active_genes.length 1) e.m_e).2 = some v ∧
        active_nodes fuel e.m_n e.m_m e.m_r e.m_c
          (e.m_x.set (vec_at e.m_active_genes
            (uniform_int_distribution 0 (usub e.m_active_genes.length 1) e.m_e).1) v.1)
          = some nodes ∧
        e1 = { e with
          m_x := e.m_x.set (vec_at e.m_active_genes
            (uniform_int_distribution 0 (usub e.m_active_genes.length 1) e.m_e).1) v.1
          m_e := v.2
          m_active_nodes := nodes
          m_active_genes := active_genes e.m_n e.m_m e.m_r e.m_c nodes }) ∨
    (¬ vec_at e.m_lb (vec_at e.m_active_genes
        (uniform_int_distribution 0 (usub e.m_active_genes.length 1) e.m_e).1) <
      vec_at e.m_ub (vec_at e.m_active_genes
        (uniform_int_distribution 0 (usub e.m_active_genes.length 1) e.m_e).1) ∧
      e1 = { e with
        m_e := (uniform_int_distribution 0 (usub e.m_active_genes.length 1) e.m_e).2 }) := by
  unfold mutate at h
  simp only at h
  split at h
  · rename_i hlt
    left
    refine ⟨hlt, ?_⟩
    split at h
    · exact absurd h (by simp)
    · rename_i v hv
      split at h
      · rename_i e2 hu
        obtain ⟨nodes, hn, he⟩ := update_active_some _ _ _ hu
        refine ⟨v, nodes, hv, hn, ?_⟩
        rw [← outcome.ok.inj h, he]
      · exact absurd h (by simp)
  · rename_i hlt
    right
    exact ⟨hlt, (outcome.ok.inj h).symm⟩

/-! ## Valid chromosomes -/

theorem connection_eq {n r c m : Nat} (x : List Nat) {u : Nat} (hnu : n ≤ u)
    (hu : u < n + r * c) (hU : u < UINT_RANGE) (h2 : 3 * (r * c) + m < UINT_RANGE) :
    connection n x u 1 = vec_at x (3 * (u - n) + 1) ∧
    connection n x u 2 = vec_at x (3 * (u - n) + 2) := by
  unfold connection
  have e1 : usub u n = u - n := usub_eq hnu hU
  have e2 : umul (u - n) 3 = (u - n) * 3 := umul_eq (by omega)
  have e3 : uadd ((u - n) * 3) 1 = (u - n) * 3 + 1 := uadd_eq (by omega)
  have e4 : uadd ((u - n) * 3) 2 = (u - n) * 3 + 2 := uadd_eq (by omega)
  rw [e1, e2, e3, e4, Nat.mul_comm (u - n) 3]
  exact ⟨rfl, rfl⟩

theorem output_gene_eq {r c m : Nat} (x : List Nat) {i : Nat} (hi : i < m)
    (h2 : 3 * (r * c) + m < UINT_RANGE) :
    output_gene r c x i = vec_at x (3 * (r * c) + i) := by
  unfold output_gene
  rw [umul3_eq (by omega), uadd_eq (by omega)]

/-- Every gene of a chromosome within the bounds of the constructor is an `unsigned int`. -/
theorem valid_lt_range (n m r c l fsize : Nat) (h2 : 3 * (r * c) + m < UINT_RANGE)
    (x : List Nat)
    (hx : ∀ i, i < x.length → vec_at (bounds n m r c l fsize).1 i ≤ vec_at x i ∧
      vec_at x i ≤ vec_at (bounds n m r c l fsize).2 i) (p : Nat) :
    vec_at x p < UINT_RANGE := by
  by_cases hp : p < x.length
  · obtain ⟨_, _, b3⟩ := bounds_machine n m r c l fsize h2
    have a1 := (hx p hp).2
    rw [(b3 p).1] at a1
    refine lt_of_le_of_lt a1 ?_
    split
    · split
      · exact Nat.mod_lt _ (by decide)
      · exact usub_lt _ _
    · split
      · exact usub_lt _ _
      · decide
  · rw [vec_at_of_le (not_lt.mp hp)]
    decide

/-- In a chromosome within the bounds of the constructor, both connection genes of the cell
`k` (column `k / r`) hold ids below the first id of the column of the cell. -/
theorem valid_connection_lt (n m r c l fsize : Nat) (hn : 0 < n)
    (h2 : 3 * (r * c) + m < UINT_RANGE) (x : List Nat)
    (hlen : x.length = 3 * (r * c) + m)
    (hx : ∀ i, i < x.length → vec_at (bounds n m r c l fsize).1 i ≤ vec_at x i ∧
      vec_at x i ≤ vec_at (bounds n m r c l fsize).2 i)
    (k : Nat) (hk : k < r * c) :
    vec_at x (3 * k + 1) < n + k / r * r ∧ vec_at x (3 * k + 2) < n + k / r * r := by
  obtain ⟨_, _, b3⟩ := bounds_machine n m r c l fsize h2
  have a1 := (hx (3 * k + 1) (by omega)).2
  have a2 := (hx (3 * k + 2) (by omega)).2
  rw [(b3 _).1] at a1 a2
  have c1 : 3 * k + 1 < 3 * (r * c) := by omega
  have c2 : 3 * k + 2 < 3 * (r * c) := by omega
  have d1 : ¬ (3 * k + 1) % 3 = 0 := by omega
  have d2 : ¬ (3 * k + 2) % 3 = 0 := by omega
  have q1 : (3 * k + 1) / 3 = k := by omega
  have q2 : (3 * k + 2) / 3 = k := by omega
  rw [if_pos c1, if_neg d1, q1] at a1
  rw [if_pos c2, if_neg d2, q2] at a2
  have := usub_one_lt hn (umul_le (k / r) r)
  omega

theorem valid_output_lt (n m r c l fsize : Nat) (hn : 0 < n)
    (h2 : 3 * (r * c) + m < UINT_RANGE) (x : List Nat)
    (hlen : x.length = 3 * (r * c) + m)
    (hx : ∀ i, i < x.length → vec_at (bounds n m r c l fsize).1 i ≤ vec_at x i ∧
      vec_at x i ≤ vec_at (bounds n m r c l fsize).2 i)
    (i : Nat) (hi : i < m) : vec_at x (3 * (r * c) + i) < n + r * c := by
  obtain ⟨_, _, b3⟩ := bounds_machine n m r c l fsize h2
  have a1 := (hx (3 * (r * c) + i) (by omega)).2
  rw [(b3 _).1] at a1
  have c1 : ¬ 3 * (r * c) + i < 3 * (r * c) := by omega
  have c2 : 3 * (r * c) + i < 3 * (r * c) + m := by omega
  rw [if_neg c1, if_pos c2] at a1
  have := usub_one_lt hn (umul_le r c)
  omega

/-- Connections lead from a column to the columns before it. -/
theorem valid_descends (n m r c l fsize : Nat) (hn : 0 < n) (hr : 0 < r)
    (h2 : 3 * (r * c) + m < UINT_RANGE) (x : List Nat)
    (hlen : x.length = 3 * (r * c) + m)
    (hx : ∀ i, i < x.length → vec_at (bounds n m r c l fsize).1 i ≤ vec_at x i ∧
      vec_at x i ≤ vec_at (bounds n m r c l fsize).2 i) :
    ∀ j u, j < c → n ≤ u → u < n + r * (j + 1) ∧ u < UINT_RANGE →
      (connection n x u 1 < n + r * j ∧ connection n x u 1 < UINT_RANGE) ∧
      (connection n x u 2 < n + r * j ∧ connection n x u 2 < UINT_RANGE) := by
  rintro j u hj hnu ⟨hu, hU⟩
  have hjc : r * (j + 1) ≤ r * c := Nat.mul_le_mul_left r hj
  have hk : u - n < r * c := by omega
  obtain ⟨e1, e2⟩ := connection_eq (m := m) x hnu (by omega : u < n + r * c) hU h2
  obtain ⟨v1, v2⟩ := valid_connection_lt n m r c l fsize hn h2 x hlen hx (u - n) hk
  have hdiv : (u - n) / r < j + 1 := by
    rw [Nat.div_lt_iff_lt_mul hr, Nat.mul_comm]
    omega
  have hmul : (u - n) / r * r ≤ j * r := Nat.mul_le_mul_right r (by omega)
  rw [Nat.mul_comm j r] at hmul
  have r1 := valid_lt_range n m r c l fsize h2 x hx (3 * (u - n) + 1)
  have r2 := valid_lt_range n m r c l fsize h2 x hx (3 * (u - n) + 2)
  rw [e1, e2]
  exact ⟨⟨by omega, r1⟩, ⟨by omega, r2⟩⟩

/-- The active nodes of a chromosome within the bounds of the constructor: the loop ends
within `c + 1` rounds and the list it leaves is strictly increasing, holds ids below `n + r*c`
only, and is the smallest set of ids that holds the value of every output gene and both
connection genes of each of its non-input ids. -/
theorem active_nodes_spec (n m r c l fsize : Nat) (hn : 0 < n) (hr : 0 < r)
    (h2 : 3 * (r * c) + m < UINT_RANGE) (x : List Nat)
    (hlen : x.length = 3 * (r * c) + m)
    (hx : ∀ i, i < x.length → vec_at (bounds n m r c l fsize).1 i ≤ vec_at x i ∧
      vec_at x i ≤ vec_at (bounds n m r c l fsize).2 i)
    (fuel : Nat) (hf : c + 1 ≤ fuel) :
    ∃ nodes, active_nodes fuel n m r c x = some nodes ∧
      nodes.Sorted (fun a b => a < b) ∧
      (∀ v, v ∈ nodes → v < n + r * c ∧ v < UINT_RANGE) ∧
      (∀ i, i < m → vec_at x (3 * (r * c) + i) ∈ nodes) ∧
      (∀ u, u ∈ nodes → n ≤ u →
        vec_at x (3 * (u - n) + 1) ∈ nodes ∧ vec_at x (3 * (u - n) + 2) ∈ nodes) ∧
      (∀ S : Nat → Prop, (∀ i, i < m → S (vec_at x (3 * (r * c) + i))) →
        (∀ u, S u → n ≤ u → u < n + r * c →
          S (vec_at x (3 * (u - n) + 1)) ∧ S (vec_at x (3 * (u - n) + 2))) →
        ∀ v, v ∈ nodes → S v) := by
  have hD := valid_descends n m r c l fsize hn hr h2 x hlen hx
  have hcur : ∀ v, v ∈ (List.range m).map (fun i => output_gene r c x i) →
      ∃ i, i < m ∧ v = vec_at x (3 * (r * c) + i) := by
    intro v hv
    obtain ⟨i, hi, rfl⟩ := List.mem_map.mp hv
    have hi1 : i < m := List.mem_range.mp hi
    exact ⟨i, hi1, output_gene_eq x hi1 h2⟩
  have hcur_lt : ∀ v, v ∈ (List.range m).map (fun i => output_gene r c x i) →
      v < n + r * c ∧ v < UINT_RANGE := by
    intro v hv
    obtain ⟨i, hi, rfl⟩ := hcur v hv
    exact ⟨valid_output_lt n m r c l fsize hn h2 x hlen hx i hi,
      valid_lt_range n m r c l fsize h2 x hx _⟩
  obtain ⟨res, hres⟩ := active_loop_terminates n c x
    (fun j v => v < n + r * j ∧ v < UINT_RANGE) (fun u hu => by have := hu.1; omega) hD c
    (le_refl c) _ [] hcur_lt fuel hf
  have hclosedS : ∀ u, u < n + r * c ∧ u < UINT_RANGE → n ≤ u →
      (connection n x u 1 < n + r * c ∧ connection n x u 1 < UINT_RANGE) ∧
      (connection n x u 2 < n + r * c ∧ connection n x u 2 < UINT_RANGE) := by
    intro u hu hnu
    have hc : 0 < c := by
      rcases Nat.eq_zero_or_pos c with h0 | h0
      · subst h0; have := hu.1; omega
      · exact h0
    have hc1 : c - 1 + 1 = c := by omega
    have := hD (c - 1) u (by omega) hnu (by rw [hc1]; exact hu)
    have hle : r * (c - 1) ≤ r * c := Nat.mul_le_mul_left r (by omega)
    exact ⟨⟨by omega, this.1.2⟩, ⟨by omega, this.2.2⟩⟩
  have hlt : ∀ v, v ∈ res → v < n + r * c ∧ v < UINT_RANGE :=
    active_loop_sound n x (fun v => v < n + r * c ∧ v < UINT_RANGE) hclosedS fuel _ [] res hres
      hcur_lt (fun v hv => absurd hv (List.not_mem_nil v))
  obtain ⟨k1, k2⟩ := active_loop_closed n x fuel _ [] res hres
    (fun u hu _ => absurd hu (List.not_mem_nil u))
  have hmem : ∀ v, v ∈ unique (sort res) ↔ v ∈ res := fun v => by rw [mem_unique, mem_sort]
  refine ⟨unique (sort res), ?_, sorted_unique _ (sorted_sort res), ?_, ?_, ?_, ?_⟩
  · unfold active_nodes
    simp only [hres, Option.map_some']
  · intro v hv
    exact hlt v ((hmem v).mp hv)
  · intro i hi
    rw [hmem]
    refine k1 _ (Or.inr ?_)
    rw [← output_gene_eq x hi h2]
    exact List.mem_map.mpr ⟨i, List.mem_range.mpr hi, rfl⟩
  · intro u hu hnu
    rw [hmem] at hu
    obtain ⟨e1, e2⟩ := connection_eq (m := m) x hnu (hlt u hu).1 (hlt u hu).2 h2
    rw [hmem, hmem, ← e1, ← e2]
    exact k2 u hu hnu
  · intro S hS1 hS2 v hv
    rw [hmem] at hv
    have := active_loop_sound n x (fun v => S v ∧ v < n + r * c ∧ v < UINT_RANGE)
      (by
        intro u hu hnu
        obtain ⟨e1, e2⟩ := connection_eq (m := m) x hnu hu.2.1 hu.2.2 h2
        obtain ⟨s1, s2⟩ := hS2 u hu.1 hnu hu.2.1
        obtain ⟨b1, b2⟩ := hclosedS u hu.2 hnu
        show (S (connection n x u 1) ∧ connection n x u 1 < n + r * c ∧
            connection n x u 1 < UINT_RANGE) ∧
          (S (connection n x u 2) ∧ connection n x u 2 < n + r * c ∧
            connection n x u 2 < UINT_RANGE)
        refine ⟨⟨?_, b1⟩, ⟨?_, b2⟩⟩
        · rw [e1]; exact s1
        · rw [e2]; exact s2)
      fuel _ [] res hres
      (by
        intro w hw
        obtain ⟨i, hi, rfl⟩ := hcur w hw
        exact ⟨hS1 i hi, valid_output_lt n m r c l fsize hn h2 x hlen hx i hi,
          valid_lt_range n m r c l fsize h2 x hx _⟩)
      (fun w hw => absurd hw (List.not_mem_nil w)) v hv
    exact this.1

/-- The result of `active_nodes` does not depend on the budget. -/
theorem active_nodes_det (f1 f2 n m r c : Nat) (x r1 r2 : List Nat)
    (h1 : active_nodes f1 n m r c x = some r1) (h2 : active_nodes f2 n m r c x = some r2) :
    r1 = r2 := by
  unfold active_nodes at h1 h2
  simp only [Option.map_eq_some'] at h1 h2
  obtain ⟨a1, b1, c1⟩ := h1
  obtain ⟨a2, b2, c2⟩ := h2
  rw [← c1, ← c2, active_loop_det n x f1 f2 _ [] a1 a2 b1 b2]


/-! ## Invariants of the reachable states -/

/-- The shape parameters are positive and the bound vectors are those of the constructor. -/
theorem reachable_shape {F : Type} (e : expression F) (h : reachable e) :
    0 < e.m_n ∧ 0 < e.m_m ∧ 0 < e.m_r ∧ 0 < e.m_c ∧ 0 < e.m_l ∧ 0 < e.m_f.length ∧
    e.m_lb = (bounds e.m_n e.m_m e.m_r e.m_c e.m_l e.m_f.length).1 ∧
    e.m_ub = (bounds e.m_n e.m_m e.m_r e.m_c e.m_l e.m_f.length).2 := by
  induction h with
  | construct fuel n m r c l f seed e h =>
    obtain ⟨a1, a2, a3, a4, a5, a6, nodes, _, he⟩ := construct_ok _ _ _ _ _ _ _ _ _ h
    subst he
    exact ⟨a1, a2, a3, a4, a5, a6, rfl, rfl⟩
  | set fuel e x e1 _ h ih =>
    obtain ⟨_, nodes, _, he⟩ := set_ok _ _ _ _ h
    subst he
    exact ih
  | set_throws fuel e x what e1 _ h ih =>
    obtain ⟨_, _, he⟩ := set_input_error _ _ _ _ _ h
    subst he
    exact ih
  | mutate fuel e e1 _ h ih =>
    rcases mutate_ok _ _ _ h with ⟨_, v, nodes, _, _, he⟩ | ⟨_, he⟩
    · subst he
      exact ih
    · subst he
      exact ih

/-- The stored active nodes and active genes are those of the stored chromosome. -/
theorem reachable_fresh {F : Type} (e : expression F) (h : reachable e) :
    ∃ fuel, active_nodes fuel e.m_n e.m_m e.m_r e.m_c e.m_x = some e.m_active_nodes ∧
      e.m_active_genes = active_genes e.m_n e.m_m e.m_r e.m_c e.m_active_nodes := by
  induction h with
  | construct fuel n m r c l f seed e h =>
    obtain ⟨_, _, _, _, _, _, nodes, hn, he⟩ := construct_ok _ _ _ _ _ _ _ _ _ h
    subst he
    exact ⟨fuel, hn, rfl⟩
  | set fuel e x e1 _ h ih =>
    obtain ⟨_, nodes, hn, he⟩ := set_ok _ _ _ _ h
    subst he
    exact ⟨fuel, hn, rfl⟩
  | set_throws fuel e x what e1 _ h ih =>
    obtain ⟨_, _, he⟩ := set_input_error _ _ _ _ _ h
    subst he
    exact ih
  | mutate fuel e e1 _ h ih =>
    rcases mutate_ok _ _ _ h with ⟨_, v, nodes, _, hn, he⟩ | ⟨_, he⟩
    · subst he
      exact ⟨fuel, hn, rfl⟩
    · subst he
      exact ih

/-- The bounds of the constructor are ordered: `lb[p] ≤ ub[p]` for every gene. -/
theorem bounds_ordered (n m r c l fsize : Nat) (hn : 0 < n) (hr : 0 < r) (hl : 0 < l)
    (h1 : n + r * c < UINT_RANGE) (h2 : 3 * (r * c) + m < UINT_RANGE) (p : Nat) :
    vec_at (bounds n m r c l fsize).1 p ≤ vec_at (bounds n m r c l fsize).2 p := by
  obtain ⟨_, _, b3⟩ := bounds_spec n m r c l fsize hn hr h1 h2
  rw [(b3 p).1, (b3 p).2]
  have key : ∀ q, l ≤ q → n + r * (q - l) ≤ n + q * r - 1 := by
    intro q hq
    have a1 : r * (q - l) + r = r * (q - l + 1) := by rw [Nat.mul_add, Nat.mul_one]
    have a2 : r * (q - l + 1) ≤ r * q := Nat.mul_le_mul_left r (by omega)
    rw [Nat.mul_comm q r]
    omega
  by_cases hp : p < 3 * (r * c)
  · rw [if_pos hp, if_pos hp]
    by_cases hp3 : p % 3 = 0
    · rw [if_pos hp3, if_pos hp3]
      exact Nat.zero_le _
    · rw [if_neg hp3, if_neg hp3]
      by_cases hq : l ≤ p / 3 / r
      · rw [if_pos hq]
        exact key _ hq
      · rw [if_neg hq]
        exact Nat.zero_le _
  · rw [if_neg hp, if_neg hp]
    by_cases hp2 : p < 3 * (r * c) + m
    · rw [if_pos hp2, if_pos hp2]
      by_cases hq : l ≤ c
      · rw [if_pos hq]
        have := key c hq
        rw [Nat.mul_comm c r] at this
        exact this
      · rw [if_neg hq]
        exact Nat.zero_le _
    · rw [if_neg hp2, if_neg hp2]

theorem no_overflow_iff (n m r c : Nat) :
    no_overflow n m r c ↔ n + r * c < UINT_RANGE ∧ 3 * (r * c) + m < UINT_RANGE := by
  unfold no_overflow
  rw [Nat.mul_assoc]

/-- The stored chromosome is within the bounds, when the shape does not overflow. -/
theorem reachable_valid {F : Type} (e : expression F) (h : reachable e)
    (hno : no_overflow e.m_n e.m_m e.m_r e.m_c) : is_valid e e.m_x = true := by
  induction h with
  | construct fuel n m r c l f seed e h =>
    obtain ⟨a1, a2, a3, a4, a5, a6, nodes, _, he⟩ := construct_ok _ _ _ _ _ _ _ _ _ h
    subst he
    obtain ⟨h1, h2⟩ := (no_overflow_iff n m r c).mp hno
    obtain ⟨b1, b2, _⟩ := bounds_spec n m r c l f.length a1 a3 h1 h2
    have hsize : uadd (umul (umul 3 r) c) m = 3 * (r * c) + m := by
      rw [umul3_eq (by omega), uadd_eq h2]
    obtain ⟨s1, s2⟩ := random_chromosome_spec (bounds n m r c l f.length).1
      (bounds n m r c l f.length).2 (3 * (r * c) + m) seed
      (fun i _ => bounds_ordered n m r c l f.length a1 a3 a5 h1 h2 i)
    rw [is_valid_iff]
    simp only [hsize]
    exact ⟨by rw [s1, b1], fun i hi => s2 i (by rw [s1] at hi; exact hi)⟩
  | set fuel e x e1 _ h ih =>
    obtain ⟨hv, nodes, _, he⟩ := set_ok _ _ _ _ h
    subst he
    rw [is_valid_iff] at hv ⊢
    exact hv
  | set_throws fuel e x what e1 _ h ih =>
    obtain ⟨_, _, he⟩ := set_input_error _ _ _ _ _ h
    subst he
    exact ih hno
  | mutate fuel e e1 he h ih =>
    rcases mutate_ok _ _ _ h with ⟨hlt, v, nodes, hv, _, he1⟩ | ⟨_, he1⟩
    · subst he1
      have hold := ih hno
      rw [is_valid_iff] at hold ⊢
      obtain ⟨o1, o2⟩ := hold
      obtain ⟨d1, d2, _⟩ := draw_new_value_some _ _ _ (le_of_lt hlt) fuel _ v hv
      refine ⟨by simp only [List.length_set]; exact o1, fun i hi => ?_⟩
      simp only [List.length_set] at hi
      simp only [vec_at_set]
      split
      · rename_i hc
        rw [hc.1]
        exact ⟨d1, d2⟩
      · exact o2 i hi
    · subst he1
      have hold := ih hno
      rw [is_valid_iff] at hold ⊢
      exact hold

/-! ## Sizes of the vectors -/

theorem function_gene_bounds_length (r c fsize S : Nat) (s : List Nat × List Nat)
    (hs : s.1.length = S ∧ s.2.length = S) :
    (function_gene_bounds r c fsize s).1.length = S ∧
    (function_gene_bounds r c fsize s).2.length = S := by
  unfold function_gene_bounds
  refine for_range_invariant (fun _ (t : List Nat × List Nat) => t.1.length = S ∧ t.2.length = S)
    _ _ s hs ?_
  rintro i t _ ⟨h1, h2⟩
  exact ⟨h1, by simpa using h2⟩

theorem output_gene_bounds_length (n r c l S : Nat) (s : List Nat × List Nat)
    (hs : s.1.length = S ∧ s.2.length = S) :
    (output_gene_bounds n r c l s).1.length = S ∧
    (output_gene_bounds n r c l s).2.length = S := by
  unfold output_gene_bounds
  refine for_range_invariant (fun _ (t : List Nat × List Nat) => t.1.length = S ∧ t.2.length = S)
    _ _ s hs ?_
  rintro i t _ ⟨h1, h2⟩
  simp only
  split
  · exact ⟨by simpa using h1, by simpa using h2⟩
  · exact ⟨h1, by simpa using h2⟩

theorem connection_gene_bounds_length (n r c l S : Nat) (s : List Nat × List Nat)
    (hs : s.1.length = S ∧ s.2.length = S) :
    (connection_gene_bounds n r c l s).1.length = S ∧
    (connection_gene_bounds n r c l s).2.length = S := by
  unfold connection_gene_bounds
  refine for_range_invariant (fun _ (t : List Nat × List Nat) => t.1.length = S ∧ t.2.length = S)
    _ _ s hs ?_
  intro i t _ ht
  refine for_range_invariant
    (fun _ (t : List Nat × List Nat) => t.1.length = S ∧ t.2.length = S) _ _ t ht ?_
  rintro j u _ ⟨h1, h2⟩
  simp only
  split
  · exact ⟨by simpa using h1, by simpa using h2⟩
  · exact ⟨h1, by simpa using h2⟩

/-- Both bound vectors keep the length they are created with, whatever the shape. -/
theorem bounds_length (n m r c l fsize : Nat) :
    (bounds n m r c l fsize).1.length = uadd (umul (umul 3 r) c) m ∧
    (bounds n m r c l fsize).2.length = uadd (umul (umul 3 r) c) m := by
  unfold bounds
  exact connection_gene_bounds_length n r c l _ _
    (output_gene_bounds_length n r c l _ _
      (function_gene_bounds_length r c fsize _ _ ⟨by simp, by simp⟩))

theorem random_chromosome_length (lb ub : List Nat) (s : List Nat × (Nat → Nat)) :
    (random_chromosome lb ub s).1.length = s.1.length := by
  unfold random_chromosome
  refine for_range_invariant
    (fun _ (t : List Nat × (Nat → Nat)) => t.1.length = s.1.length) _ _ s rfl ?_
  intro i t _ ht
  simpa using ht

/-- The three vectors `m_x`, `m_lb`, `m_ub` of a reachable state have the same length: the
`assert` at the head of `update_active` holds at each of its calls. -/
theorem reachable_sizes {F : Type} (e : expression F) (h : reachable e) :
    e.m_x.length = e.m_lb.length ∧ e.m_ub.length = e.m_lb.length := by
  induction h with
  | construct fuel n m r c l f seed e h =>
    obtain ⟨_, _, _, _, _, _, nodes, _, he⟩ := construct_ok _ _ _ _ _ _ _ _ _ h
    subst he
    obtain ⟨b1, b2⟩ := bounds_length n m r c l f.length
    refine ⟨?_, by rw [b1, b2]⟩
    show (random_chromosome _ _ _).1.length = _
    rw [random_chromosome_length, b1]
    simp
  | set fuel e x e1 _ h ih =>
    obtain ⟨hv, nodes, _, he⟩ := set_ok _ _ _ _ h
    subst he
    exact ⟨((is_valid_iff e x).mp hv).1, ih.2⟩
  | set_throws fuel e x what e1 _ h ih =>
    obtain ⟨_, _, he⟩ := set_input_error _ _ _ _ _ h
    subst he
    exact ih
  | mutate fuel e e1 _ h ih =>
    rcases mutate_ok _ _ _ h with ⟨_, v, nodes, _, _, he⟩ | ⟨_, he⟩
    · subst he
      exact ⟨by simpa using ih.1, ih.2⟩
    · subst he
      exact ih


/-! ## The active genes -/

theorem update_active_of_nodes {F : Type} (fuel : Nat) (e : expression F) (nodes : List Nat)
    (h : active_nodes fuel e.m_n e.m_m e.m_r e.m_c e.m_x = some nodes) :
    update_active fuel e = some { e with
      m_active_nodes := nodes
      m_active_genes := active_genes e.m_n e.m_m e.m_r e.m_c nodes } := by
  unfold update_active
  rw [h]
  rfl

theorem mem_node_genes (n : Nat) (nodes acc : List Nat) (g : Nat) :
    g ∈ nodes.foldl
        (fun g node =>
          if n ≤ node then
            let idx := umul (usub node n) 3
            g ++ [idx, uadd idx 1, uadd idx 2]
          else g) acc ↔
      g ∈ acc ∨ ∃ u, u ∈ nodes ∧ n ≤ u ∧
        (g = umul (usub u n) 3 ∨ g = uadd (umul (usub u n) 3) 1 ∨
          g = uadd (umul (usub u n) 3) 2) := by
  induction nodes generalizing acc with
  | nil => simp
  | cons w t ih =>
    rw [List.foldl_cons, ih]
    by_cases hw : n ≤ w
    · simp only [hw, if_true, List.mem_append, List.mem_cons, List.not_mem_nil, or_false]
      constructor
      · rintro ((h | h) | ⟨u, h1, h2, h3⟩)
        · exact Or.inl h
        · exact Or.inr ⟨w, Or.inl rfl, hw, h⟩
        · exact Or.inr ⟨u, Or.inr h1, h2, h3⟩
      · rintro (h | ⟨u, h1 | h1, h2, h3⟩)
        · exact Or.inl (Or.inl h)
        · subst h1
          exact Or.inl (Or.inr h3)
        · exact Or.inr ⟨u, h1, h2, h3⟩
    · simp only [hw, if_false, List.mem_cons]
      constructor
      · rintro (h | ⟨u, h1, h2, h3⟩)
        · exact Or.inl h
        · exact Or.inr ⟨u, Or.inr h1, h2, h3⟩
      · rintro (h | ⟨u, h1 | h1, h2, h3⟩)
        · exact Or.inl h
        · subst h1
          exact absurd h2 hw
        · exact Or.inr ⟨u, h1, h2, h3⟩

theorem mem_output_genes (m base : Nat) (genes : List Nat) (g : Nat) :
    g ∈ for_range m (fun i g => g ++ [uadd base i]) genes ↔
      g ∈ genes ∨ ∃ i, i < m ∧ g = uadd base i := by
  refine for_range_invariant
    (fun k (t : List Nat) => g ∈ t ↔ g ∈ genes ∨ ∃ i, i < k ∧ g = uadd base i)
    m _ genes ?_ ?_
  · simp
  · intro k t _ ht
    simp only [List.mem_append, List.mem_singleton, ht]
    constructor
    · rintro ((h | ⟨i, h1, h2⟩) | h)
      · exact Or.inl h
      · exact Or.inr ⟨i, by omega, h2⟩
      · exact Or.inr ⟨k, by omega, h⟩
    · rintro (h | ⟨i, h1, h2⟩)
      · exact Or.inl (Or.inl h)
      · by_cases hik : i = k
        · subst hik
          exact Or.inr h2
        · exact Or.inl (Or.inr ⟨i, by omega, h2⟩)

/-- The active genes of a list of nodes with ids below `n + r*c`: the three genes of every
non-input node of the list and the `m` output genes, and nothing else. -/
theorem mem_active_genes (n m r c : Nat) (nodes : List Nat)
    (h2 : 3 * (r * c) + m < UINT_RANGE)
    (hnodes : ∀ v, v ∈ nodes → v < n + r * c ∧ v < UINT_RANGE) (g : Nat) :
    g ∈ active_genes n m r c nodes ↔
      (∃ u, u ∈ nodes ∧ n ≤ u ∧
        (g = 3 * (u - n) ∨ g = 3 * (u - n) + 1 ∨ g = 3 * (u - n) + 2)) ∨
      (3 * (r * c) ≤ g ∧ g < 3 * (r * c) + m) := by
  unfold active_genes
  simp only
  rw [mem_output_genes, mem_node_genes]
  have hbase : umul (umul r c) 3 = 3 * (r * c) := by
    have e1 : umul r c = r * c := umul_eq (by omega)
    have e2 : umul (r * c) 3 = r * c * 3 := umul_eq (by omega)
    rw [e1, e2, Nat.mul_comm]
  rw [hbase]
  have hidx : ∀ u, u ∈ nodes → n ≤ u →
      umul (usub u n) 3 = 3 * (u - n) ∧ uadd (umul (usub u n) 3) 1 = 3 * (u - n) + 1 ∧
      uadd (umul (usub u n) 3) 2 = 3 * (u - n) + 2 := by
    intro u hu hnu
    obtain ⟨hu1, hu2⟩ := hnodes u hu
    have e1 : usub u n = u - n := usub_eq hnu hu2
    have e2 : umul (u - n) 3 = (u - n) * 3 := umul_eq (by omega)
    have e3 : uadd ((u - n) * 3) 1 = (u - n) * 3 + 1 := uadd_eq (by omega)
    have e4 : uadd ((u - n) * 3) 2 = (u - n) * 3 + 2 := uadd_eq (by omega)
    rw [e1, e2, e3, e4, Nat.mul_comm (u - n) 3]
    exact ⟨rfl, rfl, rfl⟩
  constructor
  · rintro ((h | ⟨u, hu, hnu, h⟩) | ⟨i, hi, h⟩)
    · exact absurd h (List.not_mem_nil g)
    · obtain ⟨e1, e2, e3⟩ := hidx u hu hnu
      refine Or.inl ⟨u, hu, hnu, ?_⟩
      rcases h with h | h | h
      · exact Or.inl (h.trans e1)
      · exact Or.inr (Or.inl (h.trans e2))
      · exact Or.inr (Or.inr (h.trans e3))
    · rw [uadd_eq (by omega)] at h
      exact Or.inr (by omega)
  · rintro (⟨u, hu, hnu, h⟩ | ⟨h3, h4⟩)
    · obtain ⟨e1, e2, e3⟩ := hidx u hu hnu
      refine Or.inl (Or.inr ⟨u, hu, hnu, ?_⟩)
      rcases h with h | h | h
      · exact Or.inl (h.trans e1.symm)
      · exact Or.inr (Or.inl (h.trans e2.symm))
      · exact Or.inr (Or.inr (h.trans e3.symm))
    · refine Or.inr ⟨g - 3 * (r * c), by omega, ?_⟩
      rw [uadd_eq (by omega)]
      omega


/-! ## The sample expression -/

theorem sample_construct :
    construct 3 1 1 2 2 1 [(), ()] sample_seed = construction.ok sample_expression := rfl

theorem sample_reachable : reachable sample_expression :=
  reachable.construct 3 1 1 2 2 1 [(), ()] sample_seed sample_expression sample_construct

theorem sample_no_overflow : no_overflow 1 1 2 2 := by decide

theorem sample_chromosome_valid : is_valid sample_expression sample_chromosome = true := by
  decide

/-! ## Facts shared by the statements on reachable states -/

theorem sample_length_fits : 3 * 2 * 2 + 1 < UINT_RANGE := by decide

/-- In a reachable state whose chromosome length `3*r*c + m` does not overflow, the bound
vectors have that length. -/
theorem reachable_context {F : Type} (e : expression F) (h : reachable e)
    (hsz : 3 * e.m_r * e.m_c + e.m_m < UINT_RANGE) :
    0 < e.m_n ∧ 0 < e.m_r ∧ 0 < e.m_c ∧ 0 < e.m_l ∧
    3 * (e.m_r * e.m_c) + e.m_m < UINT_RANGE ∧
    e.m_lb.length = 3 * (e.m_r * e.m_c) + e.m_m ∧
    e.m_ub.length = 3 * (e.m_r * e.m_c) + e.m_m := by
  obtain ⟨a1, _, a3, a4, a5, _, a7, a8⟩ := reachable_shape e h
  rw [Nat.mul_assoc] at hsz
  obtain ⟨b1, b2, _⟩ := bounds_machine e.m_n e.m_m e.m_r e.m_c e.m_l e.m_f.length hsz
  exact ⟨a1, a3, a4, a5, hsz, by rw [a7, b1], by rw [a8, b2]⟩

/-- A chromosome accepted by `is_valid` in a reachable state has length `3*r*c + m` and lies
within the bounds built by the constructor. -/
theorem valid_context {F : Type} (e : expression F) (h : reachable e)
    (hsz : 3 * e.m_r * e.m_c + e.m_m < UINT_RANGE) (x : List Nat)
    (hx : is_valid e x = true) :
    x.length = 3 * (e.m_r * e.m_c) + e.m_m ∧
    ∀ i, i < x.length →
      vec_at (bounds e.m_n e.m_m e.m_r e.m_c e.m_l e.m_f.length).1 i ≤ vec_at x i ∧
      vec_at x i ≤ vec_at (bounds e.m_n e.m_m e.m_r e.m_c e.m_l e.m_f.length).2 i := by
  obtain ⟨_, _, _, _, _, _, a7, a8⟩ := reachable_shape e h
  obtain ⟨_, _, _, _, _, c1, _⟩ := reachable_context e h hsz
  obtain ⟨v1, v2⟩ := (is_valid_iff e x).mp hx
  rw [a7, a8] at v2
  exact ⟨by rw [v1, c1], v2⟩

/-- On a chromosome accepted by `is_valid`, `update_active` returns within `c + 1` rounds; the
facts of `active_nodes_spec` hold of the nodes it stores. -/
theorem update_active_valid {F : Type} (e : expression F) (h : reachable e)
    (hsz : 3 * e.m_r * e.m_c + e.m_m < UINT_RANGE) (x : List Nat)
    (hx : is_valid e x = true) (fuel : Nat) (hf : e.m_c + 1 ≤ fuel) :
    ∃ nodes, active_nodes fuel e.m_n e.m_m e.m_r e.m_c x = some nodes ∧
      update_active fuel { e with m_x := x } = some { e with
        m_x := x
        m_active_nodes := nodes
        m_active_genes := active_genes e.m_n e.m_m e.m_r e.m_c nodes } ∧
      nodes.Sorted (fun a b => a < b) ∧
      (∀ v, v ∈ nodes → v < e.m_n + e.m_r * e.m_c ∧ v < UINT_RANGE) ∧
      (∀ i, i < e.m_m → vec_at x (3 * (e.m_r * e.m_c) + i) ∈ nodes) ∧
      (∀ u, u ∈ nodes → e.m_n ≤ u →
        vec_at x (3 * (u - e.m_n) + 1) ∈ nodes ∧ vec_at x (3 * (u - e.m_n) + 2) ∈ nodes) ∧
      (∀ S : Nat → Prop, (∀ i, i < e.m_m → S (vec_at x (3 * (e.m_r * e.m_c) + i))) →
        (∀ u, S u → e.m_n ≤ u → u < e.m_n + e.m_r * e.m_c →
          S (vec_at x (3 * (u - e.m_n) + 1)) ∧ S (vec_at x (3 * (u - e.m_n) + 2))) →
        ∀ v, v ∈ nodes → S v) := by
  obtain ⟨a1, a3, _, _, h2, _, _⟩ := reachable_context e h hsz
  obtain ⟨v1, v2⟩ := valid_context e h hsz x hx
  obtain ⟨nodes, k1, k2, k3, k4, k5, k6⟩ :=
    active_nodes_spec e.m_n e.m_m e.m_r e.m_c e.m_l e.m_f.length a1 a3 h2 x v1 v2 fuel hf
  exact ⟨nodes, k1, update_active_of_nodes fuel { e with m_x := x } nodes k1, k2, k3, k4, k5, k6⟩


/-! ## Claims -/

/-- C1: in every state reached by a constructor call that returns, followed by calls of `set`
(returning or throwing) and of `mutate`, the stored chromosome has length `3*r*c + m` and every
gene `i` satisfies `lb[i] ≤ x[i] ≤ ub[i]`, so `is_valid(get())` is true; the shape is one
without unsigned overflow in `n + r*c` and `3*r*c + m`. -/
theorem stored_chromosome_valid {F : Type} (e : expression F) (h : reachable e)
    (hno : no_overflow e.m_n e.m_m e.m_r e.m_c) :
    (get e).length = 3 * e.m_r * e.m_c + e.m_m ∧
    (∀ i, i < 3 * e.m_r * e.m_c + e.m_m →
      vec_at e.m_lb i ≤ vec_at (get e) i ∧ vec_at (get e) i ≤ vec_at e.m_ub i) ∧
    is_valid e (get e) = true := by
  have hv := reachable_valid e h hno
  obtain ⟨v1, _⟩ := valid_context e h hno.2 e.m_x hv
  obtain ⟨_, w2⟩ := (is_valid_iff e e.m_x).mp hv
  rw [Nat.mul_assoc]
  refine ⟨v1, fun i hi => w2 i (by rw [v1]; exact hi), hv⟩

theorem stored_chromosome_valid_witness :
    (get sample_expression).length = 3 * 2 * 2 + 1 ∧
    (∀ i, i < 3 * 2 * 2 + 1 →
      vec_at sample_expression.m_lb i ≤ vec_at (get sample_expression) i ∧
      vec_at (get sample_expression) i ≤ vec_at sample_expression.m_ub i) ∧
    is_valid sample_expression (get sample_expression) = true :=
  stored_chromosome_valid sample_expression sample_reachable sample_no_overflow

/-- C2: for a chromosome `x` accepted by `is_valid`, `update_active` returns (within `c + 1`
rounds) and the active nodes it stores are the smallest set of ids that holds the value of
every output gene and, for each of its non-input ids `u ≥ n`, the values of both connection
genes of `u`: the set holds them, and it lies within every set that does. The chromosome
length `3*r*c + m` is within the unsigned range. -/
theorem active_nodes_smallest_closed_set {F : Type} (e : expression F) (h : reachable e)
    (hsz : 3 * e.m_r * e.m_c + e.m_m < UINT_RANGE) (x : List Nat) (hx : is_valid e x = true)
    (fuel : Nat) (hf : e.m_c + 1 ≤ fuel) :
    ∃ e1, update_active fuel { e with m_x := x } = some e1 ∧
      (∀ i, i < e.m_m → vec_at x (3 * e.m_r * e.m_c + i) ∈ get_active_nodes e1) ∧
      (∀ u, u ∈ get_active_nodes e1 → e.m_n ≤ u →
        vec_at x (3 * (u - e.m_n) + 1) ∈ get_active_nodes e1 ∧
        vec_at x (3 * (u - e.m_n) + 2) ∈ get_active_nodes e1) ∧
      (∀ S : Nat → Prop, (∀ i, i < e.m_m → S (vec_at x (3 * e.m_r * e.m_c + i))) →
        (∀ u, S u → e.m_n ≤ u → u < e.m_n + e.m_r * e.m_c →
          S (vec_at x (3 * (u - e.m_n) + 1)) ∧ S (vec_at x (3 * (u - e.m_n) + 2))) →
        ∀ v, v ∈ get_active_nodes e1 → S v) := by
  obtain ⟨nodes, _, k1, _, _, k4, k5, k6⟩ := update_active_valid e h hsz x hx fuel hf
  rw [Nat.mul_assoc]
  exact ⟨_, k1, k4, k5, k6⟩

theorem active_nodes_smallest_closed_set_witness :
    ∃ e1, update_active 3 { sample_expression with m_x := sample_chromosome } = some e1 ∧
      (∀ i, i < 1 → vec_at sample_chromosome (3 * 2 * 2 + i) ∈ get_active_nodes e1) ∧
      (∀ u, u ∈ get_active_nodes e1 → 1 ≤ u →
        vec_at sample_chromosome (3 * (u - 1) + 1) ∈ get_active_nodes e1 ∧
        vec_at sample_chromosome (3 * (u - 1) + 2) ∈ get_active_nodes e1) ∧
      (∀ S : Nat → Prop, (∀ i, i < 1 → S (vec_at sample_chromosome (3 * 2 * 2 + i))) →
        (∀ u, S u → 1 ≤ u → u < 1 + 2 * 2 →
          S (vec_at sample_chromosome (3 * (u - 1) + 1)) ∧
          S (vec_at sample_chromosome (3 * (u - 1) + 2))) →
        ∀ v, v ∈ get_active_nodes e1 → S v) :=
  active_nodes_smallest_closed_set sample_expression sample_reachable sample_length_fits
    sample_chromosome sample_chromosome_valid 3 (by decide)

/-- C3: `set(x)` throws `input_error("Chromosome is incompatible")` if and only if
`is_valid(x)` is false, and it throws nothing else; when it returns, `get()` afterwards is `x`;
and for a chromosome accepted by `is_valid` it does return (in a reachable state with
`3*r*c + m` within the unsigned range, within `c + 1` rounds of `update_active`). -/
theorem set_throws_iff_invalid {F : Type} (fuel : Nat) (e : expression F) (x : List Nat) :
    ((∃ e1, set fuel e x = outcome.input_error "Chromosome is incompatible" e1) ↔
      is_valid e x = false) ∧
    (∀ what e1, set fuel e x = outcome.input_error what e1 →
      what = "Chromosome is incompatible") ∧
    (∀ e1, set fuel e x = outcome.ok e1 → get e1 = x) ∧
    (reachable e → 3 * e.m_r * e.m_c + e.m_m < UINT_RANGE → e.m_c + 1 ≤ fuel →
      is_valid e x = true → ∃ e1, set fuel e x = outcome.ok e1 ∧ get e1 = x) := by
  refine ⟨⟨?_, ?_⟩, ?_, ?_, ?_⟩
  · rintro ⟨e1, h1⟩
    exact (set_input_error fuel e x _ e1 h1).1
  · intro hv
    refine ⟨e, ?_⟩
    unfold set
    simp [hv]
  · intro what e1 h1
    exact (set_input_error fuel e x what e1 h1).2.1
  · intro e1 h1
    obtain ⟨_, nodes, _, he⟩ := set_ok fuel e x e1 h1
    rw [he]
    rfl
  · intro h hno hf hv
    obtain ⟨nodes, _, k1, _⟩ := update_active_valid e h hno x hv fuel hf
    refine ⟨{ e with
      m_x := x
      m_active_nodes := nodes
      m_active_genes := active_genes e.m_n e.m_m e.m_r e.m_c nodes }, ?_, rfl⟩
    unfold set
    simp only [hv, Bool.not_true, Bool.false_eq_true, if_false, k1]

theorem set_throws_iff_invalid_witness :
    ∃ e1, set 3 sample_expression sample_chromosome = outcome.ok e1 ∧
      get e1 = sample_chromosome :=
  (set_throws_iff_invalid 3 sample_expression sample_chromosome).2.2.2
    sample_reachable sample_length_fits (by decide) sample_chromosome_valid

/-- C4: a call `set(x)` with `x` not valid throws and leaves the expression as it was: the
chromosome, the active nodes and the active genes after the call are those before it. -/
theorem set_failure_leaves_unchanged {F : Type} (fuel : Nat) (e : expression F) (x : List Nat)
    (hx : is_valid e x = false) :
    ∃ what e1, set fuel e x = outcome.input_error what e1 ∧ e1 = e ∧ get e1 = get e ∧
      get_active_nodes e1 = get_active_nodes e ∧ get_active_genes e1 = get_active_genes e := by
  refine ⟨"Chromosome is incompatible", e, ?_, rfl, rfl, rfl, rfl⟩
  unfold set
  simp [hx]

theorem set_failure_leaves_unchanged_witness :
    ∃ what e1, set 3 sample_expression [0, 0, 1] = outcome.input_error what e1 ∧
      e1 = sample_expression ∧ get e1 = get sample_expression ∧
      get_active_nodes e1 = get_active_nodes sample_expression ∧
      get_active_genes e1 = get_active_genes sample_expression :=
  set_failure_leaves_unchanged 3 sample_expression [0, 0, 1] (by decide)

/-- C5: `is_valid(x)` is true if and only if `x` has the length of the bound vectors and
`lb[i] ≤ x[i] ≤ ub[i]` for every index `i`; a chromosome of another length is rejected
whatever its genes; in a reachable state the length of the bound vectors is `3*r*c + m`,
when this number is within the unsigned range. -/
theorem is_valid_iff_length_and_bounds {F : Type} (e : expression F) (x : List Nat) :
    (is_valid e x = true ↔
      x.length = e.m_lb.length ∧
      ∀ i, i < x.length → vec_at e.m_lb i ≤ vec_at x i ∧ vec_at x i ≤ vec_at e.m_ub i) ∧
    (x.length ≠ e.m_lb.length → ∀ y : List Nat, y.length = x.length → is_valid e y = false) ∧
    (reachable e → 3 * e.m_r * e.m_c + e.m_m < UINT_RANGE →
      e.m_lb.length = 3 * e.m_r * e.m_c + e.m_m ∧ e.m_ub.length = 3 * e.m_r * e.m_c + e.m_m ∧
      (is_valid e x = true ↔
        x.length = 3 * e.m_r * e.m_c + e.m_m ∧
        ∀ i, i < 3 * e.m_r * e.m_c + e.m_m →
          vec_at e.m_lb i ≤ vec_at x i ∧ vec_at x i ≤ vec_at e.m_ub i)) := by
  refine ⟨is_valid_iff e x, ?_, ?_⟩
  · intro hlen y hy
    unfold is_valid
    rw [if_pos (by rw [hy]; exact hlen)]
  · intro h hno
    obtain ⟨_, _, _, _, _, c1, c2⟩ := reachable_context e h hno
    rw [Nat.mul_assoc, is_valid_iff, c1]
    refine ⟨rfl, c2, ?_⟩
    constructor
    · rintro ⟨a1, a2⟩
      exact ⟨a1, fun i hi => a2 i (by rw [a1]; exact hi)⟩
    · rintro ⟨a1, a2⟩
      exact ⟨a1, fun i hi => a2 i (by rw [a1] at hi; exact hi)⟩

theorem is_valid_iff_length_and_bounds_witness :
    sample_expression.m_lb.length = 3 * 2 * 2 + 1 ∧
    sample_expression.m_ub.length = 3 * 2 * 2 + 1 ∧
    (is_valid sample_expression sample_chromosome = true ↔
      sample_chromosome.length = 3 * 2 * 2 + 1 ∧
      ∀ i, i < 3 * 2 * 2 + 1 →
        vec_at sample_expression.m_lb i ≤ vec_at sample_chromosome i ∧
        vec_at sample_chromosome i ≤ vec_at sample_expression.m_ub i) :=
  (is_valid_iff_length_and_bounds sample_expression sample_chromosome).2.2
    sample_reachable sample_length_fits


/-- C6: connection genes never point forward. In a chromosome `x` accepted by `is_valid`, both
connection genes of the node `u = n + j*r + i` (column `j`, row `i`) hold a value below
`n + j*r`, hence below `u`; so every node id is above both of its connection targets (the
graph is acyclic), and so is every non-input id among the active nodes. The chromosome
length `3*r*c + m` is within the unsigned range. -/
theorem connections_point_backward {F : Type} (e : expression F) (h : reachable e)
    (hsz : 3 * e.m_r * e.m_c + e.m_m < UINT_RANGE) (x : List Nat) (hx : is_valid e x = true) :
    (∀ j i, j < e.m_c → i < e.m_r →
      vec_at x (3 * (j * e.m_r + i) + 1) < e.m_n + j * e.m_r ∧
      vec_at x (3 * (j * e.m_r + i) + 2) < e.m_n + j * e.m_r ∧
      vec_at x (3 * (j * e.m_r + i) + 1) < e.m_n + j * e.m_r + i ∧
      vec_at x (3 * (j * e.m_r + i) + 2) < e.m_n + j * e.m_r + i) ∧
    (∀ u, e.m_n ≤ u → u < e.m_n + e.m_r * e.m_c →
      vec_at x (3 * (u - e.m_n) + 1) < u ∧ vec_at x (3 * (u - e.m_n) + 2) < u) ∧
    (∀ fuel e1, update_active fuel { e with m_x := x } = some e1 →
      ∀ u, u ∈ get_active_nodes e1 → e.m_n ≤ u →
        vec_at x (3 * (u - e.m_n) + 1) < u ∧ vec_at x (3 * (u - e.m_n) + 2) < u) := by
  obtain ⟨a1, a3, _, _, h2, _, _⟩ := reachable_context e h hsz
  obtain ⟨v1, v2⟩ := valid_context e h hsz x hx
  have key := valid_connection_lt e.m_n e.m_m e.m_r e.m_c e.m_l e.m_f.length a1 h2 x v1 v2
  have part2 : ∀ u, e.m_n ≤ u → u < e.m_n + e.m_r * e.m_c →
      vec_at x (3 * (u - e.m_n) + 1) < u ∧ vec_at x (3 * (u - e.m_n) + 2) < u := by
    intro u hnu hu
    obtain ⟨k1, k2⟩ := key (u - e.m_n) (by omega)
    have := Nat.div_mul_le_self (u - e.m_n) e.m_r
    omega
  refine ⟨?_, part2, ?_⟩
  · intro j i hj hi
    obtain ⟨k1, k2⟩ := key (j * e.m_r + i) (cell_lt hj hi)
    rw [cell_div hi] at k1 k2
    omega
  · intro fuel e1 hu u hmem hnu
    obtain ⟨nodes, hn, he⟩ := update_active_some _ _ _ hu
    obtain ⟨nodes1, hn1, _, _, k3, _⟩ :=
      update_active_valid e h hsz x hx (e.m_c + 1) (le_refl _)
    have hnodes : nodes = nodes1 := active_nodes_det _ _ _ _ _ _ _ _ _ hn hn1
    have hm : u ∈ nodes1 := by
      rw [he] at hmem
      rw [← hnodes]
      exact hmem
    exact part2 u hnu (k3 u hm).1

theorem connections_point_backward_witness :
    (∀ j i, j < 2 → i < 2 →
      vec_at sample_chromosome (3 * (j * 2 + i) + 1) < 1 + j * 2 ∧
      vec_at sample_chromosome (3 * (j * 2 + i) + 2) < 1 + j * 2 ∧
      vec_at sample_chromosome (3 * (j * 2 + i) + 1) < 1 + j * 2 + i ∧
      vec_at sample_chromosome (3 * (j * 2 + i) + 2) < 1 + j * 2 + i) ∧
    (∀ u, 1 ≤ u → u < 1 + 2 * 2 →
      vec_at sample_chromosome (3 * (u - 1) + 1) < u ∧
      vec_at sample_chromosome (3 * (u - 1) + 2) < u) ∧
    (∀ fuel e1,
      update_active fuel { sample_expression with m_x := sample_chromosome } = some e1 →
      ∀ u, u ∈ get_active_nodes e1 → 1 ≤ u →
        vec_at sample_chromosome (3 * (u - 1) + 1) < u ∧
        vec_at sample_chromosome (3 * (u - 1) + 2) < u) :=
  connections_point_backward sample_expression sample_reachable sample_length_fits
    sample_chromosome sample_chromosome_valid

/-- C7: in every reachable state (after the constructor, after `set`, after `mutate`) the
stored active nodes and active genes are what `update_active` computes from the stored
chromosome `get()`: a call of `update_active` on the state returns the state itself, whatever
the budget it returns with, and it does return (within `c + 1` rounds for a shape without
overflow). -/
theorem active_sets_never_stale {F : Type} (e : expression F) (h : reachable e) :
    (∃ fuel, update_active fuel e = some e) ∧
    (∀ fuel e1, update_active fuel e = some e1 →
      get_active_nodes e1 = get_active_nodes e ∧ get_active_genes e1 = get_active_genes e ∧
      e1 = e) ∧
    (no_overflow e.m_n e.m_m e.m_r e.m_c → ∀ fuel, e.m_c + 1 ≤ fuel →
      update_active fuel e = some e) := by
  obtain ⟨fuel0, f1, f2⟩ := reachable_fresh e h
  have self_eq : ∀ nodes, nodes = e.m_active_nodes →
      ({ e with
        m_active_nodes := nodes
        m_active_genes := active_genes e.m_n e.m_m e.m_r e.m_c nodes } : expression F) = e := by
    intro nodes hn
    subst hn
    rw [← f2]
  have back : ∀ fuel e1, update_active fuel e = some e1 → e1 = e := by
    intro fuel e1 hu
    obtain ⟨nodes, hn, he⟩ := update_active_some _ _ _ hu
    rw [he]
    exact self_eq nodes (active_nodes_det _ _ _ _ _ _ _ _ _ hn f1)
  refine ⟨⟨fuel0, ?_⟩, ?_, ?_⟩
  · rw [update_active_of_nodes fuel0 e _ f1, self_eq _ rfl]
  · intro fuel e1 hu
    have := back fuel e1 hu
    subst this
    exact ⟨rfl, rfl, rfl⟩
  · intro hno fuel hf
    obtain ⟨nodes, hn, _⟩ :=
      update_active_valid e h hno.2 e.m_x (reachable_valid e h hno) fuel hf
    rw [update_active_of_nodes fuel e _ hn]
    rw [self_eq nodes (active_nodes_det _ _ _ _ _ _ _ _ _ hn f1)]

theorem active_sets_never_stale_witness :
    (∃ fuel, update_active fuel sample_expression = some sample_expression) ∧
    (∀ fuel e1, update_active fuel sample_expression = some e1 →
      get_active_nodes e1 = get_active_nodes sample_expression ∧
      get_active_genes e1 = get_active_genes sample_expression ∧ e1 = sample_expression) ∧
    update_active 3 sample_expression = some sample_expression :=
  ⟨(active_sets_never_stale sample_expression sample_reachable).1,
    (active_sets_never_stale sample_expression sample_reachable).2.1,
    (active_sets_never_stale sample_expression sample_reachable).2.2 sample_no_overflow 3
      (by decide)⟩


/-- C8: for a chromosome `x` accepted by `is_valid`, the active genes stored by
`update_active` are, for every active non-input node `u ≥ n`, its function gene `3*(u-n)` and
its connection genes `3*(u-n)+1` and `3*(u-n)+2`, together with the `m` output genes
`3*r*c .. 3*r*c+m-1`, and no other index. The chromosome length `3*r*c + m` is within the
unsigned range. -/
theorem active_genes_of_active_nodes {F : Type} (e : expression F) (h : reachable e)
    (hsz : 3 * e.m_r * e.m_c + e.m_m < UINT_RANGE) (x : List Nat) (hx : is_valid e x = true)
    (fuel : Nat) (hf : e.m_c + 1 ≤ fuel) :
    ∃ e1, update_active fuel { e with m_x := x } = some e1 ∧
      ∀ g, g ∈ get_active_genes e1 ↔
        (∃ u, u ∈ get_active_nodes e1 ∧ e.m_n ≤ u ∧
          (g = 3 * (u - e.m_n) ∨ g = 3 * (u - e.m_n) + 1 ∨ g = 3 * (u - e.m_n) + 2)) ∨
        (3 * e.m_r * e.m_c ≤ g ∧ g < 3 * e.m_r * e.m_c + e.m_m) := by
  obtain ⟨_, _, _, _, h2, _, _⟩ := reachable_context e h hsz
  obtain ⟨nodes, _, k1, _, k3, _⟩ := update_active_valid e h hsz x hx fuel hf
  rw [Nat.mul_assoc]
  exact ⟨_, k1, fun g => mem_active_genes e.m_n e.m_m e.m_r e.m_c nodes h2 k3 g⟩

theorem active_genes_of_active_nodes_witness :
    ∃ e1, update_active 3 { sample_expression with m_x := sample_chromosome } = some e1 ∧
      ∀ g, g ∈ get_active_genes e1 ↔
        (∃ u, u ∈ get_active_nodes e1 ∧ 1 ≤ u ∧
          (g = 3 * (u - 1) ∨ g = 3 * (u - 1) + 1 ∨ g = 3 * (u - 1) + 2)) ∨
        (3 * 2 * 2 ≤ g ∧ g < 3 * 2 * 2 + 1) :=
  active_genes_of_active_nodes sample_expression sample_reachable sample_length_fits
    sample_chromosome sample_chromosome_valid 3 (by decide)

/-- C9: the list of active nodes produced by `update_active` is strictly increasing (sorted
ascending, no id twice), whenever the call returns; and on a chromosome accepted by
`is_valid` it returns (reachable state, `3*r*c + m` within the unsigned range, `c + 1`
rounds). -/
theorem active_nodes_strictly_increasing {F : Type} (fuel : Nat) (e : expression F) :
    (∀ e1, update_active fuel e = some e1 →
      (get_active_nodes e1).Sorted (fun a b => a < b)) ∧
    (∀ x, reachable e → 3 * e.m_r * e.m_c + e.m_m < UINT_RANGE → is_valid e x = true →
      e.m_c + 1 ≤ fuel →
      ∃ e1, update_active fuel { e with m_x := x } = some e1 ∧
        (get_active_nodes e1).Sorted (fun a b => a < b)) := by
  constructor
  · intro e1 hu
    obtain ⟨nodes, hn, he⟩ := update_active_some _ _ _ hu
    unfold active_nodes at hn
    simp only [Option.map_eq_some'] at hn
    obtain ⟨a, _, ha⟩ := hn
    rw [he, ← ha]
    exact sorted_unique _ (sorted_sort a)
  · intro x h hno hx hf
    obtain ⟨nodes, _, k1, k2, _⟩ := update_active_valid e h hno x hx fuel hf
    exact ⟨_, k1, k2⟩

theorem active_nodes_strictly_increasing_witness :
    ∃ e1, update_active 3 { sample_expression with m_x := sample_chromosome } = some e1 ∧
      (get_active_nodes e1).Sorted (fun a b => a < b) :=
  (active_nodes_strictly_increasing 3 sample_expression).2 sample_chromosome
    sample_reachable sample_length_fits sample_chromosome_valid (by decide)

/-- C10: after a constructor call that returns, with `n` inputs, `r` rows, `c` columns and
levels-back `l` (chromosome length `3*r*c + m` within the unsigned range), both connection
genes of the node at column `j`, row `i` (chromosome indices `3*(j*r+i)+1` and `3*(j*r+i)+2`)
have upper bound `n + j*r - 1` and lower bound `n + r*(j - l)` if `j ≥ l`, and `0` otherwise:
as computed in unsigned arithmetic in every case, and as these very numbers whenever
`n + j*r - 1` is an `unsigned int`. -/
theorem connection_gene_bounds_after_construct {F : Type} (fuel n m r c l : Nat) (f : List F)
    (seed : Nat → Nat) (e : expression F)
    (h : construct fuel n m r c l f seed = construction.ok e)
    (hsz : 3 * r * c + m < UINT_RANGE) :
    ∀ j i, j < c → i < r →
      3 * (j * r + i) + 2 < e.m_lb.length ∧ 3 * (j * r + i) + 2 < e.m_ub.length ∧
      vec_at e.m_ub (3 * (j * r + i) + 1) = usub (uadd n (umul j r)) 1 ∧
      vec_at e.m_ub (3 * (j * r + i) + 2) = usub (uadd n (umul j r)) 1 ∧
      vec_at e.m_lb (3 * (j * r + i) + 1) = (if j ≥ l then uadd n (umul r (usub j l)) else 0) ∧
      vec_at e.m_lb (3 * (j * r + i) + 2) = (if j ≥ l then uadd n (umul r (usub j l)) else 0) ∧
      (n + j * r - 1 < UINT_RANGE →
        vec_at e.m_ub (3 * (j * r + i) + 1) = n + j * r - 1 ∧
        vec_at e.m_ub (3 * (j * r + i) + 2) = n + j * r - 1 ∧
        vec_at e.m_lb (3 * (j * r + i) + 1) = (if j ≥ l then n + r * (j - l) else 0) ∧
        vec_at e.m_lb (3 * (j * r + i) + 2) = (if j ≥ l then n + r * (j - l) else 0)) := by
  intro j i hj hi
  obtain ⟨a1, _, a3, _, a5, _, nodes, _, he⟩ := construct_ok _ _ _ _ _ _ _ _ _ h
  rw [Nat.mul_assoc] at hsz
  obtain ⟨b1, b2, b3⟩ := bounds_machine n m r c l f.length hsz
  have hk : j * r + i < r * c := cell_lt hj hi
  have c1 : 3 * (j * r + i) + 1 < 3 * (r * c) := by omega
  have c2 : 3 * (j * r + i) + 2 < 3 * (r * c) := by omega
  have d1 : ¬ (3 * (j * r + i) + 1) % 3 = 0 := by omega
  have d2 : ¬ (3 * (j * r + i) + 2) % 3 = 0 := by omega
  have q1 : (3 * (j * r + i) + 1) / 3 / r = j := by
    have : (3 * (j * r + i) + 1) / 3 = j * r + i := by omega
    rw [this, cell_div hi]
  have q2 : (3 * (j * r + i) + 2) / 3 / r = j := by
    have : (3 * (j * r + i) + 2) / 3 = j * r + i := by omega
    rw [this, cell_div hi]
  subst he
  have u1 : vec_at (bounds n m r c l f.length).2 (3 * (j * r + i) + 1) =
      usub (uadd n (umul j r)) 1 := by
    rw [(b3 _).1, if_pos c1, if_neg d1, q1]
  have u2 : vec_at (bounds n m r c l f.length).2 (3 * (j * r + i) + 2) =
      usub (uadd n (umul j r)) 1 := by
    rw [(b3 _).1, if_pos c2, if_neg d2, q2]
  have l1 : vec_at (bounds n m r c l f.length).1 (3 * (j * r + i) + 1) =
      (if j ≥ l then uadd n (umul r (usub j l)) else 0) := by
    rw [(b3 _).2, if_pos c1, if_neg d1, q1]
  have l2 : vec_at (bounds n m r c l f.length).1 (3 * (j * r + i) + 2) =
      (if j ≥ l then uadd n (umul r (usub j l)) else 0) := by
    rw [(b3 _).2, if_pos c2, if_neg d2, q2]
  refine ⟨by rw [b1]; omega, by rw [b2]; omega, u1, u2, l1, l2, ?_⟩
  intro hrep
  have hlb : (if j ≥ l then uadd n (umul r (usub j l)) else 0) =
      (if j ≥ l then n + r * (j - l) else 0) := by
    by_cases hl : j ≥ l
    · rw [if_pos hl, if_pos hl, lb_val_exact a1 a3 a5 hl hrep]
    · rw [if_neg hl, if_neg hl]
  exact ⟨u1.trans (ub_conn_val_exact a1 hrep), u2.trans (ub_conn_val_exact a1 hrep),
    l1.trans hlb, l2.trans hlb⟩

theorem connection_gene_bounds_after_construct_witness :
    vec_at sample_expression.m_ub (3 * (1 * 2 + 1) + 1) = 1 + 1 * 2 - 1 ∧
    vec_at sample_expression.m_ub (3 * (1 * 2 + 1) + 2) = 1 + 1 * 2 - 1 ∧
    vec_at sample_expression.m_lb (3 * (1 * 2 + 1) + 1) =
      (if 1 ≥ 1 then 1 + 2 * (1 - 1) else 0) ∧
    vec_at sample_expression.m_lb (3 * (1 * 2 + 1) + 2) =
      (if 1 ≥ 1 then 1 + 2 * (1 - 1) else 0) :=
  (connection_gene_bounds_after_construct 3 1 1 2 2 1 [(), ()] sample_seed sample_expression
    sample_construct sample_length_fits 1 1 (by decide) (by decide)).2.2.2.2.2.2 (by decide)

/-! ## Further sample expressions -/

theorem counting_construct :
    construct 3 1 1 2 2 1 [(), ()] counting_seed = construction.ok counting_expression := rfl

theorem counting_reachable : reachable counting_expression :=
  reachable.construct 3 1 1 2 2 1 [(), ()] counting_seed counting_expression counting_construct

theorem wide_construct :
    construct 3 1 1 2 2 3 [(), ()] wide_seed = construction.ok wide_expression := rfl


/-! ## Bounds of the output genes and of the function genes -/

theorem umul_comm (a b : Nat) : umul a b = umul b a := by
  unfold umul
  rw [Nat.mul_comm]

/-- The bounds of the output gene `i`, as the unsigned values the constructor computes. -/
theorem output_bounds_machine (n m r c l fsize : Nat) (h2 : 3 * (r * c) + m < UINT_RANGE)
    (i : Nat) (hi : i < m) :
    vec_at (bounds n m r c l fsize).2 (3 * (r * c) + i) = usub (uadd n (umul r c)) 1 ∧
    vec_at (bounds n m r c l fsize).1 (3 * (r * c) + i) =
      (if l ≤ c then uadd n (umul r (usub c l)) else 0) := by
  obtain ⟨_, _, b3⟩ := bounds_machine n m r c l fsize h2
  have c1 : ¬ 3 * (r * c) + i < 3 * (r * c) := by omega
  have c2 : 3 * (r * c) + i < 3 * (r * c) + m := by omega
  rw [(b3 _).1, (b3 _).2, if_neg c1, if_neg c1, if_pos c2, if_pos c2]
  exact ⟨rfl, rfl⟩

/-- The unsigned values of the output bounds are the plain numbers when `n + r*c - 1` is an
`unsigned int`. -/
theorem output_bounds_exact {n r c l : Nat} (hn : 0 < n) (hr : 0 < r) (hl : 0 < l)
    (hrep : n + r * c - 1 < UINT_RANGE) :
    usub (uadd n (umul r c)) 1 = n + r * c - 1 ∧
    (if l ≤ c then uadd n (umul r (usub c l)) else 0) =
      (if l ≤ c then n + r * (c - l) else 0) := by
  have hrep1 : n + c * r - 1 < UINT_RANGE := by rw [Nat.mul_comm c r]; exact hrep
  constructor
  · rw [umul_comm r c, ub_conn_val_exact hn hrep1, Nat.mul_comm c r]
  · by_cases hlc : l ≤ c
    · rw [if_pos hlc, if_pos hlc, lb_val_exact hn hr hl hlc hrep1]
    · rw [if_neg hlc, if_neg hlc]

/-- The bounds of the function gene of the cell `k`. -/
theorem function_bounds_machine (n m r c l fsize : Nat) (h2 : 3 * (r * c) + m < UINT_RANGE)
    (k : Nat) (hk : k < r * c) :
    vec_at (bounds n m r c l fsize).2 (3 * k) = (fsize - 1) % UINT_RANGE ∧
    vec_at (bounds n m r c l fsize).1 (3 * k) = 0 := by
  obtain ⟨_, _, b3⟩ := bounds_machine n m r c l fsize h2
  have c1 : 3 * k < 3 * (r * c) := by omega
  have c2 : 3 * k % 3 = 0 := by omega
  rw [(b3 _).1, (b3 _).2, if_pos c1, if_pos c1, if_pos c2, if_pos c2]
  exact ⟨rfl, rfl⟩

/-- C11: after a constructor call that returns (chromosome length `3*r*c + m` within the
unsigned range), every output gene (chromosome indices `3*r*c .. 3*r*c+m-1`) has upper bound
`n + r*c - 1` and lower bound `n + r*(c - l)` if `l ≤ c`, and `0` otherwise: as computed in
unsigned arithmetic in every case, and as these very numbers whenever `n + r*c - 1` is an
`unsigned int`. -/
theorem output_gene_bounds_after_construct {F : Type} (fuel n m r c l : Nat) (f : List F)
    (seed : Nat → Nat) (e : expression F)
    (h : construct fuel n m r c l f seed = construction.ok e)
    (hsz : 3 * r * c + m < UINT_RANGE) :
    ∀ i, i < m →
      3 * r * c + i < e.m_lb.length ∧ 3 * r * c + i < e.m_ub.length ∧
      vec_at e.m_ub (3 * r * c + i) = usub (uadd n (umul r c)) 1 ∧
      vec_at e.m_lb (3 * r * c + i) = (if l ≤ c then uadd n (umul r (usub c l)) else 0) ∧
      (n + r * c - 1 < UINT_RANGE →
        vec_at e.m_ub (3 * r * c + i) = n + r * c - 1 ∧
        vec_at e.m_lb (3 * r * c + i) = (if l ≤ c then n + r * (c - l) else 0)) := by
  intro i hi
  obtain ⟨a1, _, a3, _, a5, _, nodes, _, he⟩ := construct_ok _ _ _ _ _ _ _ _ _ h
  rw [Nat.mul_assoc] at hsz ⊢
  obtain ⟨b1, b2, _⟩ := bounds_machine n m r c l f.length hsz
  obtain ⟨u1, l1⟩ := output_bounds_machine n m r c l f.length hsz i hi
  subst he
  refine ⟨by rw [b1]; omega, by rw [b2]; omega, u1, l1, ?_⟩
  intro hrep
  obtain ⟨x1, x2⟩ := output_bounds_exact (l := l) a1 a3 a5 hrep
  exact ⟨u1.trans x1, l1.trans x2⟩

theorem output_gene_bounds_after_construct_witness :
    vec_at sample_expression.m_ub (3 * 2 * 2 + 0) = 1 + 2 * 2 - 1 ∧
    vec_at sample_expression.m_lb (3 * 2 * 2 + 0) = (if 1 ≤ 2 then 1 + 2 * (2 - 1) else 0) :=
  (output_gene_bounds_after_construct 3 1 1 2 2 1 [(), ()] sample_seed sample_expression
    sample_construct sample_length_fits 0 (by decide)).2.2.2.2 (by decide)

/-- C12: after a constructor call that returns, with the kernel list `f` (chromosome length
`3*r*c + m` within the unsigned range), the function gene of every node `k` in `[0, r*c)`
(chromosome index `3*k`) has lower bound `0` and upper bound `|f| - 1` (converted to
`unsigned int`, so this very number when it is one); every function gene of a chromosome
accepted by `is_valid` is below `|f|`, a valid index into the kernel list. -/
theorem function_gene_bounds_after_construct {F : Type} (fuel n m r c l : Nat) (f : List F)
    (seed : Nat → Nat) (e : expression F)
    (h : construct fuel n m r c l f seed = construction.ok e)
    (hsz : 3 * r * c + m < UINT_RANGE) :
    ∀ k, k < r * c →
      3 * k < e.m_lb.length ∧ 3 * k < e.m_ub.length ∧
      vec_at e.m_lb (3 * k) = 0 ∧
      vec_at e.m_ub (3 * k) = (f.length - 1) % UINT_RANGE ∧
      (f.length - 1 < UINT_RANGE → vec_at e.m_ub (3 * k) = f.length - 1) ∧
      (∀ x, is_valid e x = true → vec_at x (3 * k) < f.length) := by
  intro k hk
  obtain ⟨_, _, _, _, _, a6, nodes, _, he⟩ := construct_ok _ _ _ _ _ _ _ _ _ h
  rw [Nat.mul_assoc] at hsz
  obtain ⟨b1, b2, _⟩ := bounds_machine n m r c l f.length hsz
  obtain ⟨u1, l1⟩ := function_bounds_machine n m r c l f.length hsz k hk
  subst he
  refine ⟨by rw [b1]; omega, by rw [b2]; omega, l1, u1, ?_, ?_⟩
  · intro hrep
    exact u1.trans (Nat.mod_eq_of_lt hrep)
  · intro x hx
    obtain ⟨v1, v2⟩ := (is_valid_iff _ x).mp hx
    have hlen : x.length = 3 * (r * c) + m := v1.trans b1
    have := (v2 (3 * k) (by omega)).2
    have hle : (f.length - 1) % UINT_RANGE ≤ f.length - 1 := Nat.mod_le _ _
    have hu : vec_at (bounds n m r c l f.length).2 (3 * k) = (f.length - 1) % UINT_RANGE := u1
    have hx3 : vec_at x (3 * k) ≤ vec_at (bounds n m r c l f.length).2 (3 * k) := this
    omega

theorem function_gene_bounds_after_construct_witness :
    vec_at sample_expression.m_lb (3 * 3) = 0 ∧
    vec_at sample_expression.m_ub (3 * 3) = 2 - 1 ∧
    vec_at sample_chromosome (3 * 3) < 2 :=
  ⟨(function_gene_bounds_after_construct 3 1 1 2 2 1 [(), ()] sample_seed sample_expression
      sample_construct sample_length_fits 3 (by decide)).2.2.1,
    (function_gene_bounds_after_construct 3 1 1 2 2 1 [(), ()] sample_seed sample_expression
      sample_construct sample_length_fits 3 (by decide)).2.2.2.2.1 (by decide),
    (function_gene_bounds_after_construct 3 1 1 2 2 1 [(), ()] sample_seed sample_expression
      sample_construct sample_length_fits 3 (by decide)).2.2.2.2.2 sample_chromosome
      sample_chromosome_valid⟩

/-- The connection genes of a chromosome within the bounds of the constructor are not below
the lower bound of their column, when the ids up to that column are `unsigned int`s. -/
theorem valid_connection_ge (n m r c l fsize : Nat) (hn : 0 < n) (hr : 0 < r) (hl : 0 < l)
    (h2 : 3 * (r * c) + m < UINT_RANGE) (x : List Nat)
    (hlen : x.length = 3 * (r * c) + m)
    (hx : ∀ i, i < x.length → vec_at (bounds n m r c l fsize).1 i ≤ vec_at x i ∧
      vec_at x i ≤ vec_at (bounds n m r c l fsize).2 i)
    (j i : Nat) (hj : j < c) (hi : i < r) (hlj : l ≤ j) (hrep : n + j * r - 1 < UINT_RANGE) :
    n + r * (j - l) ≤ vec_at x (3 * (j * r + i) + 1) ∧
    n + r * (j - l) ≤ vec_at x (3 * (j * r + i) + 2) := by
  obtain ⟨_, _, b3⟩ := bounds_machine n m r c l fsize h2
  have hk : j * r + i < r * c := cell_lt hj hi
  have a1 := (hx (3 * (j * r + i) + 1) (by omega)).1
  have a2 := (hx (3 * (j * r + i) + 2) (by omega)).1
  rw [(b3 _).2] at a1 a2
  have c1 : 3 * (j * r + i) + 1 < 3 * (r * c) := by omega
  have c2 : 3 * (j * r + i) + 2 < 3 * (r * c) := by omega
  have d1 : ¬ (3 * (j * r + i) + 1) % 3 = 0 := by omega
  have d2 : ¬ (3 * (j * r + i) + 2) % 3 = 0 := by omega
  have q1 : (3 * (j * r + i) + 1) / 3 / r = j := by
    have : (3 * (j * r + i) + 1) / 3 = j * r + i := by omega
    rw [this, cell_div hi]
  have q2 : (3 * (j * r + i) + 2) / 3 / r = j := by
    have : (3 * (j * r + i) + 2) / 3 = j * r + i := by omega
    rw [this, cell_div hi]
  rw [if_pos c1, if_neg d1, q1, if_pos hlj, lb_val_exact hn hr hl hlj hrep] at a1
  rw [if_pos c2, if_neg d2, q2, if_pos hlj, lb_val_exact hn hr hl hlj hrep] at a2
  exact ⟨a1, a2⟩

/-- An id `v` with `n + r*a ≤ v < n + r*b` is the id of a node of a column `a ≤ j < b`. -/
theorem node_of_id {n r a b v : Nat} (hr : 0 < r) (h1 : n + r * a ≤ v) (h2 : v < n + r * b) :
    ∃ j i, v = n + j * r + i ∧ i < r ∧ a ≤ j ∧ j < b := by
  refine ⟨(v - n) / r, (v - n) % r, ?_, Nat.mod_lt _ hr, ?_, ?_⟩
  · have := Nat.div_add_mod (v - n) r
    rw [Nat.mul_comm r ((v - n) / r)] at this
    omega
  · rw [Nat.le_div_iff_mul_le hr, Nat.mul_comm]
    omega
  · rw [Nat.div_lt_iff_lt_mul hr, Nat.mul_comm]
    omega

/-- C13: levels-back restriction. In a chromosome `x` accepted by `is_valid`, each connection
gene (`d = 1, 2`) of the node at column `j`, row `i` holds either the id of an input (below
`n`) or the id `n + j1*r + i1` of a node of a column `j1` with `max(0, j-l) ≤ j1 ≤ j-1`; an
input id occurs only when `j < l`, and for `j ≥ l` the value is the id of a node of the columns
`j-l .. j-1`. Stated for a chromosome length `3*r*c + m` within the unsigned range and the
columns `j` whose last preceding id `n + j*r - 1` is an `unsigned int`. -/
theorem levels_back_restriction {F : Type} (e : expression F) (h : reachable e)
    (hsz : 3 * e.m_r * e.m_c + e.m_m < UINT_RANGE) (x : List Nat) (hx : is_valid e x = true)
    (j i d : Nat) (hj : j < e.m_c) (hi : i < e.m_r) (hd : d = 1 ∨ d = 2)
    (hrep : e.m_n + j * e.m_r - 1 < UINT_RANGE) :
    (vec_at x (3 * (j * e.m_r + i) + d) < e.m_n ∨
      ∃ j1 i1, vec_at x (3 * (j * e.m_r + i) + d) = e.m_n + j1 * e.m_r + i1 ∧ i1 < e.m_r ∧
        j - e.m_l ≤ j1 ∧ j1 < j) ∧
    (vec_at x (3 * (j * e.m_r + i) + d) < e.m_n → j < e.m_l) ∧
    (e.m_l ≤ j →
      ∃ j1 i1, vec_at x (3 * (j * e.m_r + i) + d) = e.m_n + j1 * e.m_r + i1 ∧ i1 < e.m_r ∧
        j - e.m_l ≤ j1 ∧ j1 < j) := by
  obtain ⟨a1, a3, _, a5, h2, _, _⟩ := reachable_context e h hsz
  obtain ⟨v1, v2⟩ := valid_context e h hsz x hx
  obtain ⟨k1, k2⟩ := valid_connection_lt e.m_n e.m_m e.m_r e.m_c e.m_l e.m_f.length a1 h2 x
    v1 v2 (j * e.m_r + i) (cell_lt hj hi)
  rw [cell_div hi] at k1 k2
  have hlt : vec_at x (3 * (j * e.m_r + i) + d) < e.m_n + e.m_r * j := by
    rw [Nat.mul_comm e.m_r j]
    rcases hd with hd | hd
    · rw [hd]; exact k1
    · rw [hd]; exact k2
  have hge : e.m_l ≤ j → e.m_n + e.m_r * (j - e.m_l) ≤ vec_at x (3 * (j * e.m_r + i) + d) := by
    intro hlj
    obtain ⟨g1, g2⟩ := valid_connection_ge e.m_n e.m_m e.m_r e.m_c e.m_l e.m_f.length a1 a3 a5
      h2 x v1 v2 j i hj hi hlj hrep
    rcases hd with hd | hd
    · rw [hd]; exact g1
    · rw [hd]; exact g2
  have hnode : e.m_l ≤ j →
      ∃ j1 i1, vec_at x (3 * (j * e.m_r + i) + d) = e.m_n + j1 * e.m_r + i1 ∧ i1 < e.m_r ∧
        j - e.m_l ≤ j1 ∧ j1 < j := fun hlj => node_of_id a3 (hge hlj) hlt
  refine ⟨?_, ?_, hnode⟩
  · by_cases hlj : e.m_l ≤ j
    · exact Or.inr (hnode hlj)
    · by_cases hv : vec_at x (3 * (j * e.m_r + i) + d) < e.m_n
      · exact Or.inl hv
      · have h0 : j - e.m_l = 0 := by omega
        rw [h0]
        exact Or.inr (node_of_id a3 (by omega) hlt)
  · intro hv
    by_contra hlj
    have := hge (by omega)
    omega

theorem levels_back_restriction_witness :
    ∃ j1 i1, vec_at sample_chromosome (3 * (1 * 2 + 1) + 2) = 1 + j1 * 2 + i1 ∧ i1 < 2 ∧
      1 - 1 ≤ j1 ∧ j1 < 1 :=
  (levels_back_restriction sample_expression sample_reachable sample_length_fits
    sample_chromosome sample_chromosome_valid 1 1 2 (by decide) (by decide) (by decide)
    (by decide)).2.2 (by decide)

/-- C14: output gene reach, after a constructor call that returns (chromosome length
`3*r*c + m` within the unsigned range, `n + r*c - 1` an `unsigned int`). If `l > c`, the
allowed range of every output gene is the whole id range `[0, n + r*c - 1]`: every input or
node id is allowed. If `l = 1`, it is `[n + r*(c-1), n + r*c - 1]`, exactly the ids
`n + (c-1)*r + i`, `i < r`, of the nodes of the last column. -/
theorem output_gene_reach {F : Type} (fuel n m r c l : Nat) (f : List F)
    (seed : Nat → Nat) (e : expression F)
    (h : construct fuel n m r c l f seed = construction.ok e)
    (hsz : 3 * r * c + m < UINT_RANGE) (hrep : n + r * c - 1 < UINT_RANGE) :
    (c < l → ∀ i, i < m →
      vec_at e.m_lb (3 * r * c + i) = 0 ∧ vec_at e.m_ub (3 * r * c + i) = n + r * c - 1 ∧
      ∀ v, (vec_at e.m_lb (3 * r * c + i) ≤ v ∧ v ≤ vec_at e.m_ub (3 * r * c + i)) ↔
        v < n + r * c) ∧
    (l = 1 → ∀ i, i < m →
      vec_at e.m_lb (3 * r * c + i) = n + r * (c - 1) ∧
      vec_at e.m_ub (3 * r * c + i) = n + r * c - 1 ∧
      ∀ v, (vec_at e.m_lb (3 * r * c + i) ≤ v ∧ v ≤ vec_at e.m_ub (3 * r * c + i)) ↔
        ∃ row, row < r ∧ v = n + (c - 1) * r + row) := by
  obtain ⟨a1, _, a3, a4, a5, _, nodes, _, he⟩ := construct_ok _ _ _ _ _ _ _ _ _ h
  rw [Nat.mul_assoc] at hsz ⊢
  obtain ⟨x1, x2⟩ := output_bounds_exact (l := l) a1 a3 a5 hrep
  subst he
  have key : ∀ i, i < m →
      vec_at (bounds n m r c l f.length).2 (3 * (r * c) + i) = n + r * c - 1 ∧
      vec_at (bounds n m r c l f.length).1 (3 * (r * c) + i) =
        (if l ≤ c then n + r * (c - l) else 0) := by
    intro i hi
    obtain ⟨u1, l1⟩ := output_bounds_machine n m r c l f.length hsz i hi
    exact ⟨u1.trans x1, l1.trans x2⟩
  constructor
  · intro hcl i hi
    obtain ⟨u1, l1⟩ := key i hi
    rw [if_neg (by omega)] at l1
    refine ⟨l1, u1, fun v => ?_⟩
    show (vec_at (bounds n m r c l f.length).1 (3 * (r * c) + i) ≤ v ∧
      v ≤ vec_at (bounds n m r c l f.length).2 (3 * (r * c) + i)) ↔ _
    rw [l1, u1]
    omega
  · intro hl1 i hi
    obtain ⟨u1, l1⟩ := key i hi
    subst hl1
    rw [if_pos (by omega)] at l1
    refine ⟨l1, u1, fun v => ?_⟩
    show (vec_at (bounds n m r c 1 f.length).1 (3 * (r * c) + i) ≤ v ∧
      v ≤ vec_at (bounds n m r c 1 f.length).2 (3 * (r * c) + i)) ↔ _
    rw [l1, u1]
    have hrc : r * (c - 1) + r = r * c := by
      have : r * (c - 1) + r = r * (c - 1 + 1) := by rw [Nat.mul_add, Nat.mul_one]
      have e1 : c - 1 + 1 = c := by omega
      rw [this, e1]
    rw [Nat.mul_comm (c - 1) r]
    constructor
    · rintro ⟨g1, g2⟩
      exact ⟨v - (n + r * (c - 1)), by omega, by omega⟩
    · rintro ⟨row, g1, g2⟩
      omega

theorem output_gene_reach_witness :
    (vec_at wide_expression.m_lb (3 * 2 * 2 + 0) = 0 ∧
      vec_at wide_expression.m_ub (3 * 2 * 2 + 0) = 1 + 2 * 2 - 1 ∧
      ∀ v, (vec_at wide_expression.m_lb (3 * 2 * 2 + 0) ≤ v ∧
          v ≤ vec_at wide_expression.m_ub (3 * 2 * 2 + 0)) ↔ v < 1 + 2 * 2) ∧
    (vec_at sample_expression.m_lb (3 * 2 * 2 + 0) = 1 + 2 * (2 - 1) ∧
      vec_at sample_expression.m_ub (3 * 2 * 2 + 0) = 1 + 2 * 2 - 1 ∧
      ∀ v, (vec_at sample_expression.m_lb (3 * 2 * 2 + 0) ≤ v ∧
          v ≤ vec_at sample_expression.m_ub (3 * 2 * 2 + 0)) ↔
        ∃ row, row < 2 ∧ v = 1 + (2 - 1) * 2 + row) :=
  ⟨(output_gene_reach 3 1 1 2 2 3 [(), ()] wide_seed wide_expression
      wide_construct sample_length_fits (by decide)).1 (by decide) 0 (by decide),
    (output_gene_reach 3 1 1 2 2 1 [(), ()] sample_seed sample_expression
      sample_construct sample_length_fits (by decide)).2 rfl 0 (by decide)⟩

/-- C15: the constructor throws `input_error` whenever the number of inputs `n`, outputs `m`,
rows `r`, columns `c` or levels-back `l` is `0`, or the kernel list is empty, and in no other
case; the message is that of the first check that fails, in the order `n`, `m`, `c`, `r`, `l`,
`f`. -/
theorem construct_throws_iff_zero {F : Type} (fuel n m r c l : Nat) (f : List F)
    (seed : Nat → Nat) :
    ((∃ what, construct fuel n m r c l f seed = construction.input_error what) ↔
      (n = 0 ∨ m = 0 ∨ r = 0 ∨ c = 0 ∨ l = 0 ∨ f.length = 0)) ∧
    (n = 0 → construct fuel n m r c l f seed =
      construction.input_error "Number of inputs is 0") ∧
    (n ≠ 0 → m = 0 → construct fuel n m r c l f seed =
      construction.input_error "Number of outputs is 0") ∧
    (n ≠ 0 → m ≠ 0 → c = 0 → construct fuel n m r c l f seed =
      construction.input_error "Number of columns is 0") ∧
    (n ≠ 0 → m ≠ 0 → c ≠ 0 → r = 0 → construct fuel n m r c l f seed =
      construction.input_error "Number of rows is 0") ∧
    (n ≠ 0 → m ≠ 0 → c ≠ 0 → r ≠ 0 → l = 0 → construct fuel n m r c l f seed =
      construction.input_error "Number of level-backs is 0") ∧
    (n ≠ 0 → m ≠ 0 → c ≠ 0 → r ≠ 0 → l ≠ 0 → f.length = 0 →
      construct fuel n m r c l f seed =
        construction.input_error "Number of basis functions is 0") := by
  have m1 : n = 0 → construct fuel n m r c l f seed =
      construction.input_error "Number of inputs is 0" := by
    intro h; unfold construct; rw [if_pos h]
  have m2 : n ≠ 0 → m = 0 → construct fuel n m r c l f seed =
      construction.input_error "Number of outputs is 0" := by
    intro h1 h2; unfold construct; rw [if_neg h1, if_pos h2]
  have m3 : n ≠ 0 → m ≠ 0 → c = 0 → construct fuel n m r c l f seed =
      construction.input_error "Number of columns is 0" := by
    intro h1 h2 h3; unfold construct; rw [if_neg h1, if_neg h2, if_pos h3]
  have m4 : n ≠ 0 → m ≠ 0 → c ≠ 0 → r = 0 → construct fuel n m r c l f seed =
      construction.input_error "Number of rows is 0" := by
    intro h1 h2 h3 h4; unfold construct; rw [if_neg h1, if_neg h2, if_neg h3, if_pos h4]
  have m5 : n ≠ 0 → m ≠ 0 → c ≠ 0 → r ≠ 0 → l = 0 → construct fuel n m r c l f seed =
      construction.input_error "Number of level-backs is 0" := by
    intro h1 h2 h3 h4 h5; unfold construct
    rw [if_neg h1, if_neg h2, if_neg h3, if_neg h4, if_pos h5]
  have m6 : n ≠ 0 → m ≠ 0 → c ≠ 0 → r ≠ 0 → l ≠ 0 → f.length = 0 →
      construct fuel n m r c l f seed =
        construction.input_error "Number of basis functions is 0" := by
    intro h1 h2 h3 h4 h5 h6; unfold construct
    rw [if_neg h1, if_neg h2, if_neg h3, if_neg h4, if_neg h5, if_pos h6]
  refine ⟨⟨?_, ?_⟩, m1, m2, m3, m4, m5, m6⟩
  · rintro ⟨what, hw⟩
    by_contra hne
    have h1 : n ≠ 0 := fun h => hne (Or.inl h)
    have h2 : m ≠ 0 := fun h => hne (Or.inr (Or.inl h))
    have h3 : r ≠ 0 := fun h => hne (Or.inr (Or.inr (Or.inl h)))
    have h4 : c ≠ 0 := fun h => hne (Or.inr (Or.inr (Or.inr (Or.inl h))))
    have h5 : l ≠ 0 := fun h => hne (Or.inr (Or.inr (Or.inr (Or.inr (Or.inl h)))))
    have h6 : f.length ≠ 0 := fun h => hne (Or.inr (Or.inr (Or.inr (Or.inr (Or.inr h)))))
    unfold construct at hw
    rw [if_neg h1, if_neg h2, if_neg h4, if_neg h3, if_neg h5, if_neg h6] at hw
    simp only at hw
    split at hw
    · exact absurd hw (by simp)
    · exact absurd hw (by simp)
  · intro hz
    by_cases h1 : n = 0
    · exact ⟨_, m1 h1⟩
    by_cases h2 : m = 0
    · exact ⟨_, m2 h1 h2⟩
    by_cases h3 : c = 0
    · exact ⟨_, m3 h1 h2 h3⟩
    by_cases h4 : r = 0
    · exact ⟨_, m4 h1 h2 h3 h4⟩
    by_cases h5 : l = 0
    · exact ⟨_, m5 h1 h2 h3 h4 h5⟩
    have h6 : f.length = 0 := by
      rcases hz with h | h | h | h | h | h
      · exact absurd h h1
      · exact absurd h h2
      · exact absurd h h4
      · exact absurd h h3
      · exact absurd h h5
      · exact h
    exact ⟨_, m6 h1 h2 h3 h4 h5 h6⟩

theorem construct_throws_iff_zero_witness :
    (∃ what, construct 3 1 1 0 2 1 [(), ()] sample_seed = construction.input_error what) ∧
    construct 3 1 1 0 2 1 [(), ()] sample_seed =
      construction.input_error "Number of rows is 0" :=
  ⟨(construct_throws_iff_zero 3 1 1 0 2 1 [(), ()] sample_seed).1.mpr
      (Or.inr (Or.inr (Or.inl rfl))),
    (construct_throws_iff_zero 3 1 1 0 2 1 [(), ()] sample_seed).2.2.2.2.1
      (by decide) (by decide) (by decide) rfl⟩

/-! ## The call of `mutate` -/

theorem counting_mutate : mutate 3 counting_expression = outcome.ok counting_mutated := rfl

theorem usub_one_le {a : Nat} (h : 0 < a) : usub a 1 ≤ a - 1 := by
  unfold usub UINT_RANGE
  omega

theorem active_genes_ne_nil (n m r c : Nat) (nodes : List Nat) (hm : 0 < m) :
    active_genes n m r c nodes ≠ [] := by
  intro h
  have : uadd (umul (umul r c) 3) 0 ∈ active_genes n m r c nodes := by
    unfold active_genes
    simp only
    rw [mem_output_genes]
    exact Or.inr ⟨0, hm, rfl⟩
  rw [h] at this
  exact absurd this (List.not_mem_nil _)

/-- The gene selected by `mutate` in a reachable state is one of the active genes. -/
theorem selected_gene_mem {F : Type} (e : expression F) (h : reachable e) :
    selected_gene e ∈ e.m_active_genes := by
  obtain ⟨_, a2, _⟩ := reachable_shape e h
  obtain ⟨fuel, _, f2⟩ := reachable_fresh e h
  have hne : e.m_active_genes ≠ [] := by
    rw [f2]
    exact active_genes_ne_nil _ _ _ _ _ a2
  have hpos : 0 < e.m_active_genes.length := List.length_pos.mpr hne
  have hd := (uniform_int_distribution_mem 0 (usub e.m_active_genes.length 1) e.m_e
    (Nat.zero_le _)).2
  have hle := usub_one_le hpos
  unfold selected_gene
  exact vec_at_mem (by omega)

/-- C16: `mutate` never changes a gene whose lower bound equals its upper bound: whenever the
call returns, every gene `i` with `lb[i] = ub[i]` has the value it had; and if the gene selected
for mutation is such a gene, the call returns and the chromosome, the active nodes and the
active genes are those before the call. -/
theorem mutate_keeps_fixed_genes {F : Type} (fuel : Nat) (e : expression F) :
    (∀ e1, mutate fuel e = outcome.ok e1 →
      ∀ i, vec_at e.m_lb i = vec_at e.m_ub i → vec_at (get e1) i = vec_at (get e) i) ∧
    (vec_at e.m_lb (selected_gene e) = vec_at e.m_ub (selected_gene e) →
      ∃ e1, mutate fuel e = outcome.ok e1 ∧ get e1 = get e ∧
        get_active_nodes e1 = get_active_nodes e ∧
        get_active_genes e1 = get_active_genes e) := by
  constructor
  · intro e1 h i hi
    rcases mutate_ok _ _ _ h with ⟨hlt, v, nodes, _, _, he⟩ | ⟨_, he⟩
    · subst he
      show vec_at (e.m_x.set _ v.1) i = vec_at e.m_x i
      rw [vec_at_set]
      split
      · rename_i hc
        rw [← hc.1, hi] at hlt
        exact absurd hlt (Nat.lt_irrefl _)
      · rfl
    · subst he
      rfl
  · intro heq
    refine ⟨{ e with
      m_e := (uniform_int_distribution 0 (usub e.m_active_genes.length 1) e.m_e).2 },
      ?_, rfl, rfl, rfl⟩
    have hnlt : ¬ vec_at e.m_lb (selected_gene e) < vec_at e.m_ub (selected_gene e) := by
      rw [heq]
      exact Nat.lt_irrefl _
    unfold selected_gene at hnlt
    unfold mutate
    simp only [hnlt, if_false]

theorem mutate_keeps_fixed_genes_witness :
    vec_at (get counting_mutated) 1 = vec_at (get counting_expression) 1 ∧
    ∃ e1, mutate 3 sample_expression = outcome.ok e1 ∧ get e1 = get sample_expression ∧
      get_active_nodes e1 = get_active_nodes sample_expression ∧
      get_active_genes e1 = get_active_genes sample_expression :=
  ⟨(mutate_keeps_fixed_genes 3 counting_expression).1 counting_mutated counting_mutate 1
      (by decide),
    (mutate_keeps_fixed_genes 3 sample_expression).2 (by decide)⟩

/-- C17: when `mutate` selects a gene `idx` with `lb[idx] < ub[idx]` and returns, whatever the
random draws: `idx` is one of the active genes of the state before the call, the new value of
the gene `idx` lies in `[lb[idx], ub[idx]]` and differs from the old one, and every other gene
of the chromosome has the value it had (the bounds are unchanged too). -/
theorem mutate_changes_selected_gene {F : Type} (fuel : Nat) (e e1 : expression F)
    (hr : reachable e) (h : mutate fuel e = outcome.ok e1)
    (hlt : vec_at e.m_lb (selected_gene e) < vec_at e.m_ub (selected_gene e)) :
    selected_gene e ∈ get_active_genes e ∧
    selected_gene e < (get e).length ∧
    (get e1).length = (get e).length ∧ e1.m_lb = e.m_lb ∧ e1.m_ub = e.m_ub ∧
    vec_at e.m_lb (selected_gene e) ≤ vec_at (get e1) (selected_gene e) ∧
    vec_at (get e1) (selected_gene e) ≤ vec_at e.m_ub (selected_gene e) ∧
    vec_at (get e1) (selected_gene e) ≠ vec_at (get e) (selected_gene e) ∧
    ∀ i, i ≠ selected_gene e → vec_at (get e1) i = vec_at (get e) i := by
  obtain ⟨s1, s2⟩ := reachable_sizes e hr
  have hin : selected_gene e < e.m_x.length := by
    by_contra hge
    have : vec_at e.m_ub (selected_gene e) = 0 := vec_at_of_le (by omega)
    omega
  rcases mutate_ok _ _ _ h with ⟨_, v, nodes, hv, _, he⟩ | ⟨hnlt, _⟩
  · obtain ⟨d1, d2, d3⟩ := draw_new_value_some _ _ _ (le_of_lt hlt) fuel _ v hv
    subst he
    have hnew : vec_at (e.m_x.set (selected_gene e) v.1) (selected_gene e) = v.1 := by
      rw [vec_at_set, if_pos ⟨rfl, hin⟩]
    refine ⟨selected_gene_mem e hr, hin, ?_, rfl, rfl, ?_, ?_, ?_, ?_⟩
    · show (e.m_x.set _ v.1).length = e.m_x.length
      simp
    · show _ ≤ vec_at (e.m_x.set (selected_gene e) v.1) (selected_gene e)
      rw [hnew]; exact d1
    · show vec_at (e.m_x.set (selected_gene e) v.1) (selected_gene e) ≤ _
      rw [hnew]; exact d2
    · show vec_at (e.m_x.set (selected_gene e) v.1) (selected_gene e) ≠ vec_at e.m_x _
      rw [hnew]; exact d3
    · intro i hi
      show vec_at (e.m_x.set (selected_gene e) v.1) i = vec_at e.m_x i
      rw [vec_at_set, if_neg (fun hc => hi hc.1)]
  · exact absurd hlt hnlt

theorem mutate_changes_selected_gene_witness :
    selected_gene counting_expression ∈ get_active_genes counting_expression ∧
    selected_gene counting_expression < (get counting_expression).length ∧
    (get counting_mutated).length = (get counting_expression).length ∧
    counting_mutated.m_lb = counting_expression.m_lb ∧
    counting_mutated.m_ub = counting_expression.m_ub ∧
    vec_at counting_expression.m_lb (selected_gene counting_expression) ≤
      vec_at (get counting_mutated) (selected_gene counting_expression) ∧
    vec_at (get counting_mutated) (selected_gene counting_expression) ≤
      vec_at counting_expression.m_ub (selected_gene counting_expression) ∧
    vec_at (get counting_mutated) (selected_gene counting_expression) ≠
      vec_at (get counting_expression) (selected_gene counting_expression) ∧
    ∀ i, i ≠ selected_gene counting_expression →
      vec_at (get counting_mutated) i = vec_at (get counting_expression) i :=
  mutate_changes_selected_gene 3 counting_expression counting_mutated counting_reachable
    counting_mutate (by decide)

/-! ## The wrapped functions -/

/-- C18: the numeric binary kernels compute the four arithmetic operations of their numeric
type: for all `x` and `y`, `my_sum(x, y) = x + y`, `my_diff(x, y) = x - y`,
`my_mul(x, y) = x * y` and `my_div(x, y) = x / y`. -/
theorem kernels_compute_arithmetic {T : Type} [Add T] [Sub T] [Mul T] [Div T] (x y : T) :
    my_sum x y = x + y ∧ my_diff x y = x - y ∧ my_mul x y = x * y ∧ my_div x y = x / y :=
  ⟨rfl, rfl, rfl, rfl⟩

/-- C19, as stated, fails at `s = "0"`: the test `s1 == s2` comes first and
`print_my_sum("0", "0")` is `"(2*0)"`, not `"0"`. -/
theorem print_my_sum_zero_zero :
    print_my_sum "0" "0" = "(2*0)" ∧
    ¬ (print_my_sum "0" "0" = "0" ∧ print_my_sum "0" "0" = "0") := by
  decide

/-- C19, amended: the printer of sum simplifies `x+0` to `x` for every symbol string `s` other
than `"0"`: `print_my_sum(s, "0") = s` and `print_my_sum("0", s) = s`. -/
theorem print_my_sum_zero (s : String) (hs : s ≠ "0") :
    print_my_sum s "0" = s ∧ print_my_sum "0" s = s := by
  have hs1 : ¬ "0" = s := fun h => hs h.symm
  unfold print_my_sum
  constructor
  · rw [if_neg hs, if_neg hs, if_pos rfl]
  · rw [if_neg hs1, if_pos rfl]

theorem print_my_sum_zero_witness :
    print_my_sum "x" "0" = "x" ∧ print_my_sum "0" "x" = "x" :=
  print_my_sum_zero "x" (by decide)

/-- C20, as stated, fails for `print_my_div`: with `s1 = s2 = "x"` denoting the number `0`, the
printer returns `"1"`, which does not denote the value of `my_div` at `(0, 0)`. -/
theorem print_my_div_changes_value :
    print_my_div "x" "x" = "1" ∧
    ¬ denotes "x" "x" (0 : ℚ) 0 (print_my_div "x" "x") (my_div (0 : ℚ) 0) := by
  have hp : print_my_div "x" "x" = "1" := by decide
  have hv : my_div (0 : ℚ) 0 = 0 := by simp [my_div]
  refine ⟨hp, ?_⟩
  rw [hp, hv]
  simp [denotes]

theorem denotes_zero {K : Type} [Field K] (s1 s2 : String) (a b : K) :
    denotes s1 s2 a b "0" 0 := by
  simp [denotes]

theorem denotes_one {K : Type} [Field K] (s1 s2 : String) (a b : K) :
    denotes s1 s2 a b "1" 1 := by
  simp [denotes]

theorem denotes_first {K : Type} [Field K] (s1 s2 : String) (a b : K) :
    denotes s1 s2 a b s1 a := by
  simp [denotes]

theorem denotes_second {K : Type} [Field K] (s1 s2 : String) (a b : K) :
    denotes s1 s2 a b s2 b := by
  simp [denotes]

theorem denotes_twice {K : Type} [Field K] (s1 s2 : String) (a b : K) :
    denotes s1 s2 a b ("(2*" ++ s1 ++ ")") (2 * a) := by
  simp [denotes]

theorem denotes_square {K : Type} [Field K] (s1 s2 : String) (a b : K) :
    denotes s1 s2 a b (s1 ++ "^2") (a ^ 2) := by
  simp [denotes]

theorem denotes_neg {K : Type} [Field K] (s1 s2 : String) (a b : K) :
    denotes s1 s2 a b ("(-" ++ s2 ++ ")") (-b) := by
  simp [denotes]

theorem denotes_binary {K : Type} [Field K] (s1 s2 : String) (a b : K) :
    denotes s1 s2 a b ("(" ++ s1 ++ "+" ++ s2 ++ ")") (a + b) ∧
    denotes s1 s2 a b ("(" ++ s1 ++ "-" ++ s2 ++ ")") (a - b) ∧
    denotes s1 s2 a b ("(" ++ s1 ++ "*" ++ s2 ++ ")") (a * b) ∧
    denotes s1 s2 a b ("(" ++ s1 ++ "/" ++ s2 ++ ")") (a / b) := by
  simp [denotes]

/-- C20, amended: in exact arithmetic (a field `K`), for argument strings `s1`, `s2` denoting
the numbers `a`, `b` (`"0"` denotes `0`, `"1"` denotes `1`, equal strings denote equal
numbers), the string returned by `print_my_sum`, `print_my_diff`, `print_my_mul` denotes the
value of `my_sum`, `my_diff`, `my_mul` at `(a, b)`, and the string returned by `print_my_div`
denotes the value of `my_div` at `(a, b)` whenever the denominator `b` is not `0`. -/
theorem printers_keep_value {K : Type} [Field K] (s1 s2 : String) (a b : K)
    (h10 : s1 = "0" → a = 0) (h11 : s1 = "1" → a = 1)
    (h20 : s2 = "0" → b = 0) (h21 : s2 = "1" → b = 1) (heq : s1 = s2 → a = b) :
    denotes s1 s2 a b (print_my_sum s1 s2) (my_sum a b) ∧
    denotes s1 s2 a b (print_my_diff s1 s2) (my_diff a b) ∧
    denotes s1 s2 a b (print_my_mul s1 s2) (my_mul a b) ∧
    (b ≠ 0 → denotes s1 s2 a b (print_my_div s1 s2) (my_div a b)) := by
  obtain ⟨bs, bd, bm, bq⟩ := denotes_binary s1 s2 a b
  refine ⟨?_, ?_, ?_, ?_⟩
  · unfold print_my_sum my_sum
    split
    · rename_i h
      have hv : a + b = 2 * a := by rw [← heq h, two_mul]
      rw [hv]
      exact denotes_twice s1 s2 a b
    split
    · rename_i h
      have hv : a + b = b := by rw [h10 h, zero_add]
      rw [hv]
      exact denotes_second s1 s2 a b
    split
    · rename_i h
      have hv : a + b = a := by rw [h20 h, add_zero]
      rw [hv]
      exact denotes_first s1 s2 a b
    · exact bs
  · unfold print_my_diff my_diff
    split
    · rename_i h
      have hv : a - b = 0 := by rw [← heq h, sub_self]
      rw [hv]
      exact denotes_zero s1 s2 a b
    split
    · rename_i h
      have hv : a - b = -b := by rw [h10 h, zero_sub]
      rw [hv]
      exact denotes_neg s1 s2 a b
    split
    · rename_i h
      have hv : a - b = a := by rw [h20 h, sub_zero]
      rw [hv]
      exact denotes_first s1 s2 a b
    · exact bd
  · unfold print_my_mul my_mul
    split
    · rename_i h
      have hv : a * b = 0 := by
        rcases h with h | h
        · rw [h10 h, zero_mul]
        · rw [h20 h, mul_zero]
      rw [hv]
      exact denotes_zero s1 s2 a b
    split
    · rename_i h
      have hv : a * b = a ^ 2 := by rw [← heq h, sq]
      rw [hv]
      exact denotes_square s1 s2 a b
    split
    · rename_i h
      have hv : a * b = b := by rw [h11 h, one_mul]
      rw [hv]
      exact denotes_second s1 s2 a b
    split
    · rename_i h
      have hv : a * b = a := by rw [h21 h, mul_one]
      rw [hv]
      exact denotes_first s1 s2 a b
    · exact bm
  · intro hb
    unfold print_my_div my_div
    split
    · rename_i h
      have hv : a / b = 0 := by rw [h10 h.1, zero_div]
      rw [hv]
      exact denotes_zero s1 s2 a b
    split
    · rename_i h
      have hv : a / b = 1 := by rw [heq h, div_self hb]
      rw [hv]
      exact denotes_one s1 s2 a b
    · exact bq

theorem printers_keep_value_witness :
    denotes "0" "y" (0 : ℚ) 2 (print_my_sum "0" "y") (my_sum (0 : ℚ) 2) ∧
    denotes "0" "y" (0 : ℚ) 2 (print_my_diff "0" "y") (my_diff (0 : ℚ) 2) ∧
    denotes "0" "y" (0 : ℚ) 2 (print_my_mul "0" "y") (my_mul (0 : ℚ) 2) ∧
    denotes "0" "y" (0 : ℚ) 2 (print_my_div "0" "y") (my_div (0 : ℚ) 2) := by
  have key := printers_keep_value "0" "y" (0 : ℚ) 2 (by simp) (by simp) (by simp) (by simp)
    (by simp)
  exact ⟨key.1, key.2.1, key.2.2.1, key.2.2.2 (by norm_num)⟩

/-! ## The printers at equal arguments and at zero -/

/-- C21: the printer of mul simplifies `x·0` to `0`: for every symbol string `s`,
`print_my_mul(s, "0") = "0"` and `print_my_mul("0", s) = "0"`. -/
theorem print_my_mul_zero (s : String) :
    print_my_mul s "0" = "0" ∧ print_my_mul "0" s = "0" := by
  unfold print_my_mul
  exact ⟨if_pos (Or.inr rfl), if_pos (Or.inl rfl)⟩

/-- C22: the printer of div simplifies `x/x` to `1`: for every symbol string `s`,
`print_my_div(s, s) = "1"`. -/
theorem print_my_div_self (s : String) : print_my_div s s = "1" := by
  unfold print_my_div
  rw [if_neg (fun h => h.2 h.1), if_pos rfl]

/-- C23: the printer of diff simplifies `x−x` to `0`: for every symbol string `s`,
`print_my_diff(s, s) = "0"`. -/
theorem print_my_diff_self (s : String) : print_my_diff s s = "0" := by
  unfold print_my_diff
  exact if_pos rfl

/-! ## The fitness -/

theorem aggregate_append {D : Type} (ops : double_ops D) (m_tol : D) (type : fitness_type)
    (a b : List (D × D)) (retval : D) :
    aggregate ops m_tol type (a ++ b) retval =
      aggregate ops m_tol type b (aggregate ops m_tol type a retval) := by
  unfold aggregate
  exact List.foldl_append _ _ _ _

theorem getD_mem_of_lt {α : Type} (l : List α) (d : α) (i : Nat) (h : i < l.length) :
    l.getD i d ∈ l := by
  rw [List.getD_eq_getElem l d h]
  exact List.getElem_mem h

theorem filter_take_succ {α : Type} (p : α → Bool) (l : List α) (k : Nat) (a : α)
    (h : l[k]? = some a) :
    (l.take (k + 1)).filter p = (l.take k).filter p ++ (if p a then [a] else []) := by
  rw [List.take_succ, h, List.filter_append]
  by_cases hp : p a = true
  · simp [hp]
  · simp [hp]

/-- One step of the loop over the output components, for a component inside the label row. -/
theorem fitness_step_value {D : Type} (ops : double_ops D) (m_tol : D) (type : fitness_type)
    (label out_real : List D) (j : Nat) (retval desired real : D)
    (hd : label[j]? = some desired) (hr : out_real[j]? = some real) :
    fitness_step ops m_tol type label out_real j (evaluation.value retval) =
      evaluation.value
        (aggregate ops m_tol type (if ops.isfinite real then [(desired, real)] else []) retval) := by
  unfold fitness_step row_at aggregate
  cases type <;> simp only [hr, hd]
  · by_cases hf : ops.isfinite real = true
    · simp [hf]
    · simp [hf]
  · by_cases hf : ops.isfinite real = true
    · simp only [hf, if_true, List.foldl_cons, List.foldl_nil]
      split <;> rfl
    · simp [hf]

/-- The loop over the output components of one point adds the terms of the finite components
only, when the label row has an entry for every output component. -/
theorem fitness_point {D : Type} (ops : double_ops D) (m_tol : D) (type : fitness_type)
    (label out_real : List D) (retval : D) (hrow : out_real.length ≤ label.length) :
    for_range out_real.length (fitness_step ops m_tol type label out_real)
        (evaluation.value retval) =
      evaluation.value (aggregate ops m_tol type (finite_components ops label out_real) retval) := by
  have key := for_range_invariant
    (fun (k : Nat) (s : evaluation D) => s = evaluation.value
      (aggregate ops m_tol type
        (((label.zip out_real).take k).filter (fun p => ops.isfinite p.2)) retval))
    out_real.length (fitness_step ops m_tol type label out_real) (evaluation.value retval) rfl ?_
  · have hlen : (label.zip out_real).length = out_real.length := by
      rw [List.length_zip]; omega
    beta_reduce at key
    rw [List.take_of_length_le (Nat.le_of_eq hlen)] at key
    exact key
  · intro j t hj ht
    have hjl : j < label.length := by omega
    have hz : (label.zip out_real)[j]? = some (label[j], out_real[j]) := by
      rw [List.getElem?_eq_some_iff]
      exact ⟨by rw [List.length_zip]; omega, List.getElem_zip⟩
    rw [ht, fitness_step_value ops m_tol type label out_real j _ label[j] out_real[j]
      (List.getElem?_eq_getElem hjl) (List.getElem?_eq_getElem hj),
      filter_take_succ _ _ _ _ hz, aggregate_append]

/-- With as many labels as points, a `compute` that returns on every point and label rows with
an entry for every output component, `fitness` returns the aggregate over the finite output
components. -/
theorem fitness_value {D : Type} (ops : double_ops D) (compute : List D → evaluation (List D))
    (m_tol : D) (in_des out_des : List (List D)) (type : fitness_type)
    (outputs : List D → List D) (hlen : in_des.length = out_des.length)
    (hc : ∀ p ∈ in_des, compute p = evaluation.value (outputs p))
    (hrows : ∀ i, i < in_des.length →
      (outputs (in_des.getD i [])).length ≤ (out_des.getD i []).length) :
    fitness ops compute m_tol in_des out_des type =
      evaluation.value
        (aggregate ops m_tol type (finite_data ops outputs in_des out_des) ops.zero) := by
  unfold fitness finite_data
  rw [if_neg (fun h => h hlen)]
  refine for_range_invariant
    (fun (k : Nat) (s : evaluation D) => s = evaluation.value
      (aggregate ops m_tol type
        ((List.range k).flatMap (fun i =>
          finite_components ops (out_des.getD i []) (outputs (in_des.getD i [])))) ops.zero))
    in_des.length _ _ rfl ?_
  intro i t hi ht
  rw [ht, hc _ (getD_mem_of_lt in_des [] i hi)]
  simp only []
  rw [fitness_point ops m_tol type _ _ _ (hrows i hi), List.range_succ, List.flatMap_append,
    aggregate_append]
  simp only [List.flatMap_singleton]

/-- C24: `fitness` throws `input_error` whenever the number of input points differs from the
number of label rows, and it does so before the expression is evaluated on any point: the
exception is that of the size test whatever `compute` does on the points, also when `compute`
itself would throw on every one of them. -/
theorem fitness_throws_on_size_mismatch {D : Type} (ops : double_ops D)
    (compute : List D → evaluation (List D)) (m_tol : D) (in_des out_des : List (List D))
    (type : fitness_type) (h : in_des.length ≠ out_des.length) :
    fitness ops compute m_tol in_des out_des type =
      evaluation.input_error "Size of the input vector must be the size of the output vector" := by
  unfold fitness
  exact if_pos h

theorem fitness_throws_on_size_mismatch_witness :
    fitness (field_ops ℚ) (fun _ => evaluation.input_error "Input size is incompatible") 0
      [[1], [2]] [[1]] fitness_type.ERROR_BASED =
      evaluation.input_error "Size of the input vector must be the size of the output vector" :=
  fitness_throws_on_size_mismatch (field_ops ℚ) _ 0 [[1], [2]] [[1]] fitness_type.ERROR_BASED
    (by decide)

/-- C25, at the failing input: for an expression with one output, one point and a label row of
two entries, `fitness` returns a value instead of throwing `input_error`: only the numbers of
points and of labels are compared, the label rows are read up to the size of the output and
their sizes are not examined. -/
theorem fitness_accepts_long_label_row :
    fitness (field_ops ℚ) identity_compute (1 / 2) [[0]] [[0, 5]] fitness_type.ERROR_BASED =
      evaluation.value 1 ∧
    fitness (field_ops ℚ) identity_compute (1 / 2) [[0]] [[0, 5]] fitness_type.HITS_BASED =
      evaluation.value 1 := by
  constructor <;>
    norm_num [fitness, for_range, fitness_step, identity_compute, field_ops, row_at, deviation,
      List.range_succ]

/-- A finite output component whose index is past the end of the label row is a read that the
language leaves undefined: for one point with the output `0` and an empty label row `fitness`
produces no value and no exception. -/
theorem fitness_short_label_row :
    fitness (field_ops ℚ) identity_compute (1 / 2) [[0]] [[]] fitness_type.ERROR_BASED =
      evaluation.undefined ∧
    fitness (field_ops ℚ) identity_compute (1 / 2) [[0]] [[]] fitness_type.HITS_BASED =
      evaluation.undefined := by
  constructor <;>
    simp [fitness, for_range, fitness_step, identity_compute, field_ops, row_at,
      List.range_succ]

/-- C26: non-finite outputs are skipped when `fitness` aggregates. An output component that
`std::isfinite` rejects leaves `retval` as it is, for the error-based and for the hits-based
fitness, and its label is not read; and for every data set with as many labels as points and,
in every label row, an entry for every output component, on which `compute` returns, the call
returns a value, namely the aggregate taken over the finite output components only. -/
theorem fitness_skips_non_finite {D : Type} (ops : double_ops D)
    (compute : List D → evaluation (List D)) (m_tol : D) (in_des out_des : List (List D))
    (type : fitness_type) (outputs : List D → List D)
    (hlen : in_des.length = out_des.length)
    (hc : ∀ p ∈ in_des, compute p = evaluation.value (outputs p))
    (hrows : ∀ i, i < in_des.length →
      (outputs (in_des.getD i [])).length ≤ (out_des.getD i []).length)
    (_hpoints : in_des.length < UINT_RANGE)
    (_houtputs : ∀ p ∈ in_des, (outputs p).length < UINT_RANGE) :
    (∀ (label out_real : List D) (j : Nat) (real retval : D),
      row_at out_real j = some real → ops.isfinite real = false →
        fitness_step ops m_tol type label out_real j (evaluation.value retval) =
          evaluation.value retval) ∧
    fitness ops compute m_tol in_des out_des type =
      evaluation.value
        (aggregate ops m_tol type (finite_data ops outputs in_des out_des) ops.zero) ∧
    ∀ p ∈ finite_data ops outputs in_des out_des, ops.isfinite p.2 = true := by
  refine ⟨?_, fitness_value ops compute m_tol in_des out_des type outputs hlen hc hrows, ?_⟩
  · intro label out_real j real retval hj hf
    unfold fitness_step
    cases type <;> simp [hj, hf]
  · intro p hp
    unfold finite_data finite_components at hp
    rw [List.mem_flatMap] at hp
    obtain ⟨i, -, hi⟩ := hp
    exact (List.mem_filter.mp hi).2

theorem fitness_skips_non_finite_witness :
    ((∀ (label out_real : List (Option ℚ)) (j : Nat) (real retval : Option ℚ),
      row_at out_real j = some real → extended_ops.isfinite real = false →
        fitness_step extended_ops (some (1 / 2)) fitness_type.ERROR_BASED label out_real j
          (evaluation.value retval) = evaluation.value retval) ∧
    fitness extended_ops (fun p => evaluation.value (reciprocal_outputs p)) (some (1 / 2))
        [[some 0], [some 1]] [[some 3], [some 1]] fitness_type.ERROR_BASED =
      evaluation.value
        (aggregate extended_ops (some (1 / 2)) fitness_type.ERROR_BASED
          (finite_data extended_ops reciprocal_outputs [[some 0], [some 1]]
            [[some 3], [some 1]]) extended_ops.zero) ∧
    ∀ p ∈ finite_data extended_ops reciprocal_outputs [[some 0], [some 1]] [[some 3], [some 1]],
      extended_ops.isfinite p.2 = true) ∧
    finite_data extended_ops reciprocal_outputs [[some 0], [some 1]] [[some 3], [some 1]] =
      [(some 1, some 1)] :=
  ⟨fitness_skips_non_finite extended_ops _ (some (1 / 2)) [[some 0], [some 1]]
    [[some 3], [some 1]] fitness_type.ERROR_BASED reciprocal_outputs rfl (fun _ _ => rfl)
    (by
      intro i hi
      have hi2 : i < 2 := hi
      interval_cases i <;> simp [reciprocal_outputs])
    (by decide) (by simp [reciprocal_outputs, UINT_RANGE]),
   by simp [finite_data, finite_components, reciprocal_outputs, extended_ops,
     List.range_succ]⟩

/-! ## The loss of a data set -/

theorem foldl_add_eq_sum {α K : Type} [AddCommMonoid K] (g : α → K) (l : List α) (s : K) :
    l.foldl (fun acc p => acc + g p) s = s + (l.map g).sum := by
  induction l generalizing s with
  | nil => simp
  | cons a t ih => rw [List.foldl_cons, ih, List.map_cons, List.sum_cons, add_assoc]

theorem map_zip_eq_map_range {α β γ : Type} (f : α × β → γ) (a0 : α) (b0 : β) (l1 : List α)
    (l2 : List β) (h : l1.length = l2.length) :
    (l1.zip l2).map f = (List.range l1.length).map (fun i => f (l1.getD i a0, l2.getD i b0)) := by
  apply List.ext_getElem
  · simp [h]
  · intro i h1 h2
    have hi1 : i < l1.length := by simp at h2; exact h2
    have hi2 : i < l2.length := h ▸ hi1
    simp [List.getD_eq_getElem, hi1, hi2]

/-- C27: the loss evaluation of kind `MSE` (modelled from the specification). For a data set
that is not empty, with as many label rows as points, `n` entries in every point and `m`
entries in every label row, and an expression with `m` outputs, `loss` returns a value, and
the value is the mean over the samples of the per-sample quantity
`(sum over the m outputs j of (yhat_j - y_j)^2) / m`, where `yhat` is the expression evaluated
on the sample. -/
theorem loss_mse_is_mean {K : Type} [Field K] (n m : Nat) (evaluate : List K → List K)
    (exp log : K → K) (points labels : List (List K))
    (hlen : points.length = labels.length) (hpoints : ∀ p ∈ points, p.length = n)
    (hlabels : ∀ y ∈ labels, y.length = m) (_hdata : points ≠ [])
    (_houtputs : ∀ p ∈ points, (evaluate p).length = m) :
    loss n m evaluate exp log points labels "MSE" =
      evaluation.value (mean_squared_error m evaluate points labels) := by
  have hrows : ¬ ((∃ p ∈ points, p.length ≠ n) ∨ (∃ y ∈ labels, y.length ≠ m)) := by
    rintro (⟨p, hp, hne⟩ | ⟨y, hy, hne⟩)
    · exact hne (hpoints p hp)
    · exact hne (hlabels y hy)
  unfold loss mean_squared_error
  rw [if_neg (fun h => h hlen), if_neg hrows, if_pos rfl, foldl_add_eq_sum, zero_add,
    map_zip_eq_map_range _ [] [] points labels hlen]
  rfl

theorem loss_mse_is_mean_witness :
    loss (K := ℚ) 1 1 (fun p => p) (fun x => x) (fun x => x) [[0], [1]] [[2], [1]] "MSE" =
      evaluation.value (mean_squared_error 1 (fun p => p) [[0], [1]] [[2], [1]]) ∧
    mean_squared_error 1 (fun p => p) [[0], [1]] [[2], [1]] = (2 : ℚ) :=
  ⟨loss_mse_is_mean (K := ℚ) 1 1 (fun p => p) (fun x => x) (fun x => x) [[0], [1]] [[2], [1]] rfl
    (by simp) (by simp) (by simp) (by simp),
   by norm_num [mean_squared_error, List.range_succ]⟩

/-! ## The active set of an `expression_ann` -/

theorem mem_ann_sources {K : Type} (e : expression_ann K) (u s : Nat) :
    s ∈ ann_sources e u ↔ ∃ i, i < ann_arity e u ∧ ann_connection e u i = s := by
  unfold ann_sources
  rw [List.mem_map]
  constructor
  · rintro ⟨i, hi, rfl⟩
    exact ⟨i, List.mem_range.mp hi, rfl⟩
  · rintro ⟨i, hi, rfl⟩
    exact ⟨i, List.mem_range.mpr hi, rfl⟩

theorem mem_ann_pull {K : Type} (e : expression_ann K) (S : List Nat) (v : Nat) :
    v ∈ ann_pull e S ↔ v ∈ S ∨ ∃ u ∈ S, e.m_n ≤ u ∧ v ∈ ann_sources e u := by
  unfold ann_pull
  rw [mem_unique, mem_sort, List.mem_append, List.mem_flatMap]
  constructor
  · rintro (h | ⟨u, hu, hv⟩)
    · exact Or.inl h
    · rw [List.mem_filter] at hu
      exact Or.inr ⟨u, hu.1, of_decide_eq_true hu.2, hv⟩
  · rintro (h | ⟨u, hu, hn, hv⟩)
    · exact Or.inl h
    · exact Or.inr ⟨u, List.mem_filter.mpr ⟨hu, decide_eq_true hn⟩, hv⟩

theorem sorted_ann_pull {K : Type} (e : expression_ann K) (S : List Nat) :
    (ann_pull e S).Sorted (fun a b => a < b) := by
  unfold ann_pull
  exact sorted_unique _ (sorted_sort _)

theorem node_column_lt (n r c u : Nat) (hn : n ≤ u) (hu : u < n + r * c) :
    node_column n r u < c := by
  unfold node_column
  have hr : 0 < r := by
    rcases Nat.eq_zero_or_pos r with h | h
    · rw [h, Nat.zero_mul] at hu
      omega
    · exact h
  rw [Nat.div_lt_iff_lt_mul hr, Nat.mul_comm]
  omega

theorem node_column_le (n r u : Nat) (hn : n ≤ u) : n + node_column n r u * r ≤ u := by
  unfold node_column
  have := Nat.div_mul_le_self (u - n) r
  omega

/-- In a valid chromosome a source of a node lies in an earlier column, or is an input. -/
theorem ann_source_lt {K : Type} (e : expression_ann K) (hv : ann_valid e) (hn : 0 < e.m_n)
    (u : Nat) (h1 : e.m_n ≤ u) (h2 : u < e.m_n + e.m_r * e.m_c) (s : Nat)
    (hs : s ∈ ann_sources e u) : s < e.m_n + node_column e.m_n e.m_r u * e.m_r := by
  rw [mem_ann_sources] at hs
  obtain ⟨i, hi, rfl⟩ := hs
  have h := ((hv.2.1 u h2 h1).2 i hi).2
  unfold connection_upper at h
  omega

theorem ann_pull_lt {K : Type} (e : expression_ann K) (hv : ann_valid e) (hn : 0 < e.m_n)
    (S : List Nat) (hS : ∀ u ∈ S, u < e.m_n + e.m_r * e.m_c) :
    ∀ u ∈ ann_pull e S, u < e.m_n + e.m_r * e.m_c := by
  intro v hm
  rw [mem_ann_pull] at hm
  rcases hm with h | ⟨u, hu, hnu, hs⟩
  · exact hS v h
  · have h1 := ann_source_lt e hv hn u hnu (hS u hu) v hs
    have h2 := node_column_le e.m_n e.m_r u hnu
    have h3 := hS u hu
    omega

/-- One round of pulling closes one more column: if the nodes of the columns from `c - k` on
have their sources in the set, then after the round so have those from `c - (k + 1)` on. -/
theorem ann_pull_closes {K : Type} (e : expression_ann K) (hv : ann_valid e) (hn : 0 < e.m_n)
    (k : Nat) (S : List Nat) (hS : ∀ u ∈ S, u < e.m_n + e.m_r * e.m_c)
    (hc : ∀ u ∈ S, e.m_n + (e.m_c - k) * e.m_r ≤ u → ∀ s ∈ ann_sources e u, s ∈ S) :
    ∀ u ∈ ann_pull e S, e.m_n + (e.m_c - (k + 1)) * e.m_r ≤ u →
      ∀ s ∈ ann_sources e u, s ∈ ann_pull e S := by
  intro u hu hb s hs
  have hsub : ∀ w ∈ S, e.m_n ≤ w → ∀ t ∈ ann_sources e w, t ∈ ann_pull e S := by
    intro w hw hnw t ht
    rw [mem_ann_pull]
    exact Or.inr ⟨w, hw, hnw, ht⟩
  have hmem : u ∈ S := by
    rw [mem_ann_pull] at hu
    rcases hu with h | ⟨v, hvS, hnv, huv⟩
    · exact h
    · by_cases hcl : e.m_n + (e.m_c - k) * e.m_r ≤ v
      · exact hc v hvS hcl u huv
      · exfalso
        have h1 := ann_source_lt e hv hn v hnv (hS v hvS) u huv
        have hr : 0 < e.m_r := by
          rcases Nat.eq_zero_or_pos e.m_r with h | h
          · have := hS v hvS
            rw [h, Nat.zero_mul] at this
            omega
          · exact h
        have h2 : node_column e.m_n e.m_r v < e.m_c - k := by
          unfold node_column
          rw [Nat.div_lt_iff_lt_mul hr]
          omega
        have h3 : node_column e.m_n e.m_r v * e.m_r ≤ (e.m_c - (k + 1)) * e.m_r :=
          Nat.mul_le_mul_right _ (by omega)
        omega
  have hnu : e.m_n ≤ u := by omega
  exact hsub u hmem hnu s hs

theorem ann_fixpoint_lt {K : Type} (e : expression_ann K) (hv : ann_valid e) (hn : 0 < e.m_n)
    (fuel : Nat) (S : List Nat) (hS : ∀ u ∈ S, u < e.m_n + e.m_r * e.m_c) :
    ∀ u ∈ ann_fixpoint e fuel S, u < e.m_n + e.m_r * e.m_c := by
  induction fuel generalizing S with
  | zero => exact hS
  | succ k ih =>
    unfold ann_fixpoint
    split
    · exact hS
    · exact ih _ (ann_pull_lt e hv hn S hS)

theorem ann_fixpoint_sorted {K : Type} (e : expression_ann K) (fuel : Nat) (S : List Nat)
    (hS : S.Sorted (fun a b => a < b)) :
    (ann_fixpoint e fuel S).Sorted (fun a b => a < b) := by
  induction fuel generalizing S with
  | zero => exact hS
  | succ k ih =>
    unfold ann_fixpoint
    split
    · exact hS
    · exact ih _ (sorted_ann_pull e S)

theorem ann_fixpoint_subset {K : Type} (e : expression_ann K) (fuel : Nat) (S : List Nat) :
    ∀ u ∈ S, u ∈ ann_fixpoint e fuel S := by
  induction fuel generalizing S with
  | zero => exact fun u hu => hu
  | succ k ih =>
    unfold ann_fixpoint
    split
    · exact fun u hu => hu
    · intro u hu
      exact ih _ u ((mem_ann_pull e S u).mpr (Or.inl hu))

/-- The rounds end in a set that contains the sources of its non-input nodes. -/
theorem ann_fixpoint_closed {K : Type} (e : expression_ann K) (hv : ann_valid e)
    (hn : 0 < e.m_n) (fuel k : Nat) (S : List Nat) (hk : e.m_c ≤ k + fuel)
    (hS : ∀ u ∈ S, u < e.m_n + e.m_r * e.m_c)
    (hc : ∀ u ∈ S, e.m_n + (e.m_c - k) * e.m_r ≤ u → ∀ s ∈ ann_sources e u, s ∈ S) :
    ∀ u ∈ ann_fixpoint e fuel S, e.m_n ≤ u →
      ∀ s ∈ ann_sources e u, s ∈ ann_fixpoint e fuel S := by
  induction fuel generalizing k S with
  | zero =>
    intro u hu hnu
    have h0 : e.m_c - k = 0 := by omega
    rw [h0, Nat.zero_mul] at hc
    exact hc u hu hnu
  | succ f ih =>
    unfold ann_fixpoint
    split
    · rename_i heq
      intro u hu hnu s hs
      rw [← heq, mem_ann_pull]
      exact Or.inr ⟨u, hu, hnu, hs⟩
    · exact ih (k + 1) _ (by omega) (ann_pull_lt e hv hn S hS)
        (ann_pull_closes e hv hn k S hS hc)

/-- The active nodes of a valid chromosome: ascending ids of nodes of the grid or inputs, with
the sources of every non-input node and the nodes of the output genes among them. -/
theorem ann_active_nodes_spec {K : Type} (e : expression_ann K) (hv : ann_valid e)
    (hn : 0 < e.m_n) :
    (ann_active_nodes e).Sorted (fun a b => a < b) ∧
    (∀ u ∈ ann_active_nodes e, u < e.m_n + e.m_r * e.m_c) ∧
    (∀ u ∈ ann_active_nodes e, e.m_n ≤ u →
      ∀ s ∈ ann_sources e u, s ∈ ann_active_nodes e) ∧
    ∀ k, k < e.m_m → ann_output_gene e k ∈ ann_active_nodes e := by
  have h0 : ∀ u ∈ unique (sort ((List.range e.m_m).map (ann_output_gene e))),
      u < e.m_n + e.m_r * e.m_c := by
    intro u hu
    rw [mem_unique, mem_sort, List.mem_map] at hu
    obtain ⟨k, hk, rfl⟩ := hu
    have h := (hv.2.2 k (List.mem_range.mp hk)).2
    unfold output_upper at h
    omega
  unfold ann_active_nodes
  refine ⟨ann_fixpoint_sorted e _ _ (sorted_unique _ (sorted_sort _)),
    ann_fixpoint_lt e hv hn _ _ h0, ?_, ?_⟩
  · refine ann_fixpoint_closed e hv hn (e.m_c + 1) 0 _ (by omega) h0 ?_
    intro u hu hb
    have h := h0 u hu
    rw [Nat.sub_zero, Nat.mul_comm] at hb
    omega
  · intro k hk
    apply ann_fixpoint_subset
    rw [mem_unique, mem_sort, List.mem_map]
    exact ⟨k, List.mem_range.mpr hk, rfl⟩

/-! ## The forward pass of an `expression_ann` -/

theorem ann_visit_other {K : Type} [Field K] (e : expression_ann K) (phi : String → K → K)
    (buffer : Nat → K) (u v : Nat) (h : v ≠ u) : ann_visit e phi buffer u v = buffer v := by
  unfold ann_visit
  split
  · rfl
  · exact Function.update_noteq h _ _

theorem ann_visit_same {K : Type} [Field K] (e : expression_ann K) (phi : String → K → K)
    (buffer : Nat → K) (u : Nat) (h : e.m_n ≤ u) :
    ann_visit e phi buffer u u = ann_node_value e phi buffer u := by
  unfold ann_visit
  rw [if_neg (by omega)]
  exact Function.update_same _ _ _

theorem ann_visit_input {K : Type} [Field K] (e : expression_ann K) (phi : String → K → K)
    (buffer : Nat → K) (u v : Nat) (h : v < e.m_n) : ann_visit e phi buffer u v = buffer v := by
  unfold ann_visit
  split
  · rfl
  · exact Function.update_noteq (by omega) _ _

/-- A slot that the pass does not visit keeps its value. -/
theorem ann_pass_untouched {K : Type} [Field K] (e : expression_ann K) (phi : String → K → K)
    (L : List Nat) (buffer : Nat → K) (v : Nat) (h : v ∉ L) :
    L.foldl (ann_visit e phi) buffer v = buffer v := by
  induction L generalizing buffer with
  | nil => rfl
  | cons a t ih =>
    rw [List.foldl_cons, ih _ (fun hm => h (List.mem_cons_of_mem a hm))]
    exact ann_visit_other e phi buffer a v (fun hva => h (hva ▸ List.mem_cons_self a t))

/-- The slots of the inputs are never written. -/
theorem ann_pass_input {K : Type} [Field K] (e : expression_ann K) (phi : String → K → K)
    (L : List Nat) (buffer : Nat → K) (v : Nat) (h : v < e.m_n) :
    L.foldl (ann_visit e phi) buffer v = buffer v := by
  induction L generalizing buffer with
  | nil => rfl
  | cons a t ih =>
    rw [List.foldl_cons, ih]
    exact ann_visit_input e phi buffer a v h

theorem ann_node_value_congr {K : Type} [Field K] (e : expression_ann K)
    (phi : String → K → K) (b1 b2 : Nat → K) (u : Nat)
    (h : ∀ s ∈ ann_sources e u, b1 s = b2 s) :
    ann_node_value e phi b1 u = ann_node_value e phi b2 u := by
  unfold ann_node_value
  have hl : (List.range (ann_arity e u)).map
      (fun i => ann_weight e u i * b1 (ann_connection e u i)) =
      (List.range (ann_arity e u)).map
      (fun i => ann_weight e u i * b2 (ann_connection e u i)) := by
    apply List.map_congr_left
    intro i hi
    rw [h (ann_connection e u i)
      ((mem_ann_sources e u _).mpr ⟨i, List.mem_range.mp hi, rfl⟩)]
  rw [hl]

/-- After a pass over ascending ids whose sources have smaller ids, the slot of every visited
non-input node holds the value computed from the final buffer. -/
theorem ann_pass_value {K : Type} [Field K] (e : expression_ann K) (phi : String → K → K)
    (L : List Nat) (hL : L.Sorted (fun a b => a < b))
    (hs : ∀ u ∈ L, e.m_n ≤ u → ∀ s ∈ ann_sources e u, s < u) (buffer : Nat → K) :
    ∀ u ∈ L, e.m_n ≤ u →
      L.foldl (ann_visit e phi) buffer u =
        ann_node_value e phi (L.foldl (ann_visit e phi) buffer) u := by
  induction L generalizing buffer with
  | nil => intro u hu; cases hu
  | cons a t ih =>
    have hat : ∀ b ∈ t, a < b := (List.sorted_cons.mp hL).1
    have ht : t.Sorted (fun a b => a < b) := (List.sorted_cons.mp hL).2
    have hnot : ∀ v, v ≤ a → v ∉ t := by
      intro v hva hvt
      have := hat v hvt
      omega
    intro u hu hnu
    rw [List.foldl_cons]
    rcases List.mem_cons.mp hu with rfl | hut
    · rw [ann_pass_untouched e phi t _ u (hnot u (Nat.le_refl u)), ann_visit_same e phi _ u hnu]
      apply ann_node_value_congr
      intro s hsu
      have hlt := hs u (List.mem_cons_self u t) hnu s hsu
      rw [ann_pass_untouched e phi t _ s (hnot s (by omega)),
        ann_visit_other e phi buffer u s (by omega)]
    · exact ih ht (fun w hw => hs w (List.mem_cons_of_mem a hw)) _ u hut hnu

/-! ## The constructor of `expression_ann` -/

theorem getD_replicate_of_lt {α : Type} (a t : Nat) (x d : α) (h : t < a) :
    (List.replicate a x).getD t d = x := by
  rw [List.getD_eq_getElem _ _ (by rw [List.length_replicate]; exact h)]
  exact List.getElem_replicate _ _

theorem sum_range_step (len : Nat → Nat) (c j : Nat) (h : j < c) :
    ((List.range j).map len).sum + len j ≤ ((List.range c).map len).sum := by
  induction c with
  | zero => omega
  | succ c ih =>
    rw [List.range_succ, List.map_append, List.sum_append, List.map_singleton,
      List.sum_singleton]
    rcases Nat.lt_succ_iff_lt_or_eq.mp h with h1 | h1
    · have := ih h1
      omega
    · rw [h1]

theorem length_flatMap_range {α : Type} (f : Nat → List α) (len : Nat → Nat)
    (hlen : ∀ j, (f j).length = len j) (c : Nat) :
    ((List.range c).flatMap f).length = ((List.range c).map len).sum := by
  rw [List.length_flatMap]
  congr 1
  apply List.map_congr_left
  intro j _
  exact hlen j

/-- Entry `t` of block `j` of a list made of consecutive blocks. -/
theorem getD_flatMap_range {α : Type} (f : Nat → List α) (len : Nat → Nat)
    (hlen : ∀ j, (f j).length = len j) (d : α) (c j t : Nat) (hj : j < c) (ht : t < len j) :
    ((List.range c).flatMap f).getD (((List.range j).map len).sum + t) d = (f j).getD t d := by
  induction c with
  | zero => omega
  | succ c ih =>
    rw [List.range_succ, List.flatMap_append, List.flatMap_singleton]
    have hl := length_flatMap_range f len hlen c
    rcases Nat.lt_succ_iff_lt_or_eq.mp hj with h1 | h1
    · have h2 := sum_range_step len c j h1
      rw [List.getD_append _ _ _ _ (by omega)]
      exact ih h1
    · subst h1
      rw [List.getD_append_right _ _ _ _ (by omega), hl, Nat.add_sub_cancel_left]

theorem sum_range_const (i k : Nat) : ((List.range i).map (fun _ => k)).sum = i * k := by
  induction i with
  | zero => simp
  | succ i ih =>
    rw [List.range_succ, List.map_append, List.sum_append, ih, List.map_singleton,
      List.sum_singleton, Nat.succ_mul]

theorem length_node_bounds (n r l fsize a j : Nat) :
    (node_bounds n r l fsize a j).length = 1 + a := by
  unfold node_bounds
  rw [List.length_cons, List.length_replicate, Nat.add_comm]

theorem length_column_bounds (n r l fsize a j : Nat) :
    ((List.range r).flatMap (fun _ => node_bounds n r l fsize a j)).length = r * (1 + a) := by
  rw [length_flatMap_range _ (fun _ => 1 + a) (fun _ => length_node_bounds n r l fsize a j),
    sum_range_const]

theorem length_ann_gene_bounds (n m r c l : Nat) (arity : List Nat) (fsize : Nat) :
    (ann_gene_bounds n m r c l arity fsize).length = genes_before r arity c + m := by
  unfold ann_gene_bounds genes_before
  rw [List.length_append, List.length_replicate,
    length_flatMap_range _ (fun k => r * (1 + column_arity arity k))
      (fun j => length_column_bounds n r l fsize (column_arity arity j) j)]

/-- The bounds of the gene `t` of the node in column `j` and row `i`. -/
theorem getD_ann_gene_bounds (n m r c l : Nat) (arity : List Nat) (fsize : Nat) (j i t : Nat)
    (hj : j < c) (hi : i < r) (ht : t < 1 + column_arity arity j) :
    (ann_gene_bounds n m r c l arity fsize).getD
        (genes_before r arity j + i * (1 + column_arity arity j) + t) (0, 0) =
      (node_bounds n r l fsize (column_arity arity j) j).getD t (0, 0) ∧
    genes_before r arity j + i * (1 + column_arity arity j) + t < genes_before r arity c := by
  have hin : i * (1 + column_arity arity j) + t < r * (1 + column_arity arity j) := by
    have h1 : (i + 1) * (1 + column_arity arity j) ≤ r * (1 + column_arity arity j) :=
      Nat.mul_le_mul_right _ hi
    rw [Nat.succ_mul] at h1
    omega
  have hstep := sum_range_step (fun k => r * (1 + column_arity arity k)) c j hj
  beta_reduce at hstep
  have hlt : genes_before r arity j + i * (1 + column_arity arity j) + t <
      genes_before r arity c := by
    unfold genes_before
    omega
  refine ⟨?_, hlt⟩
  have hlen := length_flatMap_range
    (fun j => (List.range r).flatMap
      (fun _ => node_bounds n r l fsize (column_arity arity j) j))
    (fun k => r * (1 + column_arity arity k))
    (fun j => length_column_bounds n r l fsize (column_arity arity j) j) c
  unfold ann_gene_bounds
  rw [List.getD_append _ _ _ _ (by rw [hlen]; exact hlt)]
  have houter := getD_flatMap_range
    (fun j => (List.range r).flatMap
      (fun _ => node_bounds n r l fsize (column_arity arity j) j))
    (fun k => r * (1 + column_arity arity k))
    (fun j => length_column_bounds n r l fsize (column_arity arity j) j) (0, 0) c j
    (i * (1 + column_arity arity j) + t) hj hin
  have hinner := getD_flatMap_range
    (fun _ => node_bounds n r l fsize (column_arity arity j) j)
    (fun _ => 1 + column_arity arity j)
    (fun _ => length_node_bounds n r l fsize (column_arity arity j) j) (0, 0) r i t hi ht
  rw [sum_range_const] at hinner
  unfold genes_before
  rw [Nat.add_assoc, houter]
  exact hinner

theorem getD_ann_output_bounds (n m r c l : Nat) (arity : List Nat) (fsize : Nat) (k : Nat)
    (hk : k < m) :
    (ann_gene_bounds n m r c l arity fsize).getD (genes_before r arity c + k) (0, 0) =
      (output_lower n r c l, output_upper n r c) := by
  have hlen := length_flatMap_range
    (fun j => (List.range r).flatMap
      (fun _ => node_bounds n r l fsize (column_arity arity j) j))
    (fun k => r * (1 + column_arity arity k))
    (fun j => length_column_bounds n r l fsize (column_arity arity j) j) c
  unfold ann_gene_bounds
  rw [List.getD_append_right _ _ _ _ (by rw [hlen]; unfold genes_before; omega), hlen]
  unfold genes_before
  rw [Nat.add_sub_cancel_left]
  exact getD_replicate_of_lt m k _ _ hk

/-- Every range of the bounds is well formed. -/
theorem ann_gene_bounds_ordered (n m r c l : Nat) (arity : List Nat) (fsize : Nat)
    (hr : 0 < r) (hl : 0 < l) :
    ∀ b ∈ ann_gene_bounds n m r c l arity fsize, b.1 ≤ b.2 := by
  intro b hb
  unfold ann_gene_bounds at hb
  rw [List.mem_append, List.mem_flatMap] at hb
  rcases hb with ⟨j, -, hb⟩ | hb
  · rw [List.mem_flatMap] at hb
    obtain ⟨i, -, hb⟩ := hb
    unfold node_bounds at hb
    rcases List.mem_cons.mp hb with rfl | hb
    · exact Nat.zero_le _
    · rw [List.eq_of_mem_replicate hb]
      unfold connection_lower connection_upper
      split
      · rename_i hlj
        have h1 : r * (j - l) + r ≤ j * r := by
          have : (j - l + 1) * r ≤ j * r := Nat.mul_le_mul_right _ (by omega)
          rw [Nat.succ_mul, Nat.mul_comm] at this
          exact this
        show n + r * (j - l) ≤ n + j * r - 1
        omega
      · exact Nat.zero_le _
  · rw [List.eq_of_mem_replicate hb]
    unfold output_lower output_upper
    split
    · rename_i hlc
      have h1 : r * (c - l) + r ≤ r * c := by
        have : r * (c - l + 1) ≤ r * c := Nat.mul_le_mul_left _ (by omega)
        rw [Nat.mul_succ] at this
        exact this
      show n + r * (c - l) ≤ n + r * c - 1
      omega
    · exact Nat.zero_le _

/-- The sampled chromosome has one gene per range, each within its range. -/
theorem ann_random_chromosome_spec (bounds : List (Nat × Nat)) (m_e : Nat → Nat)
    (h : ∀ b ∈ bounds, b.1 ≤ b.2) :
    (ann_random_chromosome bounds m_e).1.length = bounds.length ∧
    ∀ g, g < bounds.length →
      (bounds.getD g (0, 0)).1 ≤ vec_at (ann_random_chromosome bounds m_e).1 g ∧
      vec_at (ann_random_chromosome bounds m_e).1 g ≤ (bounds.getD g (0, 0)).2 := by
  induction bounds generalizing m_e with
  | nil =>
    refine ⟨rfl, ?_⟩
    intro g hg
    cases hg
  | cons b t ih =>
    have iht := ih (uniform_int_distribution b.1 b.2 m_e).2
      (fun x hx => h x (List.mem_cons_of_mem b hx))
    unfold ann_random_chromosome
    constructor
    · rw [List.length_cons, List.length_cons, iht.1]
    · intro g hg
      cases g with
      | zero => exact uniform_int_distribution_mem b.1 b.2 m_e (h b (List.mem_cons_self b t))
      | succ g => exact iht.2 g (by rw [List.length_cons] at hg; omega)

/-- A chromosome sampled within the bounds is valid. -/
theorem sampled_ann_valid {K : Type} (e : expression_ann K) (hr : 0 < e.m_r) (hl : 0 < e.m_l)
    (seed : Nat → Nat)
    (hx : e.m_x = (ann_random_chromosome
      (ann_gene_bounds e.m_n e.m_m e.m_r e.m_c e.m_l e.m_arity e.m_f.length) seed).1) :
    ann_valid e := by
  obtain ⟨hlen, hin⟩ := ann_random_chromosome_spec
    (ann_gene_bounds e.m_n e.m_m e.m_r e.m_c e.m_l e.m_arity e.m_f.length) seed
    (ann_gene_bounds_ordered _ _ _ _ _ _ _ hr hl)
  rw [← hx] at hlen hin
  rw [length_ann_gene_bounds] at hlen hin
  refine ⟨hlen, ?_, ?_⟩
  · intro u hu hnu
    have hj := node_column_lt e.m_n e.m_r e.m_c u hnu hu
    have hi : node_row e.m_n e.m_r u < e.m_r := Nat.mod_lt _ hr
    constructor
    · have hb := getD_ann_gene_bounds e.m_n e.m_m e.m_r e.m_c e.m_l e.m_arity e.m_f.length
        (node_column e.m_n e.m_r u) (node_row e.m_n e.m_r u) 0 hj hi (by omega)
      rw [Nat.add_zero] at hb
      have hg := (hin (gene_index e.m_n e.m_r e.m_arity u)
        (by unfold gene_index; omega)).2
      unfold gene_index at hg
      rw [hb.1] at hg
      unfold ann_function_gene gene_index
      exact hg
    · intro i hia
      have hb := getD_ann_gene_bounds e.m_n e.m_m e.m_r e.m_c e.m_l e.m_arity e.m_f.length
        (node_column e.m_n e.m_r u) (node_row e.m_n e.m_r u) (i + 1) hj hi
        (by unfold ann_arity at hia; omega)
      have hnb : (node_bounds e.m_n e.m_r e.m_l e.m_f.length
          (column_arity e.m_arity (node_column e.m_n e.m_r u))
          (node_column e.m_n e.m_r u)).getD (i + 1) (0, 0) =
          (connection_lower e.m_n e.m_r e.m_l (node_column e.m_n e.m_r u),
            connection_upper e.m_n e.m_r (node_column e.m_n e.m_r u)) := by
        unfold node_bounds
        rw [List.getD_cons_succ]
        exact getD_replicate_of_lt _ _ _ _ hia
      have hg := hin _ (Nat.lt_of_lt_of_le hb.2 (Nat.le_add_right _ _))
      rw [hb.1, hnb] at hg
      have hidx : gene_index e.m_n e.m_r e.m_arity u + 1 + i =
          genes_before e.m_r e.m_arity (node_column e.m_n e.m_r u) +
            node_row e.m_n e.m_r u *
              (1 + column_arity e.m_arity (node_column e.m_n e.m_r u)) + (i + 1) := by
        unfold gene_index
        omega
      unfold ann_connection
      rw [hidx]
      exact hg
  · intro k hk
    have hb := getD_ann_output_bounds e.m_n e.m_m e.m_r e.m_c e.m_l e.m_arity e.m_f.length k hk
    have hg := hin _ (by omega : genes_before e.m_r e.m_arity e.m_c + k <
      genes_before e.m_r e.m_arity e.m_c + e.m_m)
    rw [hb] at hg
    exact hg

theorem ann_pull_update {K : Type} (e : expression_ann K) (S : List Nat) :
    ann_pull (ann_update_active e) S = ann_pull e S := rfl

theorem ann_fixpoint_update {K : Type} (e : expression_ann K) (fuel : Nat) (S : List Nat) :
    ann_fixpoint (ann_update_active e) fuel S = ann_fixpoint e fuel S := by
  induction fuel generalizing S with
  | zero => rfl
  | succ k ih =>
    unfold ann_fixpoint
    rw [ann_pull_update, ih]

/-- The active-set pass reads the shape and the chromosome only. -/
theorem ann_active_nodes_update {K : Type} (e : expression_ann K) :
    (ann_update_active e).m_active_nodes = ann_active_nodes (ann_update_active e) := by
  show ann_active_nodes e = ann_active_nodes (ann_update_active e)
  unfold ann_active_nodes
  rw [ann_fixpoint_update]
  rfl

/-- With a valid shape and ANN-compatible kernels the constructor returns a well-formed
object. -/
theorem construct_ann_ok {K : Type} [Field K] (n m r c l : Nat) (arity : List Nat)
    (f : List String) (seed : Nat → Nat) (weights biases : Nat → K) (hn : 0 < n) (hm : 0 < m)
    (hr : 0 < r) (hc : 0 < c) (hl : 0 < l) (hf : f ≠ []) (ha : arity.length = c)
    (ha0 : ∀ a ∈ arity, 0 < a) (hk : ∀ k ∈ f, k ∈ ann_kernels) :
    ∃ e : expression_ann K,
      construct_ann n m r c l arity f seed weights biases = ann_construction.ok e ∧
        ann_well_formed e := by
  have h1 : ¬ (n = 0 ∨ m = 0 ∨ r = 0 ∨ c = 0 ∨ l = 0 ∨ f = [] ∨ arity.length ≠ c ∨
      0 ∈ arity) := by
    rintro (h | h | h | h | h | h | h | h)
    · omega
    · omega
    · omega
    · omega
    · omega
    · exact hf h
    · exact h ha
    · exact Nat.lt_irrefl 0 (ha0 0 h)
  have h2 : ¬ ∃ k ∈ f, k ∉ ann_kernels := by
    rintro ⟨k, hkf, hkn⟩
    exact hkn (hk k hkf)
  unfold construct_ann
  rw [if_neg h1, if_neg h2]
  refine ⟨_, rfl, hn, hm, hr, hc, hl, hf, ha, ha0, ?_, ann_active_nodes_update _, ?_, ?_⟩
  · exact sampled_ann_valid _ hr hl seed rfl
  · exact (List.length_map _ _).trans (List.length_range _)
  · exact (List.length_map _ _).trans (List.length_range _)

/-- C28: construction of an `expression_ann` (modelled from the specification). It fails with
`std::invalid_argument` whenever the kernel list holds a kernel outside the ANN-compatible set
`sig, tanh, ReLu, ELU, ISRU, sum`, also when the other kernels of the list are compatible; with
compatible kernels only and a valid shape it succeeds and returns a well-formed object. The
kernel lists `tanh, sin`, `cos, sig` and `ReLu, diff` of the test case fail. All of this holds
whatever the seed and the initial content of the weights and biases. -/
theorem construct_ann_checks_kernels {K : Type} [Field K] (n m r c l : Nat)
    (arity : List Nat) (f : List String) (seed : Nat → Nat) (weights biases : Nat → K) :
    ((∃ k ∈ f, k ∉ ann_kernels) →
      ∃ what, construct_ann n m r c l arity f seed weights biases =
        ann_construction.invalid_argument what) ∧
    ((∀ k ∈ f, k ∈ ann_kernels) → 0 < n → 0 < m → 0 < r → 0 < c → 0 < l → f ≠ [] →
      arity.length = c → (∀ a ∈ arity, 0 < a) →
      ∃ e : expression_ann K,
        construct_ann n m r c l arity f seed weights biases = ann_construction.ok e ∧
          ann_well_formed e) ∧
    (construct_ann 1 1 1 2 1 [1, 1] ["tanh", "sin"] seed weights biases =
      ann_construction.invalid_argument "KernelIncompatible" ∧
    construct_ann 1 1 1 2 1 [1, 1] ["cos", "sig"] seed weights biases =
      ann_construction.invalid_argument "KernelIncompatible" ∧
    construct_ann 1 1 1 2 1 [1, 1] ["ReLu", "diff"] seed weights biases =
      ann_construction.invalid_argument "KernelIncompatible") := by
  refine ⟨?_, ?_, ?_⟩
  · intro hbad
    unfold construct_ann
    split
    · exact ⟨_, rfl⟩
    · exact ⟨_, rfl⟩
  · intro hk hn hm hr hc hl hf ha ha0
    exact construct_ann_ok n m r c l arity f seed weights biases hn hm hr hc hl hf ha ha0 hk
  · refine ⟨?_, ?_, ?_⟩ <;>
    · unfold construct_ann
      rw [if_neg (by decide), if_pos (by decide)]

theorem construct_ann_checks_kernels_witness :
    (∃ what, construct_ann 2 2 2 2 5 [2, 2] ["sig", "exp", "ReLu"] sample_seed
        (fun k => (k : ℚ)) (fun _ => 0) = ann_construction.invalid_argument what) ∧
    ∃ e : expression_ann ℚ,
      construct_ann 2 2 2 2 5 [2, 2] ["sig", "tanh", "ReLu"] sample_seed
        (fun k => (k : ℚ)) (fun _ => 0) = ann_construction.ok e ∧ ann_well_formed e :=
  ⟨(construct_ann_checks_kernels 2 2 2 2 5 [2, 2] ["sig", "exp", "ReLu"]
      sample_seed (fun k => (k : ℚ)) (fun _ => 0)).1
      ⟨"exp", by decide, by decide⟩,
    (construct_ann_checks_kernels 2 2 2 2 5 [2, 2] ["sig", "tanh", "ReLu"]
      sample_seed (fun k => (k : ℚ)) (fun _ => 0)).2.1
      (by decide) Nat.two_pos Nat.two_pos Nat.two_pos Nat.two_pos (by decide) (by simp)
      rfl (by simp)⟩

/-- C29: forward evaluation of an `expression_ann` (modelled from the specification). For every
well-formed network, activation table `phi`, and input: the slot of an input node holds the
input value; the value of every active non-input node `u` is
`phi_k(b_u + sum over its slots i of w_{u,i} * value(source_{u,i}))` with `k` the kernel that
its function gene selects, and every source is itself an active node with a smaller id, so its
value is determined in the same way; output `k` is the value of the node that output gene `k`
references, an active node. In scenario S1 the output is
`phi_tanh(0.4 + 0.2 * phi_tanh(0.23 * 0.1 + 0.3))`. -/
theorem ann_forward_values {K : Type} [Field K] (e : expression_ann K) (phi : String → K → K)
    (inputs : List K) (hw : ann_well_formed e) :
    (∀ u, u < e.m_n → ann_forward e phi inputs u = inputs.getD u 0) ∧
    (∀ u ∈ e.m_active_nodes, e.m_n ≤ u →
      ann_forward e phi inputs u =
        phi (ann_kernel e u)
          (ann_bias e u + ((List.range (ann_arity e u)).map
            (fun i => ann_weight e u i * ann_forward e phi inputs (ann_connection e u i))).sum) ∧
      ∀ i, i < ann_arity e u →
        ann_connection e u i ∈ e.m_active_nodes ∧ ann_connection e u i < u) ∧
    (ann_evaluate e phi inputs =
      (List.range e.m_m).map (fun k => ann_forward e phi inputs (ann_output_gene e k)) ∧
      ∀ k, k < e.m_m → ann_output_gene e k ∈ e.m_active_nodes) ∧
    ann_evaluate (scenario_ann K) phi [0.23] =
      [phi "tanh" (0.4 + 0.2 * phi "tanh" (0.23 * 0.1 + 0.3))] := by
  obtain ⟨hn, -, -, -, -, -, -, -, hv, hact, -, -⟩ := hw
  obtain ⟨hsorted, hlt, hclosed, hout⟩ := ann_active_nodes_spec e hv hn
  rw [← hact] at hsorted hlt hclosed hout
  have hsrc : ∀ u ∈ e.m_active_nodes, e.m_n ≤ u → ∀ s ∈ ann_sources e u, s < u := by
    intro u hu hnu s hs
    have h1 := ann_source_lt e hv hn u hnu (hlt u hu) s hs
    have h2 := node_column_le e.m_n e.m_r u hnu
    omega
  refine ⟨?_, ?_, ⟨rfl, hout⟩, ?_⟩
  · intro u hu
    unfold ann_forward
    exact ann_pass_input e phi _ _ u hu
  · intro u hu hnu
    constructor
    · exact ann_pass_value e phi e.m_active_nodes hsorted hsrc _ u hu hnu
    · intro i hi
      have hm : ann_connection e u i ∈ ann_sources e u :=
        (mem_ann_sources e u _).mpr ⟨i, hi, rfl⟩
      exact ⟨hclosed u hu hnu _ hm, hsrc u hu hnu _ hm⟩
  · have h1 : (0.23 : K) * 0.1 + 0.3 = 0.3 + 0.1 * 0.23 := by
      rw [add_comm, mul_comm]
    rw [h1]
    simp [ann_evaluate, ann_forward, ann_visit, scenario_ann, ann_output_gene, genes_before,
      column_arity, vec_at, List.range_succ, ann_node_value, ann_kernel, ann_function_gene,
      gene_index, node_column, node_row, ann_bias, ann_arity, ann_weight, ann_connection,
      weights_before, Function.update_apply]

theorem ann_forward_values_witness :
    (∀ u, u < (scenario_ann ℚ).m_n →
      ann_forward (scenario_ann ℚ) (fun _ z => z / 2) [0.23] u = [(0.23 : ℚ)].getD u 0) ∧
    (∀ u ∈ (scenario_ann ℚ).m_active_nodes, (scenario_ann ℚ).m_n ≤ u →
      ann_forward (scenario_ann ℚ) (fun _ z => z / 2) [0.23] u =
        (fun (_ : String) (z : ℚ) => z / 2) (ann_kernel (scenario_ann ℚ) u)
          (ann_bias (scenario_ann ℚ) u + ((List.range (ann_arity (scenario_ann ℚ) u)).map
            (fun i => ann_weight (scenario_ann ℚ) u i *
              ann_forward (scenario_ann ℚ) (fun _ z => z / 2) [0.23]
                (ann_connection (scenario_ann ℚ) u i))).sum) ∧
      ∀ i, i < ann_arity (scenario_ann ℚ) u →
        ann_connection (scenario_ann ℚ) u i ∈ (scenario_ann ℚ).m_active_nodes ∧
        ann_connection (scenario_ann ℚ) u i < u) ∧
    (ann_evaluate (scenario_ann ℚ) (fun _ z => z / 2) [0.23] =
      (List.range (scenario_ann ℚ).m_m).map
        (fun k => ann_forward (scenario_ann ℚ) (fun _ z => z / 2) [0.23]
          (ann_output_gene (scenario_ann ℚ) k)) ∧
      ∀ k, k < (scenario_ann ℚ).m_m →
        ann_output_gene (scenario_ann ℚ) k ∈ (scenario_ann ℚ).m_active_nodes) ∧
    ann_evaluate (scenario_ann ℚ) (fun _ z => z / 2) [0.23] =
      [(fun (_ : String) (z : ℚ) => z / 2) "tanh"
        (0.4 + 0.2 * (fun (_ : String) (z : ℚ) => z / 2) "tanh" (0.23 * 0.1 + 0.3))] :=
  ann_forward_values (scenario_ann ℚ) (fun _ z => z / 2) [0.23] (by decide)

/-! ## The active weights of an `expression_ann` -/

theorem length_ann_edges {K : Type} (e : expression_ann K) :
    (ann_edges e).length =
      ((e.m_active_nodes.filter (fun u => decide (e.m_n ≤ u))).map (ann_arity e)).sum := by
  unfold ann_edges
  rw [List.length_flatMap]
  congr 1
  apply List.map_congr_left
  intro u _
  simp [ann_sources]

/-- The edges of distinct destinations are distinct, so the list of the edges has a repetition
exactly when some node reads a source twice. -/
theorem nodup_ann_edges {K : Type} (e : expression_ann K) (h : e.m_active_nodes.Nodup) :
    (ann_edges e).Nodup ↔
      ∀ u ∈ e.m_active_nodes, e.m_n ≤ u → (ann_sources e u).Nodup := by
  unfold ann_edges
  rw [List.nodup_flatMap]
  have hinj : ∀ u : Nat, Function.Injective (fun s : Nat => (s, u)) := by
    intro u a b hab
    exact (Prod.mk.inj hab).1
  constructor
  · rintro ⟨h1, -⟩ u hu hnu
    have := h1 u (List.mem_filter.mpr ⟨hu, decide_eq_true hnu⟩)
    exact (List.nodup_map_iff (hinj u)).mp this
  · intro h1
    constructor
    · intro u hu
      rw [List.mem_filter] at hu
      exact (List.nodup_map_iff (hinj u)).mpr (h1 u hu.1 (of_decide_eq_true hu.2))
    · have hp : (e.m_active_nodes.filter (fun u => decide (e.m_n ≤ u))).Pairwise
          (fun a b => a ≠ b) := List.Nodup.filter _ h
      refine List.Pairwise.imp ?_ hp
      intro a b hab p hpa hpb
      rw [List.mem_map] at hpa hpb
      obtain ⟨s, -, rfl⟩ := hpa
      obtain ⟨t, -, ht⟩ := hpb
      exact hab (Prod.mk.inj ht).2.symm

/-- C30: the active weights of an `expression_ann` (modelled from the specification). For every
well-formed network `n_active_weights(false)` is the number of connection genes of the active
non-input nodes, `n_active_weights(true)` is the number of distinct pairs (source, destination)
among these edges, so `n_active_weights(true) ≤ n_active_weights(false)`, with equality exactly
when no active node reads the same source twice. In scenario S4 the chromosome
`[0,0,1,0,0,1,0,2,3,0,2,3,4,5]` gives 8 and 8, and `[0,1,1,0,0,1,0,2,3,0,2,3,4,5]` gives 8
and 7. -/
theorem n_active_weights_counts {K : Type} (e : expression_ann K) (hw : ann_well_formed e) :
    n_active_weights e false =
      ((e.m_active_nodes.filter (fun u => decide (e.m_n ≤ u))).map (ann_arity e)).sum ∧
    n_active_weights e true = (ann_edges e).toFinset.card ∧
    n_active_weights e true ≤ n_active_weights e false ∧
    (n_active_weights e true = n_active_weights e false ↔
      ∀ u ∈ e.m_active_nodes, e.m_n ≤ u → (ann_sources e u).Nodup) ∧
    (n_active_weights (weights_ann [0, 0, 1, 0, 0, 1, 0, 2, 3, 0, 2, 3, 4, 5]) false = 8 ∧
      n_active_weights (weights_ann [0, 0, 1, 0, 0, 1, 0, 2, 3, 0, 2, 3, 4, 5]) true = 8) ∧
    (n_active_weights (weights_ann [0, 1, 1, 0, 0, 1, 0, 2, 3, 0, 2, 3, 4, 5]) false = 8 ∧
      n_active_weights (weights_ann [0, 1, 1, 0, 0, 1, 0, 2, 3, 0, 2, 3, 4, 5]) true = 7) := by
  obtain ⟨hn, -, -, -, -, -, -, -, hv, hact, -, -⟩ := hw
  have hnodup : e.m_active_nodes.Nodup := by
    rw [hact]
    exact (ann_active_nodes_spec e hv hn).1.nodup
  have hfalse : n_active_weights e false = (ann_edges e).length := rfl
  have htrue : n_active_weights e true = (ann_edges e).dedup.length := rfl
  refine ⟨?_, ?_, ?_, ?_, by decide, by decide⟩
  · rw [hfalse]
    exact length_ann_edges e
  · rw [htrue]
    exact (List.card_toFinset _).symm
  · rw [hfalse, htrue]
    exact (List.dedup_sublist _).length_le
  · rw [hfalse, htrue, ← nodup_ann_edges e hnodup, ← List.dedup_eq_self]
    constructor
    · exact (List.dedup_sublist _).eq_of_length
    · intro h
      rw [h]

theorem n_active_weights_counts_witness :
    n_active_weights (weights_ann [0, 1, 1, 0, 0, 1, 0, 2, 3, 0, 2, 3, 4, 5]) false =
      (((weights_ann [0, 1, 1, 0, 0, 1, 0, 2, 3, 0, 2, 3, 4, 5]).m_active_nodes.filter
        (fun u => decide ((weights_ann [0, 1, 1, 0, 0, 1, 0, 2, 3, 0, 2, 3, 4, 5]).m_n ≤ u))).map
          (ann_arity (weights_ann [0, 1, 1, 0, 0, 1, 0, 2, 3, 0, 2, 3, 4, 5]))).sum ∧
    n_active_weights (weights_ann [0, 1, 1, 0, 0, 1, 0, 2, 3, 0, 2, 3, 4, 5]) true ≤
      n_active_weights (weights_ann [0, 1, 1, 0, 0, 1, 0, 2, 3, 0, 2, 3, 4, 5]) false := by
  have key := n_active_weights_counts (weights_ann [0, 1, 1, 0, 0, 1, 0, 2, 3, 0, 2, 3, 4, 5])
    (by decide)
  exact ⟨key.1, key.2.2.1⟩

/-! ## Termination and ranges of `update_active` -/

/-- Both connection genes of a node of the grid hold ids below the id of the node. -/
theorem valid_connection_below {F : Type} (e : expression F) (h : reachable e)
    (hsz : 3 * e.m_r * e.m_c + e.m_m < UINT_RANGE) (x : List Nat) (hx : is_valid e x = true) :
    ∀ u, e.m_n ≤ u → u < e.m_n + e.m_r * e.m_c →
      vec_at x (3 * (u - e.m_n) + 1) < u ∧ vec_at x (3 * (u - e.m_n) + 2) < u := by
  obtain ⟨a1, _, _, _, h2, _, _⟩ := reachable_context e h hsz
  obtain ⟨v1, v2⟩ := valid_context e h hsz x hx
  intro u hnu hu
  obtain ⟨k1, k2⟩ := valid_connection_lt e.m_n e.m_m e.m_r e.m_c e.m_l e.m_f.length a1 h2 x
    v1 v2 (u - e.m_n) (by omega)
  have := Nat.div_mul_le_self (u - e.m_n) e.m_r
  omega

/-- C34: `update_active` terminates on every chromosome accepted by `is_valid`. Every
connection gene is smaller than the id of the node that owns it; a frontier whose ids lie
below column `j` (ids below `n + r*j`) is exhausted within `j + 1` rounds of the loop, from
whatever list of collected ids; so the loop, which starts from the values of the output genes,
stops within `c + 1` rounds, and a larger budget gives the same result. The chromosome length
`3*r*c + m` is within the unsigned range. -/
theorem update_active_terminates {F : Type} (e : expression F) (h : reachable e)
    (hsz : 3 * e.m_r * e.m_c + e.m_m < UINT_RANGE) (x : List Nat) (hx : is_valid e x = true) :
    (∀ u, e.m_n ≤ u → u < e.m_n + e.m_r * e.m_c →
      vec_at x (3 * (u - e.m_n) + 1) < u ∧ vec_at x (3 * (u - e.m_n) + 2) < u) ∧
    (∀ j, j ≤ e.m_c → ∀ current active : List Nat,
      (∀ v, v ∈ current → v < e.m_n + e.m_r * j ∧ v < UINT_RANGE) →
      ∃ res, active_loop e.m_n x (j + 1) current active = some res) ∧
    ∃ e1, update_active (e.m_c + 1) { e with m_x := x } = some e1 ∧
      ∀ fuel, e.m_c + 1 ≤ fuel → update_active fuel { e with m_x := x } = some e1 := by
  obtain ⟨a1, a3, _, _, h2, _, _⟩ := reachable_context e h hsz
  obtain ⟨v1, v2⟩ := valid_context e h hsz x hx
  refine ⟨valid_connection_below e h hsz x hx, ?_, ?_⟩
  · intro j hj current active hcur
    exact active_loop_terminates e.m_n e.m_c x
      (fun j v => v < e.m_n + e.m_r * j ∧ v < UINT_RANGE)
      (fun u hu => by have := hu.1; omega)
      (valid_descends e.m_n e.m_m e.m_r e.m_c e.m_l e.m_f.length a1 a3 h2 x v1 v2)
      j hj current active hcur (j + 1) (le_refl _)
  · obtain ⟨n0, k0, u0, _⟩ := update_active_valid e h hsz x hx (e.m_c + 1) (le_refl _)
    refine ⟨_, u0, ?_⟩
    intro fuel hf
    obtain ⟨n1, k1, u1, _⟩ := update_active_valid e h hsz x hx fuel hf
    rw [u1, active_nodes_det _ _ _ _ _ _ _ _ _ k1 k0]

theorem update_active_terminates_witness :
    (∀ u, 1 ≤ u → u < 1 + 2 * 2 →
      vec_at sample_chromosome (3 * (u - 1) + 1) < u ∧
      vec_at sample_chromosome (3 * (u - 1) + 2) < u) ∧
    (∀ j, j ≤ 2 → ∀ current active : List Nat,
      (∀ v, v ∈ current → v < 1 + 2 * j ∧ v < UINT_RANGE) →
      ∃ res, active_loop 1 sample_chromosome (j + 1) current active = some res) ∧
    ∃ e1, update_active (2 + 1) { sample_expression with m_x := sample_chromosome } = some e1 ∧
      ∀ fuel, 2 + 1 ≤ fuel →
        update_active fuel { sample_expression with m_x := sample_chromosome } = some e1 :=
  update_active_terminates sample_expression sample_reachable sample_length_fits
    sample_chromosome sample_chromosome_valid

/-! ## The bounds handed to the random draws -/

/-- The constructor returns within `c + 1` rounds of `update_active`, for a shape without zero
and without overflow. -/
theorem construct_returns {F : Type} (fuel n m r c l : Nat) (f : List F) (seed : Nat → Nat)
    (hn : 0 < n) (hm : 0 < m) (hr : 0 < r) (hc : 0 < c) (hl : 0 < l) (hf : 0 < f.length)
    (hno : no_overflow n m r c) (hfuel : c + 1 ≤ fuel) :
    ∃ e, construct fuel n m r c l f seed = construction.ok e := by
  obtain ⟨h1, h2⟩ := (no_overflow_iff n m r c).mp hno
  obtain ⟨b1, b2, _⟩ := bounds_spec n m r c l f.length hn hr h1 h2
  have hsize : uadd (umul (umul 3 r) c) m = 3 * (r * c) + m := by
    rw [umul3_eq (by omega), uadd_eq h2]
  obtain ⟨s1, s2⟩ := random_chromosome_spec (bounds n m r c l f.length).1
    (bounds n m r c l f.length).2 (3 * (r * c) + m) seed
    (fun i _ => bounds_ordered n m r c l f.length hn hr hl h1 h2 i)
  obtain ⟨nodes, k1, _⟩ := active_nodes_spec n m r c l f.length hn hr h2 _ s1
    (fun i hi => s2 i (by rw [s1] at hi; exact hi)) fuel hfuel
  unfold construct
  rw [if_neg (Nat.ne_of_gt hn), if_neg (Nat.ne_of_gt hm), if_neg (Nat.ne_of_gt hc),
    if_neg (Nat.ne_of_gt hr), if_neg (Nat.ne_of_gt hl), if_neg (Nat.ne_of_gt hf)]
  simp only [hsize]
  rw [update_active_of_nodes fuel _ nodes k1]
  exact ⟨_, rfl⟩

/-- C35: for every shape with `n, m, r, c, l ≥ 1` and a non-empty kernel list, without unsigned
overflow in `n + r*c` and `3*r*c + m`, the bounds built by the constructor satisfy
`lb[i] ≤ ub[i]` for every gene index `i`; so every draw `uniform_int_distribution(lb[i], ub[i])`
has a well-formed range and returns a value of it, the constructor returns, and valid
chromosomes exist: the sampled chromosome and the vector of the lower bounds are accepted by
`is_valid`. -/
theorem bounds_ordered_for_every_shape {F : Type} (n m r c l : Nat) (f : List F)
    (hn : 0 < n) (hm : 0 < m) (hr : 0 < r) (hc : 0 < c) (hl : 0 < l) (hf : 0 < f.length)
    (hno : no_overflow n m r c) :
    (∀ i, vec_at (bounds n m r c l f.length).1 i ≤ vec_at (bounds n m r c l f.length).2 i) ∧
    (∀ i (m_e : Nat → Nat),
      vec_at (bounds n m r c l f.length).1 i ≤
        (uniform_int_distribution (vec_at (bounds n m r c l f.length).1 i)
          (vec_at (bounds n m r c l f.length).2 i) m_e).1 ∧
      (uniform_int_distribution (vec_at (bounds n m r c l f.length).1 i)
          (vec_at (bounds n m r c l f.length).2 i) m_e).1 ≤
        vec_at (bounds n m r c l f.length).2 i) ∧
    ∀ fuel seed, c + 1 ≤ fuel →
      ∃ e, construct fuel n m r c l f seed = construction.ok e ∧
        e.m_lb = (bounds n m r c l f.length).1 ∧ e.m_ub = (bounds n m r c l f.length).2 ∧
        (∀ i, vec_at e.m_lb i ≤ vec_at e.m_ub i) ∧
        is_valid e e.m_x = true ∧ is_valid e e.m_lb = true := by
  obtain ⟨h1, h2⟩ := (no_overflow_iff n m r c).mp hno
  have hord := bounds_ordered n m r c l f.length hn hr hl h1 h2
  refine ⟨hord, fun i m_e => uniform_int_distribution_mem _ _ m_e (hord i), ?_⟩
  intro fuel seed hfuel
  obtain ⟨e, he⟩ := construct_returns fuel n m r c l f seed hn hm hr hc hl hf hno hfuel
  have hre : reachable e := reachable.construct fuel n m r c l f seed e he
  obtain ⟨_, _, _, _, _, _, _, _, hsub⟩ := construct_ok _ _ _ _ _ _ _ _ _ he
  have hshape : e.m_n = n ∧ e.m_m = m ∧ e.m_r = r ∧ e.m_c = c ∧ e.m_l = l ∧ e.m_f = f := by
    rw [hsub]
    exact ⟨rfl, rfl, rfl, rfl, rfl, rfl⟩
  obtain ⟨q1, q2, q3, q4, q5, q6⟩ := hshape
  obtain ⟨_, _, _, _, _, _, lbe, ube⟩ := reachable_shape e hre
  rw [q1, q2, q3, q4, q5, q6] at lbe ube
  have hno1 : no_overflow e.m_n e.m_m e.m_r e.m_c := by
    rw [q1, q2, q3, q4]
    exact hno
  have hordE : ∀ i, vec_at e.m_lb i ≤ vec_at e.m_ub i := by
    intro i
    rw [lbe, ube]
    exact hord i
  refine ⟨e, he, lbe, ube, hordE, reachable_valid e hre hno1, ?_⟩
  rw [is_valid_iff]
  exact ⟨rfl, fun i _ => ⟨Nat.le_refl _, hordE i⟩⟩

theorem bounds_ordered_for_every_shape_witness :
    (∀ i, vec_at (bounds 1 1 2 2 1 2).1 i ≤ vec_at (bounds 1 1 2 2 1 2).2 i) ∧
    ∃ e, construct 3 1 1 2 2 1 [(), ()] sample_seed = construction.ok e ∧
      (∀ i, vec_at e.m_lb i ≤ vec_at e.m_ub i) ∧
      is_valid e e.m_x = true ∧ is_valid e e.m_lb = true := by
  have key := bounds_ordered_for_every_shape 1 1 2 2 1 [(), ()] (by decide) (by decide)
    (by decide) (by decide) (by decide) (by decide) sample_no_overflow
  obtain ⟨e, he, _, _, k1, k2, k3⟩ := key.2.2 3 sample_seed (by decide)
  exact ⟨key.1, e, he, k1, k2, k3⟩

/-! ## Chromosomes that agree on the active genes -/

theorem sorted_eq_of_mem_iff (a b : List Nat) (ha : a.Sorted (fun p q => p < q))
    (hb : b.Sorted (fun p q => p < q)) (h : ∀ v, v ∈ a ↔ v ∈ b) : a = b :=
  List.eq_of_perm_of_sorted ((List.perm_ext_iff_of_nodup ha.nodup hb.nodup).mpr h) ha hb

/-- C36: inactive genes do not influence the active set. For two chromosomes `x` and `y`
accepted by `is_valid` in the same expression, `update_active` returns on both (within `c + 1`
rounds), and if `x` and `y` hold the same value at every gene index of the active genes of `x`,
then the active nodes and the active genes of `y` are those of `x`. The chromosome length
`3*r*c + m` is within the unsigned range. -/
theorem inactive_genes_do_not_matter {F : Type} (e : expression F) (h : reachable e)
    (hsz : 3 * e.m_r * e.m_c + e.m_m < UINT_RANGE) (x y : List Nat)
    (hx : is_valid e x = true) (hy : is_valid e y = true) (fuel : Nat)
    (hf : e.m_c + 1 ≤ fuel) :
    ∃ ex ey, update_active fuel { e with m_x := x } = some ex ∧
      update_active fuel { e with m_x := y } = some ey ∧
      ((∀ g, g ∈ get_active_genes ex → vec_at x g = vec_at y g) →
        get_active_nodes ey = get_active_nodes ex ∧
        get_active_genes ey = get_active_genes ex) := by
  obtain ⟨_, _, _, _, h2, _, _⟩ := reachable_context e h hsz
  obtain ⟨nx, _, ux, sx, bx, ox, cx, mx⟩ := update_active_valid e h hsz x hx fuel hf
  obtain ⟨ny, _, uy, sy, _, oy, cy, my⟩ := update_active_valid e h hsz y hy fuel hf
  refine ⟨_, _, ux, uy, ?_⟩
  intro hagree
  have hgenes := mem_active_genes e.m_n e.m_m e.m_r e.m_c nx h2 bx
  have hout : ∀ i, i < e.m_m →
      vec_at x (3 * (e.m_r * e.m_c) + i) = vec_at y (3 * (e.m_r * e.m_c) + i) := by
    intro i hi
    exact hagree _ ((hgenes _).mpr (Or.inr ⟨by omega, by omega⟩))
  have hconn : ∀ u, u ∈ nx → e.m_n ≤ u →
      vec_at x (3 * (u - e.m_n) + 1) = vec_at y (3 * (u - e.m_n) + 1) ∧
      vec_at x (3 * (u - e.m_n) + 2) = vec_at y (3 * (u - e.m_n) + 2) := by
    intro u hu hnu
    exact ⟨hagree _ ((hgenes _).mpr (Or.inl ⟨u, hu, hnu, Or.inr (Or.inl rfl)⟩)),
      hagree _ ((hgenes _).mpr (Or.inl ⟨u, hu, hnu, Or.inr (Or.inr rfl)⟩))⟩
  have hyx : ∀ v, v ∈ ny → v ∈ nx := by
    refine my (fun v => v ∈ nx) ?_ ?_
    · intro i hi
      rw [← hout i hi]
      exact ox i hi
    · intro u hu hnu _
      rw [← (hconn u hu hnu).1, ← (hconn u hu hnu).2]
      exact cx u hu hnu
  have hxy : ∀ v, v ∈ nx → v ∈ ny ∧ v ∈ nx := by
    refine mx (fun v => v ∈ ny ∧ v ∈ nx) ?_ ?_
    · intro i hi
      refine ⟨?_, ox i hi⟩
      rw [hout i hi]
      exact oy i hi
    · intro u hu hnu _
      have k := cy u hu.1 hnu
      rw [← (hconn u hu.2 hnu).1, ← (hconn u hu.2 hnu).2] at k
      exact ⟨⟨k.1, (cx u hu.2 hnu).1⟩, ⟨k.2, (cx u hu.2 hnu).2⟩⟩
  have heq : ny = nx :=
    sorted_eq_of_mem_iff ny nx sy sx (fun v => ⟨hyx v, fun hv => (hxy v hv).1⟩)
  constructor
  · exact heq
  · show active_genes e.m_n e.m_m e.m_r e.m_c ny = active_genes e.m_n e.m_m e.m_r e.m_c nx
    rw [heq]

/-! ## The reads of `update_active` and of `mutate` -/

/-- The indices `(node_id - m_n) * 3 + 1` and `(node_id - m_n) * 3 + 2`, as the machine
computes them, for a node of the grid. -/
theorem connection_index {n r c m u : Nat} (hnu : n ≤ u) (hu : u < n + r * c)
    (hU : u < UINT_RANGE) (h2 : 3 * (r * c) + m < UINT_RANGE) :
    uadd (umul (usub u n) 3) 1 = 3 * (u - n) + 1 ∧
    uadd (umul (usub u n) 3) 2 = 3 * (u - n) + 2 := by
  have e1 : usub u n = u - n := usub_eq hnu hU
  have e2 : umul (u - n) 3 = (u - n) * 3 := umul_eq (by omega)
  have e3 : uadd ((u - n) * 3) 1 = (u - n) * 3 + 1 := uadd_eq (by omega)
  have e4 : uadd ((u - n) * 3) 2 = (u - n) * 3 + 2 := uadd_eq (by omega)
  rw [e1, e2, e3, e4, Nat.mul_comm (u - n) 3]
  exact ⟨rfl, rfl⟩

/-- C37: no read out of range in the active-set and mutation code. For a chromosome `x`
accepted by `is_valid` (length `3*r*c + m` within the unsigned range), `update_active` returns
and: the reads `m_x[3*m_r*m_c + i]` are within `x`; every id that the loop meets, all of which
it stores in `m_active_nodes`, is smaller than `n + r*c`, so for a non-input id the indices
`(id - n)*3 + 1` and `(id - n)*3 + 2` are computed without overflow and are below `3*r*c`;
`m_active_genes` is not empty and each of its entries is smaller than `L = 3*r*c + m`, the
common length of `m_x`, `m_lb` and `m_ub`; so the position drawn in `mutate` is within
`m_active_genes` and the index `idx` read there is within the three vectors. -/
theorem reads_within_range {F : Type} (e : expression F) (h : reachable e)
    (hsz : 3 * e.m_r * e.m_c + e.m_m < UINT_RANGE) (x : List Nat) (hx : is_valid e x = true)
    (fuel : Nat) (hf : e.m_c + 1 ≤ fuel) :
    ∃ e1, update_active fuel { e with m_x := x } = some e1 ∧
      (∀ i, i < e.m_m → uadd (umul (umul 3 e.m_r) e.m_c) i = 3 * e.m_r * e.m_c + i ∧
        3 * e.m_r * e.m_c + i < x.length) ∧
      (∀ u, u ∈ get_active_nodes e1 → u < e.m_n + e.m_r * e.m_c ∧
        (e.m_n ≤ u →
          uadd (umul (usub u e.m_n) 3) 1 = 3 * (u - e.m_n) + 1 ∧
          uadd (umul (usub u e.m_n) 3) 2 = 3 * (u - e.m_n) + 2 ∧
          3 * (u - e.m_n) + 2 < 3 * e.m_r * e.m_c)) ∧
      get_active_genes e1 ≠ [] ∧
      (∀ g, g ∈ get_active_genes e1 → g < 3 * e.m_r * e.m_c + e.m_m) ∧
      (e1.m_x.length = 3 * e.m_r * e.m_c + e.m_m ∧
        e1.m_lb.length = 3 * e.m_r * e.m_c + e.m_m ∧
        e1.m_ub.length = 3 * e.m_r * e.m_c + e.m_m) ∧
      (uniform_int_distribution 0 (usub e1.m_active_genes.length 1) e1.m_e).1 <
        e1.m_active_genes.length ∧
      selected_gene e1 < 3 * e.m_r * e.m_c + e.m_m := by
  obtain ⟨_, a2, _⟩ := reachable_shape e h
  obtain ⟨_, _, _, _, h2, l1, l2⟩ := reachable_context e h hsz
  obtain ⟨v1, _⟩ := valid_context e h hsz x hx
  obtain ⟨nodes, _, k1, _, k3, _⟩ := update_active_valid e h hsz x hx fuel hf
  have hgenes := mem_active_genes e.m_n e.m_m e.m_r e.m_c nodes h2 k3
  have hne : active_genes e.m_n e.m_m e.m_r e.m_c nodes ≠ [] :=
    active_genes_ne_nil _ _ _ _ _ a2
  have hlt : ∀ g, g ∈ active_genes e.m_n e.m_m e.m_r e.m_c nodes →
      g < 3 * (e.m_r * e.m_c) + e.m_m := by
    intro g hg
    rcases (hgenes g).mp hg with ⟨u, hu, hnu, hcase⟩ | ⟨_, hb⟩
    · have := (k3 u hu).1
      omega
    · exact hb
  have hpos : 0 < (active_genes e.m_n e.m_m e.m_r e.m_c nodes).length :=
    List.length_pos.mpr hne
  have hd := (uniform_int_distribution_mem 0
    (usub (active_genes e.m_n e.m_m e.m_r e.m_c nodes).length 1) e.m_e (Nat.zero_le _)).2
  have hle := usub_one_le hpos
  have hdraw : (uniform_int_distribution 0
      (usub (active_genes e.m_n e.m_m e.m_r e.m_c nodes).length 1) e.m_e).1 <
      (active_genes e.m_n e.m_m e.m_r e.m_c nodes).length := by omega
  rw [Nat.mul_assoc]
  refine ⟨_, k1, ?_, ?_, hne, hlt, ⟨v1, l1, l2⟩, hdraw, hlt _ (vec_at_mem hdraw)⟩
  · intro i hi
    rw [umul3_eq (by omega), uadd_eq (by omega)]
    exact ⟨rfl, by rw [v1]; omega⟩
  · intro u hu
    refine ⟨(k3 u hu).1, fun hnu => ?_⟩
    obtain ⟨c1, c2⟩ := connection_index hnu (k3 u hu).1 (k3 u hu).2 h2
    have := (k3 u hu).1
    exact ⟨c1, c2, by omega⟩

theorem reads_within_range_witness :
    ∃ e1, update_active 3 { sample_expression with m_x := sample_chromosome } = some e1 ∧
      (∀ u, u ∈ get_active_nodes e1 → u < 1 + 2 * 2 ∧
        (1 ≤ u →
          uadd (umul (usub u 1) 3) 1 = 3 * (u - 1) + 1 ∧
          uadd (umul (usub u 1) 3) 2 = 3 * (u - 1) + 2 ∧
          3 * (u - 1) + 2 < 3 * 2 * 2)) ∧
      get_active_genes e1 ≠ [] ∧
      (∀ g, g ∈ get_active_genes e1 → g < 3 * 2 * 2 + 1) ∧
      selected_gene e1 < 3 * 2 * 2 + 1 := by
  obtain ⟨e1, k1, _, k3, k4, k5, _, _, k8⟩ :=
    reads_within_range sample_expression sample_reachable sample_length_fits
      sample_chromosome sample_chromosome_valid 3 (by decide)
  exact ⟨e1, k1, k3, k4, k5, k8⟩

/-! ## `set(get())` -/

/-- C38: `set(get())` is a no-op in every reachable state (shape without unsigned overflow,
`c + 1` rounds of `update_active`): the call returns, it does not throw, and it leaves the
state it found; the chromosome, the active nodes and the active genes after the call are those
before it. -/
theorem set_get_is_no_op {F : Type} (e : expression F) (h : reachable e)
    (hno : no_overflow e.m_n e.m_m e.m_r e.m_c) (fuel : Nat) (hf : e.m_c + 1 ≤ fuel) :
    set fuel e (get e) = outcome.ok e ∧
    ∀ e1, set fuel e (get e) = outcome.ok e1 →
      get e1 = get e ∧ get_active_nodes e1 = get_active_nodes e ∧
      get_active_genes e1 = get_active_genes e := by
  have hv := reachable_valid e h hno
  obtain ⟨fuel0, f1, f2⟩ := reachable_fresh e h
  obtain ⟨nodes, hn, _⟩ := update_active_valid e h hno.2 e.m_x hv fuel hf
  have hnodes : nodes = e.m_active_nodes := active_nodes_det _ _ _ _ _ _ _ _ _ hn f1
  have hupd : update_active fuel { e with m_x := e.m_x } = some e := by
    have hu := update_active_of_nodes fuel { e with m_x := e.m_x } nodes hn
    rw [hu, hnodes]
    show some ({ e with
      m_active_nodes := e.m_active_nodes
      m_active_genes := active_genes e.m_n e.m_m e.m_r e.m_c e.m_active_nodes } :
        expression F) = some e
    rw [← f2]
  have hset : set fuel e (get e) = outcome.ok e := by
    unfold set get
    rw [hv, hupd]
    rfl
  refine ⟨hset, ?_⟩
  intro e1 h1
  rw [hset] at h1
  injection h1 with h1
  subst h1
  exact ⟨rfl, rfl, rfl⟩

theorem set_get_is_no_op_witness :
    set 3 sample_expression (get sample_expression) = outcome.ok sample_expression ∧
    ∀ e1, set 3 sample_expression (get sample_expression) = outcome.ok e1 →
      get e1 = get sample_expression ∧
      get_active_nodes e1 = get_active_nodes sample_expression ∧
      get_active_genes e1 = get_active_genes sample_expression :=
  set_get_is_no_op sample_expression sample_reachable sample_no_overflow 3 (by decide)

/-! ## Inputs among the active nodes -/

/-- C39: for every chromosome `x` accepted by `is_valid` (length `3*r*c + m` within the unsigned
range), the active nodes that `update_active` stores contain an input node, an id smaller
than `n`: every active node, and so the node of every output gene, depends through a chain of
connections on an input node that is active. -/
theorem active_nodes_hold_an_input {F : Type} (e : expression F) (h : reachable e)
    (hsz : 3 * e.m_r * e.m_c + e.m_m < UINT_RANGE) (x : List Nat) (hx : is_valid e x = true)
    (fuel : Nat) (hf : e.m_c + 1 ≤ fuel) :
    ∃ e1, update_active fuel { e with m_x := x } = some e1 ∧
      (∃ v, v ∈ get_active_nodes e1 ∧ v < e.m_n) ∧
      (∀ u, u ∈ get_active_nodes e1 →
        ∃ v, v < e.m_n ∧ v ∈ get_active_nodes e1 ∧ depends_on e.m_n x u v) ∧
      ∀ i, i < e.m_m →
        ∃ v, v < e.m_n ∧ v ∈ get_active_nodes e1 ∧
          depends_on e.m_n x (vec_at x (3 * e.m_r * e.m_c + i)) v := by
  obtain ⟨_, a2, _⟩ := reachable_shape e h
  obtain ⟨nodes, _, k1, _, k3, k4, k5, _⟩ := update_active_valid e h hsz x hx fuel hf
  have hbelow := valid_connection_below e h hsz x hx
  have hchain : ∀ b u, u < b → u ∈ nodes →
      ∃ v, v < e.m_n ∧ v ∈ nodes ∧ depends_on e.m_n x u v := by
    intro b
    induction b with
    | zero => intro u hu; omega
    | succ b ih =>
      intro u hu hmem
      by_cases hnu : e.m_n ≤ u
      · have hlt := (hbelow u hnu (k3 u hmem).1).1
        obtain ⟨v, hv1, hv2, hv3⟩ := ih _ (by omega) (k5 u hmem hnu).1
        exact ⟨v, hv1, hv2, depends_on.first u v hnu hv3⟩
      · exact ⟨u, by omega, hmem, depends_on.self u⟩
  have hout : ∀ i, i < e.m_m →
      ∃ v, v < e.m_n ∧ v ∈ nodes ∧ depends_on e.m_n x (vec_at x (3 * (e.m_r * e.m_c) + i)) v :=
    fun i hi => hchain _ _ (Nat.lt_succ_self _) (k4 i hi)
  rw [Nat.mul_assoc]
  refine ⟨_, k1, ?_, fun u hu => hchain _ u (Nat.lt_succ_self u) hu, hout⟩
  obtain ⟨v, hv1, hv2, _⟩ := hout 0 a2
  exact ⟨v, hv2, hv1⟩

theorem active_nodes_hold_an_input_witness :
    ∃ e1, update_active 3 { sample_expression with m_x := sample_chromosome } = some e1 ∧
      (∃ v, v ∈ get_active_nodes e1 ∧ v < 1) ∧
      ∀ i, i < 1 →
        ∃ v, v < 1 ∧ v ∈ get_active_nodes e1 ∧
          depends_on 1 sample_chromosome (vec_at sample_chromosome (3 * 2 * 2 + i)) v := by
  obtain ⟨e1, k1, k2, _, k4⟩ :=
    active_nodes_hold_an_input sample_expression sample_reachable sample_length_fits
      sample_chromosome sample_chromosome_valid 3 (by decide)
  exact ⟨e1, k1, k2, k4⟩

theorem sample_variant_valid : is_valid sample_expression sample_variant = true := by decide

theorem sample_update :
    update_active 3 { sample_expression with m_x := sample_chromosome } =
      some { sample_expression with
        m_x := sample_chromosome
        m_active_nodes := [0, 1, 3]
        m_active_genes := [0, 1, 2, 6, 7, 8, 12] } := rfl

theorem inactive_genes_do_not_matter_witness :
    ∃ ex ey, update_active 3 { sample_expression with m_x := sample_chromosome } = some ex ∧
      update_active 3 { sample_expression with m_x := sample_variant } = some ey ∧
      get_active_nodes ey = get_active_nodes ex ∧
      get_active_genes ey = get_active_genes ex := by
  obtain ⟨ex, ey, h1, h2, h3⟩ :=
    inactive_genes_do_not_matter sample_expression sample_reachable sample_length_fits
      sample_chromosome sample_variant sample_chromosome_valid sample_variant_valid 3
      (by decide)
  refine ⟨ex, ey, h1, h2, h3 ?_⟩
  have hex := Option.some.inj (h1.symm.trans sample_update)
  rw [hex]
  decide

/-! ## The printer of mul at one -/

/-- C40, as stated, fails at `s = "1"`: the test `s1 == s2` comes before the tests for `"1"`
and `print_my_mul("1", "1")` is `"1^2"`, not `"1"`. -/
theorem print_my_mul_one_one :
    print_my_mul "1" "1" = "1^2" ∧
    ¬ (print_my_mul "1" "1" = "1" ∧ print_my_mul "1" "1" = "1") := by
  decide

/-- C40, amended: the printer of mul treats `"1"` as the identity for every symbol string `s`
other than `"1"`: `print_my_mul(s, "1") = s` and `print_my_mul("1", s) = s`. -/
theorem print_my_mul_one (s : String) (hs : s ≠ "1") :
    print_my_mul s "1" = s ∧ print_my_mul "1" s = s := by
  have hs1 : ¬ "1" = s := fun h => hs h.symm
  have h01 : ¬ ("1" : String) = "0" := by decide
  unfold print_my_mul
  by_cases h0 : s = "0"
  · subst h0
    exact ⟨if_pos (Or.inl rfl), if_pos (Or.inr rfl)⟩
  · constructor
    · rw [if_neg (fun h => h.elim h0 h01), if_neg hs, if_neg hs, if_pos rfl]
    · rw [if_neg (fun h => h.elim h01 h0), if_neg hs1, if_pos rfl]

theorem print_my_mul_one_witness :
    print_my_mul "x" "1" = "x" ∧ print_my_mul "1" "x" = "x" :=
  print_my_mul_one "x" (by decide)

/-! ## The loss value of `d_loss` -/

theorem ann_record_visit_fst {K : Type} [Field K] (e : expression_ann K)
    (phi : String → K → K) (s : (Nat → K) × (Nat → K)) (u : Nat) :
    (ann_record_visit e phi s u).1 = ann_visit e phi s.1 u := by
  unfold ann_record_visit ann_visit
  split
  · rfl
  · rfl

/-- The values that the recording pass leaves are those of the forward pass of `evaluate`. -/
theorem ann_record_fst {K : Type} [Field K] (e : expression_ann K) (phi : String → K → K)
    (L : List Nat) (s : (Nat → K) × (Nat → K)) :
    (L.foldl (ann_record_visit e phi) s).1 = L.foldl (ann_visit e phi) s.1 := by
  induction L generalizing s with
  | nil => rfl
  | cons a t ih => rw [List.foldl_cons, List.foldl_cons, ih, ann_record_visit_fst]

theorem ann_record_visit_snd_other {K : Type} [Field K] (e : expression_ann K)
    (phi : String → K → K) (s : (Nat → K) × (Nat → K)) (u w : Nat) (h : w ≠ u) :
    (ann_record_visit e phi s u).2 w = s.2 w := by
  unfold ann_record_visit
  split
  · rfl
  · exact Function.update_noteq h _ _

theorem ann_record_snd_untouched {K : Type} [Field K] (e : expression_ann K)
    (phi : String → K → K) (L : List Nat) (s : (Nat → K) × (Nat → K)) (w : Nat)
    (h : w ∉ L) : (L.foldl (ann_record_visit e phi) s).2 w = s.2 w := by
  induction L generalizing s with
  | nil => rfl
  | cons a t ih =>
    rw [List.foldl_cons, ih _ (fun hm => h (List.mem_cons_of_mem a hm))]
    exact ann_record_visit_snd_other e phi s a w
      (fun hwa => h (hwa ▸ List.mem_cons_self a t))

theorem ann_pre_activation_congr {K : Type} [Field K] (e : expression_ann K)
    (b1 b2 : Nat → K) (u : Nat) (h : ∀ s ∈ ann_sources e u, b1 s = b2 s) :
    ann_pre_activation e b1 u = ann_pre_activation e b2 u := by
  unfold ann_pre_activation
  have hl : (List.range (ann_arity e u)).map
      (fun i => ann_weight e u i * b1 (ann_connection e u i)) =
      (List.range (ann_arity e u)).map
      (fun i => ann_weight e u i * b2 (ann_connection e u i)) := by
    apply List.map_congr_left
    intro i hi
    rw [h (ann_connection e u i)
      ((mem_ann_sources e u _).mpr ⟨i, List.mem_range.mp hi, rfl⟩)]
  rw [hl]

/-- After the recording pass over ascending ids whose sources have smaller ids, the recorded
`z_u` of every visited non-input node is its pre-activation in the recorded values. -/
theorem ann_record_pre_activation {K : Type} [Field K] (e : expression_ann K)
    (phi : String → K → K) (L : List Nat) (hL : L.Sorted (fun a b => a < b))
    (hs : ∀ u ∈ L, e.m_n ≤ u → ∀ s ∈ ann_sources e u, s < u) (s : (Nat → K) × (Nat → K)) :
    ∀ u ∈ L, e.m_n ≤ u →
      (L.foldl (ann_record_visit e phi) s).2 u =
        ann_pre_activation e (L.foldl (ann_record_visit e phi) s).1 u := by
  induction L generalizing s with
  | nil => intro u hu; cases hu
  | cons a t ih =>
    have hat : ∀ b ∈ t, a < b := (List.sorted_cons.mp hL).1
    have ht : t.Sorted (fun a b => a < b) := (List.sorted_cons.mp hL).2
    have hnot : ∀ w, w ≤ a → w ∉ t := by
      intro w hwa hwt
      have := hat w hwt
      omega
    intro u hu hnu
    rw [List.foldl_cons]
    rcases List.mem_cons.mp hu with rfl | hut
    · rw [ann_record_snd_untouched e phi t _ u (hnot u (Nat.le_refl u)), ann_record_fst,
        ann_record_visit_fst]
      have hz : (ann_record_visit e phi s u).2 u = ann_pre_activation e s.1 u := by
        unfold ann_record_visit
        rw [if_neg (by omega)]
        exact Function.update_same _ _ _
      rw [hz]
      apply ann_pre_activation_congr
      intro w hw
      have hlt := hs u (List.mem_cons_self u t) hnu w hw
      rw [ann_pass_untouched e phi t _ w (hnot w (by omega)),
        ann_visit_other e phi s.1 u w (by omega)]
    · exact ih ht (fun w hw => hs w (List.mem_cons_of_mem a hw)) _ u hut hnu

/-- C31: the loss value of `d_loss` (modelled from the specification). For every
`expression_ann`, sample `(input, label)` and loss kind, `MSE` or `CE`, the value that `d_loss`
writes equals the value that `loss` returns on the same sample and kind, whatever the gradient
vectors handed to `d_loss`: the forward pass of `d_loss` records the node values of `evaluate`;
and in a well-formed network the recorded pair of every active non-input node `u` is
`z_u = b_u + sum over i of w_{u,i} * v[s_{u,i}]` and `v_u = phi(z_u)`. -/
theorem d_loss_value_is_loss {K : Type} [Field K] (e : expression_ann K)
    (phi dphi : String → K → K) (exp log : K → K) (kind : loss_type)
    (grad_w grad_b input label : List K) :
    (ann_d_loss e phi dphi exp log kind grad_w grad_b input label).1 =
      ann_loss e phi exp log kind input label ∧
    (ann_forward_record e phi input).1 = ann_forward e phi input ∧
    (ann_well_formed e → ∀ u ∈ e.m_active_nodes, e.m_n ≤ u →
      (ann_forward_record e phi input).2 u =
        ann_pre_activation e (ann_forward_record e phi input).1 u ∧
      (ann_forward_record e phi input).1 u =
        phi (ann_kernel e u) ((ann_forward_record e phi input).2 u)) := by
  have hv : (ann_forward_record e phi input).1 = ann_forward e phi input := by
    unfold ann_forward_record ann_forward
    exact ann_record_fst e phi _ _
  refine ⟨?_, hv, ?_⟩
  · unfold ann_d_loss ann_loss ann_evaluate
    simp only [hv]
  · intro hw u hu hnu
    obtain ⟨hn, -, -, -, -, -, -, -, hval, hact, -, -⟩ := hw
    obtain ⟨hsorted, hlt, -, -⟩ := ann_active_nodes_spec e hval hn
    rw [← hact] at hsorted hlt
    have hsrc : ∀ u ∈ e.m_active_nodes, e.m_n ≤ u → ∀ s ∈ ann_sources e u, s < u := by
      intro u hu hnu s hs
      have h1 := ann_source_lt e hval hn u hnu (hlt u hu) s hs
      have h2 := node_column_le e.m_n e.m_r u hnu
      omega
    have hz := ann_record_pre_activation e phi e.m_active_nodes hsorted hsrc
      (fun u => input.getD u 0, fun _ => 0) u hu hnu
    have hz1 : (ann_forward_record e phi input).2 u =
        ann_pre_activation e (ann_forward_record e phi input).1 u := hz
    refine ⟨hz1, ?_⟩
    rw [hz1, hv]
    exact ann_pass_value e phi e.m_active_nodes hsorted hsrc _ u hu hnu

theorem d_loss_value_is_loss_witness :
    (ann_d_loss (scenario_ann ℚ) (fun _ z => z / 2) (fun _ _ => 1 / 2) (fun z => z)
        (fun z => z) loss_type.MSE [0, 0] [0, 0] [0.23] [1]).1 =
      ann_loss (scenario_ann ℚ) (fun _ z => z / 2) (fun z => z) (fun z => z)
        loss_type.MSE [0.23] [1] ∧
    ∀ u ∈ (scenario_ann ℚ).m_active_nodes, (scenario_ann ℚ).m_n ≤ u →
      (ann_forward_record (scenario_ann ℚ) (fun _ z => z / 2) [0.23]).2 u =
        ann_pre_activation (scenario_ann ℚ)
          (ann_forward_record (scenario_ann ℚ) (fun _ z => z / 2) [0.23]).1 u ∧
      (ann_forward_record (scenario_ann ℚ) (fun _ z => z / 2) [0.23]).1 u =
        (fun (_ : String) (z : ℚ) => z / 2) (ann_kernel (scenario_ann ℚ) u)
          ((ann_forward_record (scenario_ann ℚ) (fun _ z => z / 2) [0.23]).2 u) := by
  have key := d_loss_value_is_loss (scenario_ann ℚ) (fun _ z => z / 2) (fun _ _ => 1 / 2)
    (fun z => z) (fun z => z) loss_type.MSE [0, 0] [0, 0] [0.23] [1]
  exact ⟨key.1, key.2.2 (by decide)⟩

/-! ## The gradients of `d_loss` and the derivatives of the loss -/

theorem ann_tangent_visit_other {K : Type} [Field K] (e : expression_ann K)
    (dphi : String → K → K) (v z : Nat → K) (dw : Nat → Nat → K) (db : Nat → K)
    (d : Nat → K) (u x : Nat) (h : x ≠ u) :
    ann_tangent_visit e dphi v z dw db d u x = d x := by
  unfold ann_tangent_visit
  split
  · rfl
  · exact Function.update_noteq h _ _

theorem ann_tangent_visit_input {K : Type} [Field K] (e : expression_ann K)
    (dphi : String → K → K) (v z : Nat → K) (dw : Nat → Nat → K) (db : Nat → K)
    (d : Nat → K) (u x : Nat) (h : x < e.m_n) :
    ann_tangent_visit e dphi v z dw db d u x = d x := by
  unfold ann_tangent_visit
  split
  · rfl
  · exact Function.update_noteq (by omega) _ _

theorem ann_tangent_untouched {K : Type} [Field K] (e : expression_ann K)
    (dphi : String → K → K) (v z : Nat → K) (dw : Nat → Nat → K) (db : Nat → K)
    (L : List Nat) (d : Nat → K) (x : Nat) (h : x ∉ L) :
    L.foldl (ann_tangent_visit e dphi v z dw db) d x = d x := by
  induction L generalizing d with
  | nil => rfl
  | cons a t ih =>
    rw [List.foldl_cons, ih _ (fun hm => h (List.mem_cons_of_mem a hm))]
    exact ann_tangent_visit_other e dphi v z dw db d a x
      (fun hxa => h (hxa ▸ List.mem_cons_self a t))

theorem ann_tangent_input {K : Type} [Field K] (e : expression_ann K)
    (dphi : String → K → K) (v z : Nat → K) (dw : Nat → Nat → K) (db : Nat → K)
    (L : List Nat) (d : Nat → K) (x : Nat) (h : x < e.m_n) :
    L.foldl (ann_tangent_visit e dphi v z dw db) d x = d x := by
  induction L generalizing d with
  | nil => rfl
  | cons a t ih =>
    rw [List.foldl_cons, ih]
    exact ann_tangent_visit_input e dphi v z dw db d a x h

/-- After the pass over ascending ids whose sources have smaller ids, the variation of every
visited non-input node is the one computed from the final variations of its sources. -/
theorem ann_tangent_value {K : Type} [Field K] (e : expression_ann K)
    (dphi : String → K → K) (v z : Nat → K) (dw : Nat → Nat → K) (db : Nat → K)
    (L : List Nat) (hL : L.Sorted (fun a b => a < b))
    (hs : ∀ u ∈ L, e.m_n ≤ u → ∀ s ∈ ann_sources e u, s < u) (d : Nat → K) :
    ∀ u ∈ L, e.m_n ≤ u →
      L.foldl (ann_tangent_visit e dphi v z dw db) d u =
        dphi (ann_kernel e u) (z u) *
          (db u + ((List.range (ann_arity e u)).map
            (fun i => dw u i * v (ann_connection e u i) +
              ann_weight e u i *
                L.foldl (ann_tangent_visit e dphi v z dw db) d (ann_connection e u i))).sum) := by
  induction L generalizing d with
  | nil => intro u hu; cases hu
  | cons a t ih =>
    have hat : ∀ b ∈ t, a < b := (List.sorted_cons.mp hL).1
    have ht : t.Sorted (fun a b => a < b) := (List.sorted_cons.mp hL).2
    have hnot : ∀ x, x ≤ a → x ∉ t := by
      intro x hxa hxt
      have := hat x hxt
      omega
    intro u hu hnu
    rw [List.foldl_cons]
    rcases List.mem_cons.mp hu with rfl | hut
    · rw [ann_tangent_untouched e dphi v z dw db t _ u (hnot u (Nat.le_refl u))]
      have hsame : ann_tangent_visit e dphi v z dw db d u u =
          dphi (ann_kernel e u) (z u) *
            (db u + ((List.range (ann_arity e u)).map
              (fun i => dw u i * v (ann_connection e u i) +
                ann_weight e u i * d (ann_connection e u i))).sum) := by
        unfold ann_tangent_visit
        rw [if_neg (by omega)]
        exact Function.update_same _ _ _
      rw [hsame]
      congr 2
      apply congrArg
      apply List.map_congr_left
      intro i hi
      have hlt := hs u (List.mem_cons_self u t) hnu (ann_connection e u i)
        ((mem_ann_sources e u _).mpr ⟨i, List.mem_range.mp hi, rfl⟩)
      rw [ann_tangent_untouched e dphi v z dw db t _ _ (hnot _ (by omega)),
        ann_tangent_visit_other e dphi v z dw db d u _ (by omega)]
    · exact ih ht (fun w hw => hs w (List.mem_cons_of_mem a hw)) _ u hut hnu

theorem hasDerivAt_list_sum {ι : Type} (l : List ι) (f : ι → ℝ → ℝ) (f1 : ι → ℝ) (t0 : ℝ)
    (h : ∀ j ∈ l, HasDerivAt (f j) (f1 j) t0) :
    HasDerivAt (fun t => (l.map (fun j => f j t)).sum) (l.map f1).sum t0 := by
  induction l with
  | nil => simpa using hasDerivAt_const t0 (0 : ℝ)
  | cons a t ih =>
    simp only [List.map_cons, List.sum_cons]
    exact (h a (List.mem_cons_self _ _)).add (ih (fun j hj => h j (List.mem_cons_of_mem _ hj)))

theorem ann_set_parameters_self {K : Type} (e : expression_ann K) :
    ann_set_parameters e e.m_weights e.m_biases = e := rfl

/-- The values of the recording pass are those of the forward pass. -/
theorem ann_forward_record_fst {K : Type} [Field K] (e : expression_ann K)
    (phi : String → K → K) (input : List K) :
    (ann_forward_record e phi input).1 = ann_forward e phi input := by
  unfold ann_forward_record ann_forward
  exact ann_record_fst e phi _ _

/-- The value of every node is differentiable along a differentiable change of the weights
and biases, wherever the activation of every active node is differentiable at the
pre-activation of the node; the derivative is the variation that `ann_tangent` propagates. -/
theorem ann_forward_hasDerivAt (e : expression_ann ℝ) (phi dphi : String → ℝ → ℝ)
    (input : List ℝ) (W B : ℝ → List ℝ) (dW dB : Nat → ℝ) (t0 : ℝ)
    (hW : ∀ k, HasDerivAt (fun t => (W t).getD k 0) (dW k) t0)
    (hB : ∀ k, HasDerivAt (fun t => (B t).getD k 0) (dB k) t0)
    (hW0 : W t0 = e.m_weights) (hB0 : B t0 = e.m_biases)
    (hL : e.m_active_nodes.Sorted (fun a b => a < b))
    (hs : ∀ u ∈ e.m_active_nodes, e.m_n ≤ u → ∀ s ∈ ann_sources e u, s < u)
    (hphi : ∀ u ∈ e.m_active_nodes, e.m_n ≤ u →
      HasDerivAt (phi (ann_kernel e u))
        (dphi (ann_kernel e u) ((ann_forward_record e phi input).2 u))
        ((ann_forward_record e phi input).2 u))
    (u : Nat) :
    HasDerivAt (fun t => ann_forward (ann_set_parameters e (W t) (B t)) phi input u)
      (ann_tangent e dphi (ann_forward_record e phi input).1 (ann_forward_record e phi input).2
        (fun u i => dW (ann_weight_index e u i)) (fun u => dB (u - e.m_n)) u) t0 := by
  induction u using Nat.strong_induction_on with
  | _ u ih =>
    by_cases hu : u ∈ e.m_active_nodes ∧ e.m_n ≤ u
    · obtain ⟨hua, hun⟩ := hu
      have hval : ∀ t, ann_forward (ann_set_parameters e (W t) (B t)) phi input u =
          phi (ann_kernel e u) ((B t).getD (u - e.m_n) 0 +
            ((List.range (ann_arity e u)).map (fun i => (W t).getD (ann_weight_index e u i) 0 *
              ann_forward (ann_set_parameters e (W t) (B t)) phi input
                (ann_connection e u i))).sum) := fun t =>
        ann_pass_value (ann_set_parameters e (W t) (B t)) phi e.m_active_nodes hL hs _ u hua hun
      have hz : (ann_forward_record e phi input).2 u =
          (B t0).getD (u - e.m_n) 0 +
            ((List.range (ann_arity e u)).map (fun i => (W t0).getD (ann_weight_index e u i) 0 *
              ann_forward (ann_set_parameters e (W t0) (B t0)) phi input
                (ann_connection e u i))).sum := by
        rw [hW0, hB0, ann_set_parameters_self, ← ann_forward_record_fst]
        exact ann_record_pre_activation e phi e.m_active_nodes hL hs _ u hua hun
      have hinner : HasDerivAt (fun t => (B t).getD (u - e.m_n) 0 +
            ((List.range (ann_arity e u)).map (fun i => (W t).getD (ann_weight_index e u i) 0 *
              ann_forward (ann_set_parameters e (W t) (B t)) phi input
                (ann_connection e u i))).sum)
          (dB (u - e.m_n) + ((List.range (ann_arity e u)).map
            (fun i => dW (ann_weight_index e u i) *
                (ann_forward_record e phi input).1 (ann_connection e u i) +
              ann_weight e u i *
                ann_tangent e dphi (ann_forward_record e phi input).1
                  (ann_forward_record e phi input).2
                  (fun u i => dW (ann_weight_index e u i)) (fun u => dB (u - e.m_n))
                  (ann_connection e u i))).sum) t0 := by
        refine (hB _).add (hasDerivAt_list_sum _ _ _ t0 ?_)
        intro i hi
        have hlt : ann_connection e u i < u :=
          hs u hua hun _ ((mem_ann_sources e u _).mpr ⟨i, List.mem_range.mp hi, rfl⟩)
        have hm := (hW (ann_weight_index e u i)).mul (ih _ hlt)
        have e1 : ann_forward (ann_set_parameters e (W t0) (B t0)) phi input
            (ann_connection e u i) = (ann_forward_record e phi input).1 (ann_connection e u i) := by
          rw [hW0, hB0, ann_set_parameters_self, ann_forward_record_fst]
        have e2 : (W t0).getD (ann_weight_index e u i) 0 = ann_weight e u i := by
          rw [hW0]; rfl
        rw [e1, e2] at hm
        exact hm
      have hcomp := HasDerivAt.comp t0 (hz ▸ hphi u hua hun) hinner
      have hfun : (fun t => ann_forward (ann_set_parameters e (W t) (B t)) phi input u) =
          (phi (ann_kernel e u)) ∘ (fun t => (B t).getD (u - e.m_n) 0 +
            ((List.range (ann_arity e u)).map (fun i => (W t).getD (ann_weight_index e u i) 0 *
              ann_forward (ann_set_parameters e (W t) (B t)) phi input
                (ann_connection e u i))).sum) := funext hval
      rw [hfun]
      have htan := ann_tangent_value e dphi (ann_forward_record e phi input).1
        (ann_forward_record e phi input).2 (fun u i => dW (ann_weight_index e u i))
        (fun u => dB (u - e.m_n)) e.m_active_nodes hL hs (fun _ => 0) u hua hun
      unfold ann_tangent
      rw [htan]
      rw [← hz] at hcomp
      exact hcomp
    · have hconst : (fun t => ann_forward (ann_set_parameters e (W t) (B t)) phi input u) =
          fun _ => input.getD u 0 := by
        funext t
        by_cases hua : u ∈ e.m_active_nodes
        · have hlt : u < e.m_n := by
            by_contra hge
            exact hu ⟨hua, by omega⟩
          exact ann_pass_input (ann_set_parameters e (W t) (B t)) phi _ _ u hlt
        · exact ann_pass_untouched (ann_set_parameters e (W t) (B t)) phi _ _ u hua
      have hzero : ann_tangent e dphi (ann_forward_record e phi input).1
          (ann_forward_record e phi input).2
          (fun u i => dW (ann_weight_index e u i)) (fun u => dB (u - e.m_n)) u = 0 := by
        unfold ann_tangent
        by_cases hua : u ∈ e.m_active_nodes
        · have hlt : u < e.m_n := by
            by_contra hge
            exact hu ⟨hua, by omega⟩
          exact ann_tangent_input e dphi _ _ _ _ _ _ u hlt
        · exact ann_tangent_untouched e dphi _ _ _ _ _ _ u hua
      rw [hconst, hzero]
      exact hasDerivAt_const t0 _

theorem getD_map_range {α : Type} (f : Nat → α) (d : α) (m j : Nat) (h : j < m) :
    ((List.range m).map f).getD j d = f j := by
  rw [List.getD_eq_getElem _ _ (by simp; exact h)]
  simp

theorem sum_map_div {K : Type} [Field K] {ι : Type} (l : List ι) (f : ι → K) (c : K) :
    (l.map f).sum / c = (l.map (fun j => f j / c)).sum := by
  induction l with
  | nil => simp
  | cons a t ih => rw [List.map_cons, List.map_cons, List.sum_cons, List.sum_cons, add_div, ih]

/-- The derivative of the `MSE` loss of one sample along differentiable outputs: the sum over
the outputs of the output error `2 (yhat_k - y_k) / m` times the derivative of the output. -/
theorem sample_loss_mse_hasDerivAt (exp log : ℝ → ℝ) (m : Nat) (Y : Nat → ℝ → ℝ)
    (dY : Nat → ℝ) (label : List ℝ) (t0 : ℝ)
    (hY : ∀ k, k < m → HasDerivAt (Y k) (dY k) t0) :
    HasDerivAt
      (fun t => sample_loss exp log loss_type.MSE m ((List.range m).map (fun k => Y k t)) label)
      ((List.range m).map (fun k =>
        output_error exp loss_type.MSE m ((List.range m).map (fun k => Y k t0)) label k *
          dY k)).sum t0 := by
  have hfun : (fun t => sample_loss exp log loss_type.MSE m
      ((List.range m).map (fun k => Y k t)) label) =
      fun t => ((List.range m).map (fun j => (Y j t - label.getD j 0) ^ 2)).sum / (m : ℝ) := by
    funext t
    unfold sample_loss
    simp only []
    congr 2
    apply List.map_congr_left
    intro j hj
    rw [getD_map_range _ _ _ _ (List.mem_range.mp hj)]
  have hder : ((List.range m).map (fun k =>
      output_error exp loss_type.MSE m ((List.range m).map (fun k => Y k t0)) label k *
        dY k)).sum =
      ((List.range m).map
        (fun j => (2 : ℕ) * (Y j t0 - label.getD j 0) ^ (2 - 1) * dY j)).sum / (m : ℝ) := by
    rw [sum_map_div]
    congr 1
    apply List.map_congr_left
    intro j hj
    unfold output_error
    simp only []
    rw [getD_map_range _ _ _ _ (List.mem_range.mp hj)]
    simp only [Nat.add_one_sub_one, pow_one, Nat.cast_ofNat]
    ring
  rw [hfun, hder]
  refine (hasDerivAt_list_sum _ _ _ t0 ?_).div_const _
  intro j hj
  exact ((hY j (List.mem_range.mp hj)).sub_const _).pow 2

theorem sum_map_sub_mul {ι : Type} (l : List ι) (p y d : ι → ℝ) :
    (l.map (fun k => (p k - y k) * d k)).sum =
      (l.map (fun k => p k * d k)).sum - (l.map (fun k => y k * d k)).sum := by
  induction l with
  | nil => simp
  | cons a t ih =>
    simp only [List.map_cons, List.sum_cons]
    rw [ih]
    ring

theorem sum_map_mul_sub {ι : Type} (l : List ι) (y d : ι → ℝ) (c : ℝ) :
    (l.map (fun j => y j * (d j - c))).sum =
      (l.map (fun j => y j * d j)).sum - (l.map y).sum * c := by
  induction l with
  | nil => simp
  | cons a t ih =>
    simp only [List.map_cons, List.sum_cons]
    rw [ih]
    ring

/-- The derivative of the cross-entropy loss of one sample along differentiable outputs, for a
label whose entries add up to `1`: the sum over the outputs of the output error
`softmax(yhat)_k - y_k` times the derivative of the output. -/
theorem sample_loss_ce_hasDerivAt (m : Nat) (Y : Nat → ℝ → ℝ)
    (dY : Nat → ℝ) (label : List ℝ) (t0 : ℝ)
    (hY : ∀ k, k < m → HasDerivAt (Y k) (dY k) t0)
    (hlabel : ((List.range m).map (fun j => label.getD j 0)).sum = 1) :
    HasDerivAt
      (fun t => sample_loss Real.exp Real.log loss_type.CE m
        ((List.range m).map (fun k => Y k t)) label)
      ((List.range m).map (fun k =>
        output_error Real.exp loss_type.CE m ((List.range m).map (fun k => Y k t0)) label k *
          dY k)).sum t0 := by
  by_cases hm : m = 0
  · subst hm
    simp [sample_loss]
    exact hasDerivAt_const t0 _
  have hS : ∀ t, 0 < ((List.range m).map (fun i => Real.exp (Y i t))).sum := by
    intro t
    apply List.sum_pos
    · intro x hx
      rw [List.mem_map] at hx
      obtain ⟨i, -, rfl⟩ := hx
      exact Real.exp_pos _
    · simp [hm]
  have hfun : (fun t => sample_loss Real.exp Real.log loss_type.CE m
      ((List.range m).map (fun k => Y k t)) label) =
      fun t => -((List.range m).map (fun j => label.getD j 0 *
        (Y j t - Real.log ((List.range m).map (fun i => Real.exp (Y i t))).sum))).sum := by
    funext t
    unfold sample_loss softmax
    simp only []
    congr 2
    apply List.map_congr_left
    intro j hj
    rw [getD_map_range _ _ _ _ (List.mem_range.mp hj), List.map_map,
      Real.log_div (Real.exp_pos _).ne' (by exact (hS t).ne'), Real.log_exp]
    rfl
  have hSd : HasDerivAt (fun t => ((List.range m).map (fun i => Real.exp (Y i t))).sum)
      ((List.range m).map (fun i => Real.exp (Y i t0) * dY i)).sum t0 :=
    hasDerivAt_list_sum _ _ _ t0 (fun i hi => (hY i (List.mem_range.mp hi)).exp)
  have hlog := hSd.log (hS t0).ne'
  have hmain : HasDerivAt (fun t => -((List.range m).map (fun j => label.getD j 0 *
        (Y j t - Real.log ((List.range m).map (fun i => Real.exp (Y i t))).sum))).sum)
      (-((List.range m).map (fun j => label.getD j 0 *
        (dY j - ((List.range m).map (fun i => Real.exp (Y i t0) * dY i)).sum /
          ((List.range m).map (fun i => Real.exp (Y i t0))).sum))).sum) t0 := by
    refine (hasDerivAt_list_sum _ _ _ t0 ?_).neg
    intro j hj
    exact ((hY j (List.mem_range.mp hj)).sub hlog).const_mul _
  rw [hfun]
  refine hmain.congr_deriv ?_
  have herr : (List.range m).map (fun k =>
      output_error Real.exp loss_type.CE m ((List.range m).map (fun k => Y k t0)) label k *
        dY k) =
      (List.range m).map (fun k =>
        (Real.exp (Y k t0) / ((List.range m).map (fun i => Real.exp (Y i t0))).sum -
          label.getD k 0) * dY k) := by
    apply List.map_congr_left
    intro k hk
    unfold output_error softmax
    simp only []
    rw [getD_map_range _ _ _ _ (List.mem_range.mp hk), List.map_map]
    rfl
  rw [herr, sum_map_sub_mul]
  have h1 : ((List.range m).map (fun j => label.getD j 0 *
        (dY j - ((List.range m).map (fun i => Real.exp (Y i t0) * dY i)).sum /
          ((List.range m).map (fun i => Real.exp (Y i t0))).sum))).sum =
      ((List.range m).map (fun j => label.getD j 0 * dY j)).sum -
        ((List.range m).map (fun j => label.getD j 0)).sum *
          (((List.range m).map (fun i => Real.exp (Y i t0) * dY i)).sum /
            ((List.range m).map (fun i => Real.exp (Y i t0))).sum) :=
    sum_map_mul_sub _ _ _ _
  have h2 : ((List.range m).map (fun k =>
        Real.exp (Y k t0) / ((List.range m).map (fun i => Real.exp (Y i t0))).sum * dY k)).sum =
      ((List.range m).map (fun i => Real.exp (Y i t0) * dY i)).sum /
        ((List.range m).map (fun i => Real.exp (Y i t0))).sum := by
    rw [sum_map_div]
    congr 1
    apply List.map_congr_left
    intro j _
    ring
  rw [h1, h2, hlabel]
  ring

theorem sum_map_update_of_not_mem {K : Type} [Field K] (A : List Nat) (d D : Nat → K) (c : Nat)
    (y : K) (hc : c ∉ A) :
    (A.map (fun x => Function.update d c y x * D x)).sum = (A.map (fun x => d x * D x)).sum := by
  congr 1
  apply List.map_congr_left
  intro x hx
  rw [Function.update_noteq (fun h : x = c => hc (h ▸ hx))]

/-- The effect of one update of an accumulator on a weighted sum over a list without
repetitions. -/
theorem sum_map_update {K : Type} [Field K] (A : List Nat) (hA : A.Nodup) (d D : Nat → K)
    (c : Nat) (y : K) (hc : c ∈ A) :
    (A.map (fun x => Function.update d c y x * D x)).sum =
      (A.map (fun x => d x * D x)).sum + (y - d c) * D c := by
  induction A with
  | nil => cases hc
  | cons a t ih =>
    have hat : a ∉ t := (List.nodup_cons.mp hA).1
    have ht : t.Nodup := (List.nodup_cons.mp hA).2
    rw [List.map_cons, List.map_cons, List.sum_cons, List.sum_cons]
    by_cases hca : c = a
    · subst hca
      rw [sum_map_update_of_not_mem t d D c y hat, Function.update_same]
      ring
    · have hct : c ∈ t := by
        rcases List.mem_cons.mp hc with h | h
        · exact absurd h hca
        · exact h
      rw [ih ht hct, Function.update_noteq (fun h => hca h.symm)]
      ring

theorem length_accumulate {K : Type} [Field K] (g : List K) (i : Nat) (q : K) :
    (accumulate g i q).length = g.length := by
  unfold accumulate
  exact List.length_set _ _ _

theorem getD_accumulate {K : Type} [Field K] (g : List K) (i k : Nat) (q : K)
    (hk : k < g.length) :
    (accumulate g i q).getD k 0 = g.getD k 0 + (if i = k then q else 0) := by
  unfold accumulate
  rw [List.getD_eq_getElem _ _ (by rw [List.length_set]; exact hk), List.getElem_set]
  by_cases h : i = k
  · subst h
    rw [if_pos rfl, if_pos rfl]
  · rw [if_neg h, if_neg h, add_zero, List.getD_eq_getElem _ _ hk]

theorem getD_accumulate_scaled {K : Type} [Field K] (g : List K) (i k : Nat) (q a : K)
    (hk : k < g.length ∨ a = 0) :
    a * (accumulate g i q).getD k 0 = a * g.getD k 0 + (if i = k then a else 0) * q := by
  rcases hk with hk | ha
  · rw [getD_accumulate g i k q hk]
    by_cases h : i = k
    · rw [if_pos h, if_pos h]; ring
    · rw [if_neg h, if_neg h]; ring
  · subst ha
    by_cases h : i = k
    · rw [if_pos h]; ring
    · rw [if_neg h]; ring

/-- The loop over the slots of one node in step 4 of the backpropagation contract, with
`q = dL/dz_u`: what it adds to the accumulators of the sources and to one entry of `grad_w`. -/
theorem ann_backward_slots {K : Type} [Field K] (e : expression_ann K) (v D : Nat → K)
    (A : List Nat) (hA : A.Nodup) (a : K) (i0 u : Nat) (q : K) (l : List Nat)
    (hsrc : ∀ i ∈ l, ann_connection e u i < u)
    (hact : ∀ i ∈ l, e.m_n ≤ ann_connection e u i → ann_connection e u i ∈ A)
    (hin : ∀ x, x < e.m_n → D x = 0) (t0 : (Nat → K) × List K × List K)
    (hi : i0 < t0.2.1.length ∨ a = 0) :
    (A.map (fun x =>
        (l.foldl (fun t i =>
          ((if e.m_n ≤ ann_connection e u i then
              Function.update t.1 (ann_connection e u i)
                (t.1 (ann_connection e u i) + q * ann_weight e u i)
            else t.1,
            accumulate t.2.1 (ann_weight_index e u i) (q * v (ann_connection e u i)),
            t.2.2) : (Nat → K) × List K × List K)) t0).1 x * D x)).sum +
      a * (l.foldl (fun t i =>
          ((if e.m_n ≤ ann_connection e u i then
              Function.update t.1 (ann_connection e u i)
                (t.1 (ann_connection e u i) + q * ann_weight e u i)
            else t.1,
            accumulate t.2.1 (ann_weight_index e u i) (q * v (ann_connection e u i)),
            t.2.2) : (Nat → K) × List K × List K)) t0).2.1.getD i0 0 =
      (A.map (fun x => t0.1 x * D x)).sum + a * t0.2.1.getD i0 0 +
        q * (l.map (fun i =>
          (if ann_weight_index e u i = i0 then a else 0) * v (ann_connection e u i) +
            ann_weight e u i * D (ann_connection e u i))).sum ∧
    (l.foldl (fun t i =>
          ((if e.m_n ≤ ann_connection e u i then
              Function.update t.1 (ann_connection e u i)
                (t.1 (ann_connection e u i) + q * ann_weight e u i)
            else t.1,
            accumulate t.2.1 (ann_weight_index e u i) (q * v (ann_connection e u i)),
            t.2.2) : (Nat → K) × List K × List K)) t0).2.2 = t0.2.2 ∧
    (l.foldl (fun t i =>
          ((if e.m_n ≤ ann_connection e u i then
              Function.update t.1 (ann_connection e u i)
                (t.1 (ann_connection e u i) + q * ann_weight e u i)
            else t.1,
            accumulate t.2.1 (ann_weight_index e u i) (q * v (ann_connection e u i)),
            t.2.2) : (Nat → K) × List K × List K)) t0).2.1.length = t0.2.1.length ∧
    ∀ x, u ≤ x →
      (l.foldl (fun t i =>
          ((if e.m_n ≤ ann_connection e u i then
              Function.update t.1 (ann_connection e u i)
                (t.1 (ann_connection e u i) + q * ann_weight e u i)
            else t.1,
            accumulate t.2.1 (ann_weight_index e u i) (q * v (ann_connection e u i)),
            t.2.2) : (Nat → K) × List K × List K)) t0).1 x = t0.1 x := by
  induction l generalizing t0 with
  | nil => simp
  | cons i t ih =>
    have hlt := hsrc i (List.mem_cons_self i t)
    rw [List.foldl_cons]
    obtain ⟨k1, k2, k3, k4⟩ := ih (fun j hj => hsrc j (List.mem_cons_of_mem i hj))
      (fun j hj => hact j (List.mem_cons_of_mem i hj))
      ((if e.m_n ≤ ann_connection e u i then
          Function.update t0.1 (ann_connection e u i)
            (t0.1 (ann_connection e u i) + q * ann_weight e u i)
        else t0.1,
        accumulate t0.2.1 (ann_weight_index e u i) (q * v (ann_connection e u i)),
        t0.2.2) : (Nat → K) × List K × List K)
      (by
        rcases hi with h | h
        · exact Or.inl (by rw [length_accumulate]; exact h)
        · exact Or.inr h)
    refine ⟨?_, k2, ?_, ?_⟩
    · rw [k1, getD_accumulate_scaled _ _ _ _ _ hi, List.map_cons, List.sum_cons]
      by_cases hn : e.m_n ≤ ann_connection e u i
      · simp only [if_pos hn]
        rw [sum_map_update A hA _ D _ _ (hact i (List.mem_cons_self i t) hn)]
        ring
      · simp only [if_neg hn]
        rw [hin _ (by omega)]
        ring
    · rw [k3]
      exact length_accumulate _ _ _
    · intro x hx
      rw [k4 x hx]
      by_cases hn : e.m_n ≤ ann_connection e u i
      · simp only [if_pos hn]
        exact Function.update_noteq (by omega) _ _
      · simp only [if_neg hn]

/-- One step of the walk of step 4 of the backpropagation contract, at the node `u`: the
weighted sum of the accumulators together with the entries `i0` of `grad_w` and `j0` of
`grad_b` grows by `delta_u` times the variation of `v_u`. -/
theorem ann_backward_visit_step {K : Type} [Field K] (e : expression_ann K)
    (dphi : String → K → K) (v z D : Nat → K) (A : List Nat) (hA : A.Nodup) (a b : K)
    (i0 j0 u : Nat)
    (hsrc : e.m_n ≤ u → ∀ s ∈ ann_sources e u, s < u)
    (hact : e.m_n ≤ u → ∀ s ∈ ann_sources e u, s ∈ A)
    (hin : ∀ x, x < e.m_n → D x = 0)
    (hD : e.m_n ≤ u → D u = dphi (ann_kernel e u) (z u) *
      ((if u - e.m_n = j0 then b else 0) + ((List.range (ann_arity e u)).map
        (fun i => (if ann_weight_index e u i = i0 then a else 0) * v (ann_connection e u i) +
          ann_weight e u i * D (ann_connection e u i))).sum))
    (s : (Nat → K) × List K × List K)
    (hi : i0 < s.2.1.length ∨ a = 0) (hj : j0 < s.2.2.length ∨ b = 0) :
    (A.map (fun x => (ann_backward_visit e dphi v z s u).1 x * D x)).sum +
        a * (ann_backward_visit e dphi v z s u).2.1.getD i0 0 +
        b * (ann_backward_visit e dphi v z s u).2.2.getD j0 0 =
      (A.map (fun x => s.1 x * D x)).sum + a * s.2.1.getD i0 0 + b * s.2.2.getD j0 0 +
        s.1 u * D u ∧
    (ann_backward_visit e dphi v z s u).2.1.length = s.2.1.length ∧
    (ann_backward_visit e dphi v z s u).2.2.length = s.2.2.length ∧
    ∀ x, u ≤ x → (ann_backward_visit e dphi v z s u).1 x = s.1 x := by
  unfold ann_backward_visit
  by_cases hu : u < e.m_n
  · rw [if_pos hu, hin u hu]
    refine ⟨by ring, rfl, rfl, fun _ _ => rfl⟩
  · rw [if_neg hu]
    obtain ⟨k1, k2, k3, k4⟩ := ann_backward_slots e v D A hA a i0 u
      (s.1 u * dphi (ann_kernel e u) (z u)) (List.range (ann_arity e u))
      (fun i hi => hsrc (by omega) _
        ((mem_ann_sources e u _).mpr ⟨i, List.mem_range.mp hi, rfl⟩))
      (fun i hi _ => hact (by omega) _
        ((mem_ann_sources e u _).mpr ⟨i, List.mem_range.mp hi, rfl⟩))
      hin s hi
    simp only []
    refine ⟨?_, k3, ?_, k4⟩
    · rw [getD_accumulate_scaled _ _ _ _ _ (by rw [k2]; exact hj), k2, hD (by omega)]
      linear_combination k1
    · rw [length_accumulate, k2]

/-- The walk of step 4 over the nodes of a list in descending id order. -/
theorem ann_backward_walk {K : Type} [Field K] (e : expression_ann K)
    (dphi : String → K → K) (v z D : Nat → K) (A : List Nat) (hA : A.Nodup) (a b : K)
    (i0 j0 : Nat)
    (hsrc : ∀ u ∈ A, e.m_n ≤ u → ∀ s ∈ ann_sources e u, s < u)
    (hact : ∀ u ∈ A, e.m_n ≤ u → ∀ s ∈ ann_sources e u, s ∈ A)
    (hin : ∀ x, x < e.m_n → D x = 0)
    (hD : ∀ u ∈ A, e.m_n ≤ u → D u = dphi (ann_kernel e u) (z u) *
      ((if u - e.m_n = j0 then b else 0) + ((List.range (ann_arity e u)).map
        (fun i => (if ann_weight_index e u i = i0 then a else 0) * v (ann_connection e u i) +
          ann_weight e u i * D (ann_connection e u i))).sum))
    (L : List Nat) (hL : L.Sorted (fun p q => p < q)) (hLA : ∀ u ∈ L, u ∈ A)
    (s : (Nat → K) × List K × List K)
    (hi : i0 < s.2.1.length ∨ a = 0) (hj : j0 < s.2.2.length ∨ b = 0) :
    (A.map (fun x => (L.foldr (fun u t => ann_backward_visit e dphi v z t u) s).1 x * D x)).sum +
        a * (L.foldr (fun u t => ann_backward_visit e dphi v z t u) s).2.1.getD i0 0 +
        b * (L.foldr (fun u t => ann_backward_visit e dphi v z t u) s).2.2.getD j0 0 =
      (A.map (fun x => s.1 x * D x)).sum + a * s.2.1.getD i0 0 + b * s.2.2.getD j0 0 +
        (L.map (fun x =>
          (L.foldr (fun u t => ann_backward_visit e dphi v z t u) s).1 x * D x)).sum ∧
    (L.foldr (fun u t => ann_backward_visit e dphi v z t u) s).2.1.length = s.2.1.length ∧
    (L.foldr (fun u t => ann_backward_visit e dphi v z t u) s).2.2.length = s.2.2.length := by
  induction L with
  | nil => simp
  | cons c t ih =>
    have hct : ∀ x ∈ t, c < x := (List.sorted_cons.mp hL).1
    have ht : t.Sorted (fun p q => p < q) := (List.sorted_cons.mp hL).2
    obtain ⟨k1, k2, k3⟩ := ih ht (fun u hu => hLA u (List.mem_cons_of_mem c hu))
    have hcA : c ∈ A := hLA c (List.mem_cons_self c t)
    rw [List.foldr_cons]
    obtain ⟨g1, g2, g3, g4⟩ := ann_backward_visit_step e dphi v z D A hA a b i0 j0 c
      (hsrc c hcA) (hact c hcA) hin (hD c hcA)
      (t.foldr (fun u t => ann_backward_visit e dphi v z t u) s)
      (by rw [k2]; exact hi) (by rw [k3]; exact hj)
    refine ⟨?_, by rw [g2, k2], by rw [g3, k3]⟩
    rw [g1, k1, List.map_cons, List.sum_cons, g4 c (Nat.le_refl c)]
    have hsame : t.map (fun x => (ann_backward_visit e dphi v z
        (t.foldr (fun u t => ann_backward_visit e dphi v z t u) s) c).1 x * D x) =
        t.map (fun x => (t.foldr (fun u t => ann_backward_visit e dphi v z t u) s).1 x * D x) := by
      apply List.map_congr_left
      intro x hx
      rw [g4 x (Nat.le_of_lt (hct x hx))]
    rw [hsame]
    ring

/-- Step 3 of the backpropagation contract: the weighted sum of the accumulators after the
output errors have been added. -/
theorem output_delta_sum {K : Type} [Field K] (A : List Nat) (hA : A.Nodup) (D : Nat → K)
    (out : Nat → Nat) (err : Nat → K) (m : Nat) (hout : ∀ k, k < m → out k ∈ A) :
    (A.map (fun x =>
      (List.range m).foldl (fun (d : Nat → K) k => Function.update d (out k) (d (out k) + err k))
        (fun _ => 0) x * D x)).sum =
      ((List.range m).map (fun k => err k * D (out k))).sum := by
  induction m with
  | zero => simp
  | succ m ih =>
    rw [List.range_succ, List.foldl_append, List.foldl_cons, List.foldl_nil, List.map_append,
      List.sum_append, List.map_singleton, List.sum_singleton,
      sum_map_update A hA _ D _ _ (hout m (Nat.lt_succ_self m)),
      ih (fun k hk => hout k (Nat.lt_succ_of_lt hk))]
    ring

theorem getD_replicate_zero {K : Type} [Field K] (len k : Nat) :
    (List.replicate len (0 : K)).getD k 0 = 0 := by
  by_cases h : k < len
  · exact getD_replicate_of_lt len k 0 0 h
  · exact List.getD_eq_default _ _ (by rw [List.length_replicate]; omega)

/-- The entries of the gradients that `d_loss` returns, when it starts from zero vectors: the
entry `i0` of `grad_w` taken `a` times plus the entry `j0` of `grad_b` taken `b` times is the
sum over the outputs of the output error times the variation of the output, along the
variation `a` of the weight `i0` and `b` of the bias `j0`. -/
theorem ann_d_loss_gradient {K : Type} [Field K] (e : expression_ann K)
    (phi dphi : String → K → K) (exp log : K → K) (kind : loss_type) (input label : List K)
    (a b : K) (i0 j0 : Nat)
    (hL : e.m_active_nodes.Sorted (fun p q => p < q))
    (hsrc : ∀ u ∈ e.m_active_nodes, e.m_n ≤ u → ∀ s ∈ ann_sources e u, s < u)
    (hact : ∀ u ∈ e.m_active_nodes, e.m_n ≤ u → ∀ s ∈ ann_sources e u, s ∈ e.m_active_nodes)
    (hout : ∀ k, k < e.m_m → ann_output_gene e k ∈ e.m_active_nodes)
    (hi : i0 < e.m_weights.length ∨ a = 0) (hj : j0 < e.m_biases.length ∨ b = 0) :
    a * (ann_d_loss e phi dphi exp log kind (List.replicate e.m_weights.length 0)
          (List.replicate e.m_biases.length 0) input label).2.1.getD i0 0 +
      b * (ann_d_loss e phi dphi exp log kind (List.replicate e.m_weights.length 0)
          (List.replicate e.m_biases.length 0) input label).2.2.getD j0 0 =
      ((List.range e.m_m).map (fun k =>
        output_error exp kind e.m_m
          ((List.range e.m_m).map
            (fun k => (ann_forward_record e phi input).1 (ann_output_gene e k))) label k *
          ann_tangent e dphi (ann_forward_record e phi input).1
            (ann_forward_record e phi input).2
            (fun u i => if ann_weight_index e u i = i0 then a else 0)
            (fun u => if u - e.m_n = j0 then b else 0) (ann_output_gene e k))).sum := by
  have hA : e.m_active_nodes.Nodup := hL.nodup
  have key := ann_backward_walk e dphi (ann_forward_record e phi input).1
    (ann_forward_record e phi input).2
    (ann_tangent e dphi (ann_forward_record e phi input).1 (ann_forward_record e phi input).2
      (fun u i => if ann_weight_index e u i = i0 then a else 0)
      (fun u => if u - e.m_n = j0 then b else 0))
    e.m_active_nodes hA a b i0 j0 hsrc hact
    (fun x hx => ann_tangent_input e dphi _ _ _ _ _ _ x hx)
    (fun u hu hn => ann_tangent_value e dphi _ _ _ _ e.m_active_nodes hL hsrc _ u hu hn)
    e.m_active_nodes hL (fun _ h => h)
    ((List.range e.m_m).foldl
      (fun d k => Function.update d (ann_output_gene e k)
        (d (ann_output_gene e k) + output_error exp kind e.m_m
          ((List.range e.m_m).map
            (fun k => (ann_forward_record e phi input).1 (ann_output_gene e k))) label k))
      (fun _ => 0),
      List.replicate e.m_weights.length 0, List.replicate e.m_biases.length 0)
    (by rw [List.length_replicate]; exact hi) (by rw [List.length_replicate]; exact hj)
  have hsum := output_delta_sum e.m_active_nodes hA
    (ann_tangent e dphi (ann_forward_record e phi input).1 (ann_forward_record e phi input).2
      (fun u i => if ann_weight_index e u i = i0 then a else 0)
      (fun u => if u - e.m_n = j0 then b else 0))
    (ann_output_gene e)
    (fun k => output_error exp kind e.m_m
      ((List.range e.m_m).map
        (fun k => (ann_forward_record e phi input).1 (ann_output_gene e k))) label k)
    e.m_m hout
  unfold ann_d_loss
  simp only []
  rw [List.foldl_reverse]
  rw [← hsum]
  simp only [getD_replicate_zero, mul_zero, add_zero] at key
  linear_combination key.1

/-- The active nodes of a well-formed network: ascending ids, every source of a non-input node
has a smaller id and is active, and the nodes of the output genes are active. -/
theorem ann_well_formed_nodes {K : Type} (e : expression_ann K) (hwf : ann_well_formed e) :
    e.m_active_nodes.Sorted (fun p q => p < q) ∧
    (∀ u ∈ e.m_active_nodes, e.m_n ≤ u → ∀ s ∈ ann_sources e u, s < u) ∧
    (∀ u ∈ e.m_active_nodes, e.m_n ≤ u → ∀ s ∈ ann_sources e u, s ∈ e.m_active_nodes) ∧
    ∀ k, k < e.m_m → ann_output_gene e k ∈ e.m_active_nodes := by
  obtain ⟨hn, -, -, -, -, -, -, -, hv, hact, -, -⟩ := hwf
  obtain ⟨h1, h2, h3, h4⟩ := ann_active_nodes_spec e hv hn
  rw [hact]
  refine ⟨h1, ?_, h3, h4⟩
  intro u hu hnu s hs
  have hlt := ann_source_lt e hv hn u hnu (h2 u hu) s hs
  have hle := node_column_le e.m_n e.m_r u hnu
  omega

/-- The single-sample loss is differentiable along a change of one weight and one bias, and
its derivative is made of the entries of the gradients that `d_loss` returns. -/
theorem ann_loss_hasDerivAt (e : expression_ann ℝ) (hwf : ann_well_formed e)
    (phi dphi : String → ℝ → ℝ) (exp log : ℝ → ℝ) (kind : loss_type) (input label : List ℝ)
    (W B : ℝ → List ℝ) (a b : ℝ) (i0 j0 : Nat) (t0 : ℝ)
    (hW : ∀ k, HasDerivAt (fun t => (W t).getD k 0) (if k = i0 then a else 0) t0)
    (hB : ∀ k, HasDerivAt (fun t => (B t).getD k 0) (if k = j0 then b else 0) t0)
    (hW0 : W t0 = e.m_weights) (hB0 : B t0 = e.m_biases)
    (hi : i0 < e.m_weights.length ∨ a = 0) (hj : j0 < e.m_biases.length ∨ b = 0)
    (hphi : ∀ u ∈ e.m_active_nodes, e.m_n ≤ u →
      HasDerivAt (phi (ann_kernel e u))
        (dphi (ann_kernel e u) ((ann_forward_record e phi input).2 u))
        ((ann_forward_record e phi input).2 u))
    (hkind : kind = loss_type.MSE ∨
      (kind = loss_type.CE ∧ exp = Real.exp ∧ log = Real.log ∧
        ((List.range e.m_m).map (fun j => label.getD j 0)).sum = 1)) :
    HasDerivAt
      (fun t => ann_loss (ann_set_parameters e (W t) (B t)) phi exp log kind input label)
      (a * (ann_d_loss e phi dphi exp log kind (List.replicate e.m_weights.length 0)
          (List.replicate e.m_biases.length 0) input label).2.1.getD i0 0 +
        b * (ann_d_loss e phi dphi exp log kind (List.replicate e.m_weights.length 0)
          (List.replicate e.m_biases.length 0) input label).2.2.getD j0 0) t0 := by
  obtain ⟨hL, hsrc, hact, hout⟩ := ann_well_formed_nodes e hwf
  rw [ann_d_loss_gradient e phi dphi exp log kind input label a b i0 j0 hL hsrc hact hout hi hj]
  have hY : ∀ k, k < e.m_m → HasDerivAt
      (fun t => ann_forward (ann_set_parameters e (W t) (B t)) phi input (ann_output_gene e k))
      (ann_tangent e dphi (ann_forward_record e phi input).1 (ann_forward_record e phi input).2
        (fun u i => if ann_weight_index e u i = i0 then a else 0)
        (fun u => if u - e.m_n = j0 then b else 0) (ann_output_gene e k)) t0 := fun k _ =>
    ann_forward_hasDerivAt e phi dphi input W B (fun k => if k = i0 then a else 0)
      (fun k => if k = j0 then b else 0) t0 hW hB hW0 hB0 hL hsrc hphi (ann_output_gene e k)
  have hv : (fun k => (ann_forward_record e phi input).1 (ann_output_gene e k)) =
      fun k => ann_forward (ann_set_parameters e (W t0) (B t0)) phi input
        (ann_output_gene e k) := by
    rw [hW0, hB0, ann_set_parameters_self, ann_forward_record_fst]
  rw [hv]
  rcases hkind with hk | ⟨hk, hexp, hlog, hlabel⟩
  · subst hk
    exact sample_loss_mse_hasDerivAt exp log e.m_m
      (fun k t => ann_forward (ann_set_parameters e (W t) (B t)) phi input (ann_output_gene e k))
      _ label t0 hY
  · subst hk hexp hlog
    exact sample_loss_ce_hasDerivAt e.m_m
      (fun k t => ann_forward (ann_set_parameters e (W t) (B t)) phi input (ann_output_gene e k))
      _ label t0 hY hlabel

theorem getD_set_hasDerivAt (l : List ℝ) (i k : Nat) (t0 : ℝ) (hi : i < l.length) :
    HasDerivAt (fun t => (l.set i t).getD k 0) (if k = i then 1 else 0) t0 := by
  by_cases h : k = i
  · subst h
    rw [if_pos rfl]
    have hf : (fun t => (l.set k t).getD k 0) = fun t => t := by
      funext t
      rw [List.getD_eq_getElem _ _ (by rw [List.length_set]; exact hi), List.getElem_set_self]
    rw [hf]
    exact hasDerivAt_id t0
  · rw [if_neg h]
    have hf : (fun t => (l.set i t).getD k 0) = fun _ => l.getD k 0 := by
      funext t
      simp only [List.getD_eq_getElem?_getD]
      rw [List.getElem?_set_ne (fun hik => h hik.symm)]
    rw [hf]
    exact hasDerivAt_const t0 _

theorem getD_const_hasDerivAt (l : List ℝ) (j k : Nat) (t0 : ℝ) :
    HasDerivAt (fun _ : ℝ => l.getD k 0) (if k = j then (0 : ℝ) else 0) t0 := by
  rw [ite_self]
  exact hasDerivAt_const t0 _

theorem set_getD_self {α : Type} (l : List α) (i : Nat) (d : α) : l.set i (l.getD i d) = l := by
  apply List.ext_getElem (List.length_set _ _ _)
  intro k h1 h2
  rw [List.getElem_set]
  split
  · next hik =>
    subst hik
    exact List.getD_eq_getElem _ _ h2
  · rfl

/-- Central differences converge to the derivative. -/
theorem central_difference_near (f : ℝ → ℝ) (g x : ℝ) (hf : HasDerivAt f g x) (ε : ℝ)
    (hε : 0 < ε) :
    ∃ δ, 0 < δ ∧ ∀ h, h ≠ 0 → |h| < δ → |(f (x + h) - f (x - h)) / (2 * h) - g| ≤ ε := by
  have ht := hasDerivAt_iff_tendsto_slope_zero.mp hf
  rw [Metric.tendsto_nhdsWithin_nhds] at ht
  obtain ⟨δ, hδ, hclose⟩ := ht ε hε
  refine ⟨δ, hδ, ?_⟩
  intro h hh hlt
  have h1 := hclose (x := h) hh (by rw [Real.dist_eq, sub_zero]; exact hlt)
  have h2 := hclose (x := -h) (neg_ne_zero.mpr hh)
    (by rw [Real.dist_eq, sub_zero, abs_neg]; exact hlt)
  rw [Real.dist_eq] at h1 h2
  simp only [smul_eq_mul] at h1 h2
  have hsplit : (f (x + h) - f (x - h)) / (2 * h) - g =
      ((h⁻¹ * (f (x + h) - f x) - g) + ((-h)⁻¹ * (f (x + -h) - f x) - g)) / 2 := by
    have hx : x + -h = x - h := by ring
    rw [hx, inv_neg]
    field_simp
    ring
  rw [hsplit, abs_div, abs_two]
  have := abs_add (h⁻¹ * (f (x + h) - f x) - g) ((-h)⁻¹ * (f (x + -h) - f x) - g)
  rw [div_le_iff₀ (by norm_num : (0 : ℝ) < 2)]
  linarith

/-- Over the reals every activation of the specification has, at every point, the derivative
that the backpropagation contract lists, except `ReLu` at `0`. -/
theorem activation_hasDerivAt (k : String) (z : ℝ) (hz : k = "ReLu" → z ≠ 0) :
    HasDerivAt (activation Real.exp Real.tanh Real.sqrt k)
      (activation_derivative Real.exp Real.tanh Real.sqrt k z) z := by
  by_cases h1 : k = "sig"
  · have hf : activation Real.exp Real.tanh Real.sqrt k = fun y => 1 / (1 + Real.exp (-y)) := by
      funext y
      unfold activation
      rw [if_pos h1]
    have hd : activation_derivative Real.exp Real.tanh Real.sqrt k z =
        1 / (1 + Real.exp (-z)) * (1 - 1 / (1 + Real.exp (-z))) := by
      unfold activation_derivative
      rw [if_pos h1]
    rw [hf, hd]
    have hpos : (1 + Real.exp (-z)) ≠ 0 := (add_pos one_pos (Real.exp_pos _)).ne'
    have h := (hasDerivAt_const z (1 : ℝ)).div
      (((hasDerivAt_id z).neg.exp).const_add 1) hpos
    refine h.congr_deriv ?_
    simp only [id]
    field_simp
    ring
  by_cases h2 : k = "tanh"
  · have hf : activation Real.exp Real.tanh Real.sqrt k =
        fun y => Real.sinh y / Real.cosh y := by
      funext y
      unfold activation
      rw [if_neg h1, if_pos h2, Real.tanh_eq_sinh_div_cosh]
    have hd : activation_derivative Real.exp Real.tanh Real.sqrt k z =
        1 - (Real.sinh z / Real.cosh z) ^ 2 := by
      unfold activation_derivative
      rw [if_neg h1, if_pos h2, Real.tanh_eq_sinh_div_cosh]
    rw [hf, hd]
    have hpos : Real.cosh z ≠ 0 := (Real.cosh_pos z).ne'
    have h := (Real.hasDerivAt_sinh z).div (Real.hasDerivAt_cosh z) hpos
    refine h.congr_deriv ?_
    field_simp
    linear_combination Real.cosh_sq z
  by_cases h3 : k = "ReLu"
  · have hf : activation Real.exp Real.tanh Real.sqrt k = fun y => max 0 y := by
      funext y
      unfold activation
      rw [if_neg h1, if_neg h2, if_pos h3]
    have hd : activation_derivative Real.exp Real.tanh Real.sqrt k z =
        if 0 < z then 1 else 0 := by
      unfold activation_derivative
      rw [if_neg h1, if_neg h2, if_pos h3]
    rw [hf, hd]
    rcases lt_or_gt_of_ne (hz h3) with hneg | hpos
    · rw [if_neg (not_lt.mpr hneg.le)]
      refine (hasDerivAt_const z (0 : ℝ)).congr_of_eventuallyEq ?_
      exact Filter.eventually_of_mem (Iio_mem_nhds hneg) (fun y hy => max_eq_left (le_of_lt hy))
    · rw [if_pos hpos]
      refine (hasDerivAt_id z).congr_of_eventuallyEq ?_
      exact Filter.eventually_of_mem (Ioi_mem_nhds hpos) (fun y hy => max_eq_right (le_of_lt hy))
  by_cases h4 : k = "ELU"
  · have hf : activation Real.exp Real.tanh Real.sqrt k =
        fun y => if 0 < y then y else Real.exp y - 1 := by
      funext y
      unfold activation
      rw [if_neg h1, if_neg h2, if_neg h3, if_pos h4]
    have hd : activation_derivative Real.exp Real.tanh Real.sqrt k z =
        if 0 < z then 1 else Real.exp z := by
      unfold activation_derivative
      rw [if_neg h1, if_neg h2, if_neg h3, if_pos h4]
    rw [hf, hd]
    rcases lt_trichotomy z 0 with hneg | hzero | hpos
    · rw [if_neg (not_lt.mpr hneg.le)]
      refine ((Real.hasDerivAt_exp z).sub_const 1).congr_of_eventuallyEq ?_
      exact Filter.eventually_of_mem (Iio_mem_nhds hneg)
        (fun y hy => if_neg (not_lt.mpr (le_of_lt hy)))
    · subst hzero
      rw [if_neg (lt_irrefl 0), Real.exp_zero]
      have hl : HasDerivWithinAt (fun y : ℝ => if 0 < y then y else Real.exp y - 1) 1
          (Set.Iic 0) 0 := by
        have h := ((Real.hasDerivAt_exp 0).sub_const 1).hasDerivWithinAt (s := Set.Iic 0)
        rw [Real.exp_zero] at h
        refine h.congr (fun y hy => if_neg (not_lt.mpr hy)) ?_
        rw [if_neg (lt_irrefl 0)]
      have hr : HasDerivWithinAt (fun y : ℝ => if 0 < y then y else Real.exp y - 1) 1
          (Set.Ici 0) 0 := by
        refine (hasDerivAt_id (0 : ℝ)).hasDerivWithinAt.congr ?_ ?_
        · intro y hy
          rcases eq_or_lt_of_le (Set.mem_Ici.mp hy) with h0 | h0
          · subst h0
            simp
          · exact if_pos h0
        · simp
      have hu := hl.union hr
      rw [Set.Iic_union_Ici, hasDerivWithinAt_univ] at hu
      exact hu
    · rw [if_pos hpos]
      refine (hasDerivAt_id z).congr_of_eventuallyEq ?_
      exact Filter.eventually_of_mem (Ioi_mem_nhds hpos) (fun y hy => if_pos hy)
  by_cases h5 : k = "ISRU"
  · have hf : activation Real.exp Real.tanh Real.sqrt k =
        fun y => y / Real.sqrt (1 + y ^ 2) := by
      funext y
      unfold activation
      rw [if_neg h1, if_neg h2, if_neg h3, if_neg h4, if_pos h5]
    have hd : activation_derivative Real.exp Real.tanh Real.sqrt k z =
        1 / Real.sqrt (1 + z ^ 2) ^ 3 := by
      unfold activation_derivative
      rw [if_neg h1, if_neg h2, if_neg h3, if_neg h4, if_pos h5]
    rw [hf, hd]
    have hpos : (0 : ℝ) < 1 + z ^ 2 := by positivity
    have hs : Real.sqrt (1 + z ^ 2) ≠ 0 := (Real.sqrt_pos.mpr hpos).ne'
    have hsq : Real.sqrt (1 + z ^ 2) ^ 2 = 1 + z ^ 2 := Real.sq_sqrt hpos.le
    have h := (hasDerivAt_id z).div (((hasDerivAt_pow 2 z).const_add 1).sqrt hpos.ne') hs
    refine h.congr_deriv ?_
    simp only [id]
    field_simp
    have h3 : Real.sqrt (1 + z ^ 2) ^ 3 = Real.sqrt (1 + z ^ 2) * (1 + z ^ 2) := by
      rw [pow_succ, hsq]; ring
    nlinarith [hsq, h3]
  · have hf : activation Real.exp Real.tanh Real.sqrt k = fun y => y := by
      funext y
      unfold activation
      rw [if_neg h1, if_neg h2, if_neg h3, if_neg h4, if_neg h5]
    have hd : activation_derivative Real.exp Real.tanh Real.sqrt k z = 1 := by
      unfold activation_derivative
      rw [if_neg h1, if_neg h2, if_neg h3, if_neg h4, if_neg h5]
    rw [hf, hd]
    exact hasDerivAt_id z

theorem kink_well_formed : ann_well_formed kink_ann := by decide

theorem kink_gradient :
    ann_d_loss kink_ann (activation (fun x => x) (fun x => x) (fun x => x))
      (activation_derivative (fun x => x) (fun x => x) (fun x => x)) (fun x => x) (fun x => x)
      loss_type.MSE [0] [0] [1] [-1] = (1, [0], [0]) := by
  simp [ann_d_loss, ann_forward_record, ann_record_visit, ann_pre_activation, ann_backward_visit,
    kink_ann, ann_kernel, ann_function_gene, ann_connection, ann_output_gene, ann_arity,
    ann_weight, ann_bias, ann_weight_index, accumulate, output_error, sample_loss, activation,
    activation_derivative, gene_index, genes_before, weights_before, column_arity, node_column,
    node_row, vec_at, List.range_succ, Function.update_apply]

theorem kink_loss_weight (w : ℚ) :
    ann_loss (ann_set_weight kink_ann 0 w) (activation (fun x => x) (fun x => x) (fun x => x))
      (fun x => x) (fun x => x) loss_type.MSE [1] [-1] = (max 0 (w - 1) + 1) ^ 2 := by
  simp [ann_loss, ann_evaluate, ann_forward, ann_visit, ann_node_value, ann_set_weight,
    kink_ann, ann_kernel, ann_function_gene, ann_connection, ann_output_gene, ann_arity,
    ann_weight, ann_bias, sample_loss, activation,
    gene_index, genes_before, weights_before, column_arity, node_column,
    node_row, vec_at, List.range_succ, Function.update_apply]
  ring_nf

theorem kink_loss_bias (b : ℚ) :
    ann_loss (ann_set_bias kink_ann 0 b) (activation (fun x => x) (fun x => x) (fun x => x))
      (fun x => x) (fun x => x) loss_type.MSE [1] [-1] = (max 0 (b + 1) + 1) ^ 2 := by
  simp [ann_loss, ann_evaluate, ann_forward, ann_visit, ann_node_value, ann_set_bias,
    kink_ann, ann_kernel, ann_function_gene, ann_connection, ann_output_gene, ann_arity,
    ann_weight, ann_bias, sample_loss, activation,
    gene_index, genes_before, weights_before, column_arity, node_column,
    node_row, vec_at, List.range_succ, Function.update_apply]

/-- At the kink of `ReLu` every central difference of the loss, whatever the step, is
`1 + h/2`, in the weight and in the bias. -/
theorem kink_differences (h : ℚ) (hh : 0 < h) :
    weight_difference kink_ann (activation (fun x => x) (fun x => x) (fun x => x)) (fun x => x)
      (fun x => x) loss_type.MSE [1] [-1] 0 h = 1 + h / 2 ∧
    bias_difference kink_ann (activation (fun x => x) (fun x => x) (fun x => x)) (fun x => x)
      (fun x => x) loss_type.MSE [1] [-1] 0 h = 1 + h / 2 := by
  have h1 : max 0 h = h := max_eq_right hh.le
  have h2 : max (0 : ℚ) (-h) = 0 := max_eq_left (by linarith)
  have hne : h ≠ 0 := hh.ne'
  unfold weight_difference bias_difference
  rw [kink_loss_weight, kink_loss_weight, kink_loss_bias, kink_loss_bias]
  have e1 : (kink_ann.m_weights.getD 0 0 + h - 1 : ℚ) = h := by simp [kink_ann]
  have e2 : (kink_ann.m_weights.getD 0 0 - h - 1 : ℚ) = -h := by simp [kink_ann]
  have e3 : (kink_ann.m_biases.getD 0 0 + h + 1 : ℚ) = h := by simp [kink_ann]
  have e4 : (kink_ann.m_biases.getD 0 0 - h + 1 : ℚ) = -h := by simp [kink_ann]; ring
  rw [e1, e2, e3, e4, h1, h2]
  constructor <;> field_simp <;> ring

theorem unit_well_formed : ann_well_formed (unit_ann ℝ) := by decide

theorem unit_loss_weight (w y : ℝ) :
    ann_loss (ann_set_weight (unit_ann ℝ) 0 w) (activation Real.exp Real.tanh Real.sqrt) Real.exp
      Real.log
      loss_type.CE [1] [y] = 0 := by
  simp [ann_loss, ann_evaluate, ann_forward, ann_visit, ann_node_value, ann_set_weight,
    unit_ann, ann_kernel, ann_function_gene, ann_connection, ann_output_gene, ann_arity,
    ann_weight, ann_bias, sample_loss, softmax, activation,
    gene_index, genes_before, weights_before, column_arity, node_column,
    node_row, vec_at, List.range_succ, Function.update_apply]

theorem unit_loss_bias (b y : ℝ) :
    ann_loss (ann_set_bias (unit_ann ℝ) 0 b) (activation Real.exp Real.tanh Real.sqrt) Real.exp
      Real.log
      loss_type.CE [1] [y] = 0 := by
  simp [ann_loss, ann_evaluate, ann_forward, ann_visit, ann_node_value, ann_set_bias,
    unit_ann, ann_kernel, ann_function_gene, ann_connection, ann_output_gene, ann_arity,
    ann_weight, ann_bias, sample_loss, softmax, activation,
    gene_index, genes_before, weights_before, column_arity, node_column,
    node_row, vec_at, List.range_succ, Function.update_apply]

theorem unit_gradient :
    ann_d_loss (unit_ann ℝ) (activation Real.exp Real.tanh Real.sqrt)
      (activation_derivative Real.exp Real.tanh Real.sqrt) Real.exp Real.log
      loss_type.CE [0] [0] [1] [2] = (0, [-1], [-1]) := by
  simp [ann_d_loss, ann_forward_record, ann_record_visit, ann_pre_activation, ann_backward_visit,
    unit_ann, ann_kernel, ann_function_gene, ann_connection, ann_output_gene, ann_arity,
    ann_weight, ann_bias, ann_weight_index, accumulate, output_error, sample_loss, softmax,
    activation, activation_derivative,
    gene_index, genes_before, weights_before, column_arity, node_column,
    node_row, vec_at, List.range_succ, Function.update_apply]
  norm_num

/-- The gradients of `d_loss` are derivatives: for a well-formed network over the reals whose
activations are differentiable at the pre-activations of the active nodes, the entries of
`grad_w` and `grad_b` that `d_loss` returns from zero accumulators are the derivatives of the
single-sample loss in the weights and in the biases. -/
theorem ann_gradients_are_derivatives (e : expression_ann ℝ) (hwf : ann_well_formed e)
    (phi dphi : String → ℝ → ℝ) (exp log : ℝ → ℝ) (kind : loss_type) (input label : List ℝ)
    (hphi : ∀ u ∈ e.m_active_nodes, e.m_n ≤ u →
      HasDerivAt (phi (ann_kernel e u))
        (dphi (ann_kernel e u) ((ann_forward_record e phi input).2 u))
        ((ann_forward_record e phi input).2 u))
    (hkind : kind = loss_type.MSE ∨
      (kind = loss_type.CE ∧ exp = Real.exp ∧ log = Real.log ∧
        ((List.range e.m_m).map (fun j => label.getD j 0)).sum = 1)) :
    (∀ idx, idx < e.m_weights.length →
      HasDerivAt (fun w => ann_loss (ann_set_weight e idx w) phi exp log kind input label)
        ((ann_d_loss e phi dphi exp log kind (List.replicate e.m_weights.length 0)
          (List.replicate e.m_biases.length 0) input label).2.1.getD idx 0)
        (e.m_weights.getD idx 0)) ∧
    ∀ j, j < e.m_biases.length →
      HasDerivAt (fun b => ann_loss (ann_set_bias e j b) phi exp log kind input label)
        ((ann_d_loss e phi dphi exp log kind (List.replicate e.m_weights.length 0)
          (List.replicate e.m_biases.length 0) input label).2.2.getD j 0)
        (e.m_biases.getD j 0) := by
  constructor
  · intro idx hidx
    have hd := ann_loss_hasDerivAt e hwf phi dphi exp log kind input label
      (fun t => e.m_weights.set idx t) (fun _ => e.m_biases) 1 0 idx 0
      (e.m_weights.getD idx 0) (fun k => getD_set_hasDerivAt e.m_weights idx k _ hidx)
      (fun k => getD_const_hasDerivAt e.m_biases 0 k _) (set_getD_self _ _ _) rfl
      (Or.inl hidx) (Or.inr rfl) hphi hkind
    rw [one_mul, zero_mul, add_zero] at hd
    exact hd
  · intro j hj
    have hd := ann_loss_hasDerivAt e hwf phi dphi exp log kind input label
      (fun _ => e.m_weights) (fun t => e.m_biases.set j t) 0 1 0 j
      (e.m_biases.getD j 0) (fun k => getD_const_hasDerivAt e.m_weights 0 k _)
      (fun k => getD_set_hasDerivAt e.m_biases j k _ hj) rfl (set_getD_self _ _ _)
      (Or.inr rfl) (Or.inl hj) hphi hkind
    rw [zero_mul, one_mul, zero_add] at hd
    exact hd

/-- Central differences with small steps meet the tolerance of 5% or `1e-8`. -/
theorem central_difference_agrees (f : ℝ → ℝ) (g x : ℝ) (hf : HasDerivAt f g x) :
    ∃ δ, 0 < δ ∧ ∀ h, h ≠ 0 → |h| < δ → agrees g ((f (x + h) - f (x - h)) / (2 * h)) := by
  obtain ⟨δ, hδ, hclose⟩ := central_difference_near f g x hf (1 / 100000000) (by norm_num)
  exact ⟨δ, hδ, fun h hh hlt => Or.inr (hclose h hh hlt)⟩

theorem near_kink_well_formed : ann_well_formed (ann_set_weight kink_ann 0 (100001 / 100000)) := by
  decide

theorem near_kink_gradient :
    ann_d_loss (ann_set_weight kink_ann 0 (100001 / 100000))
      (activation (fun x => x) (fun x => x) (fun x => x))
      (activation_derivative (fun x => x) (fun x => x) (fun x => x)) (fun x => x) (fun x => x)
      loss_type.MSE [0] [0] [1] [-1] =
      (10000200001 / 10000000000, [100001 / 50000], [100001 / 50000]) := by
  simp [ann_d_loss, ann_forward_record, ann_record_visit, ann_pre_activation, ann_backward_visit,
    kink_ann, ann_set_weight, ann_kernel, ann_function_gene, ann_connection, ann_output_gene,
    ann_arity, ann_weight, ann_bias, ann_weight_index, accumulate, output_error, sample_loss,
    activation, activation_derivative, gene_index, genes_before, weights_before, column_arity,
    node_column, node_row, vec_at, List.range_succ, Function.update_apply]
  norm_num

theorem near_kink_difference :
    weight_difference (ann_set_weight kink_ann 0 (100001 / 100000))
      (activation (fun x => x) (fun x => x) (fun x => x)) (fun x => x) (fun x => x)
      loss_type.MSE [1] [-1] 0 (1 / 10000) = 2200121 / 2000000 := by
  have hset : ∀ w : ℚ, ann_set_weight (ann_set_weight kink_ann 0 (100001 / 100000)) 0 w =
      ann_set_weight kink_ann 0 w := fun w => rfl
  unfold weight_difference
  rw [hset, hset, kink_loss_weight, kink_loss_weight]
  have e1 : ((ann_set_weight kink_ann 0 (100001 / 100000)).m_weights.getD 0 0 + 1 / 10000 - 1 : ℚ)
      = 11 / 100000 := by
    simp [kink_ann, ann_set_weight]; norm_num
  have e2 : ((ann_set_weight kink_ann 0 (100001 / 100000)).m_weights.getD 0 0 - 1 / 10000 - 1 : ℚ)
      = -(9 / 100000) := by
    simp [kink_ann, ann_set_weight]; norm_num
  rw [e1, e2, max_eq_right (by norm_num : (0 : ℚ) ≤ 11 / 100000),
    max_eq_left (by norm_num : -(9 / 100000) ≤ (0 : ℚ))]
  norm_num
theorem near_kink_small_step :
    weight_difference (ann_set_weight kink_ann 0 (100001 / 100000))
      (activation (fun x => x) (fun x => x) (fun x => x)) (fun x => x) (fun x => x)
      loss_type.MSE [1] [-1] 0 (1 / 1000000) = 100001 / 50000 := by
  have hset : ∀ w : ℚ, ann_set_weight (ann_set_weight kink_ann 0 (100001 / 100000)) 0 w =
      ann_set_weight kink_ann 0 w := fun w => rfl
  unfold weight_difference
  rw [hset, hset, kink_loss_weight, kink_loss_weight]
  have e1 : ((ann_set_weight kink_ann 0 (100001 / 100000)).m_weights.getD 0 0 + 1 / 1000000 - 1 :
      ℚ) = 11 / 1000000 := by
    simp [kink_ann, ann_set_weight]; norm_num
  have e2 : ((ann_set_weight kink_ann 0 (100001 / 100000)).m_weights.getD 0 0 - 1 / 1000000 - 1 :
      ℚ) = 9 / 1000000 := by
    simp [kink_ann, ann_set_weight]; norm_num
  rw [e1, e2, max_eq_right (by norm_num : (0 : ℚ) ≤ 11 / 1000000),
    max_eq_right (by norm_num : (0 : ℚ) ≤ 9 / 1000000)]
  norm_num

/-- C32, as stated, fails. (1) At the kink of `ReLu`: the network `kink_ann` is well formed; on
the sample `(1, -1)` the pre-activation of its node is `0`, where the backpropagation takes the
derivative of `ReLu` to be `0`: `d_loss` returns the loss `1` and the gradients `0` for the
weight and for the bias, while the central differences of the loss with the step `1e-4` are
`1.00005`, beyond 5% of the gradient and beyond `1e-8`. (2) For the kind `CE` with a label that
does not add up to `1`: the network `unit_ann` has one output, so that its softmax is `1` and
its cross-entropy loss is `0` whatever the weight and the bias; on the sample `(1, 2)` `d_loss`
returns the gradients `-1`, while the central differences of the loss are `0`. (3) With a step
that is not small enough: with the weight `1.00001` the pre-activation of the node of
`kink_ann` is `1e-5`, the gradient in the weight is `2.00002` and it is the central difference
with the step `1e-6`, while the central difference with the step `1e-4` is `1.1000605`. In (1)
and (3) the functions `exp`, `tanh` and `sqrt` of the activation table are not used, and the
identity stands for them. -/
theorem d_loss_is_not_the_derivative :
    (ann_well_formed kink_ann ∧
      ann_d_loss kink_ann (activation (fun x => x) (fun x => x) (fun x => x))
        (activation_derivative (fun x => x) (fun x => x) (fun x => x)) (fun x => x)
        (fun x => x) loss_type.MSE [0] [0] [1] [-1] = (1, [0], [0]) ∧
      weight_difference kink_ann (activation (fun x => x) (fun x => x) (fun x => x))
        (fun x => x) (fun x => x) loss_type.MSE [1] [-1] 0 (1 / 10000) = 20001 / 20000 ∧
      bias_difference kink_ann (activation (fun x => x) (fun x => x) (fun x => x))
        (fun x => x) (fun x => x) loss_type.MSE [1] [-1] 0 (1 / 10000) = 20001 / 20000 ∧
      ¬ agrees (0 : ℚ) (20001 / 20000)) ∧
    (ann_well_formed (unit_ann ℝ) ∧
      ann_d_loss (unit_ann ℝ) (activation Real.exp Real.tanh Real.sqrt)
        (activation_derivative Real.exp Real.tanh Real.sqrt) Real.exp Real.log
        loss_type.CE [0] [0] [1] [2] = (0, [-1], [-1]) ∧
      weight_difference (unit_ann ℝ) (activation Real.exp Real.tanh Real.sqrt) Real.exp
        Real.log loss_type.CE [1] [2] 0 (1 / 10000) = 0 ∧
      bias_difference (unit_ann ℝ) (activation Real.exp Real.tanh Real.sqrt) Real.exp
        Real.log loss_type.CE [1] [2] 0 (1 / 10000) = 0 ∧
      ¬ agrees (-1 : ℝ) 0) ∧
    (ann_well_formed (ann_set_weight kink_ann 0 (100001 / 100000)) ∧
      ann_d_loss (ann_set_weight kink_ann 0 (100001 / 100000))
        (activation (fun x => x) (fun x => x) (fun x => x))
        (activation_derivative (fun x => x) (fun x => x) (fun x => x)) (fun x => x)
        (fun x => x) loss_type.MSE [0] [0] [1] [-1] =
        (10000200001 / 10000000000, [100001 / 50000], [100001 / 50000]) ∧
      weight_difference (ann_set_weight kink_ann 0 (100001 / 100000))
        (activation (fun x => x) (fun x => x) (fun x => x)) (fun x => x) (fun x => x)
        loss_type.MSE [1] [-1] 0 (1 / 10000) = 2200121 / 2000000 ∧
      weight_difference (ann_set_weight kink_ann 0 (100001 / 100000))
        (activation (fun x => x) (fun x => x) (fun x => x)) (fun x => x) (fun x => x)
        loss_type.MSE [1] [-1] 0 (1 / 1000000) = 100001 / 50000 ∧
      ¬ agrees (100001 / 50000 : ℚ) (2200121 / 2000000)) := by
  have hd := kink_differences (1 / 10000) (by norm_num)
  refine ⟨⟨kink_well_formed, kink_gradient, ?_, ?_, ?_⟩,
    ⟨unit_well_formed, unit_gradient, ?_, ?_, ?_⟩,
    near_kink_well_formed, near_kink_gradient, near_kink_difference, near_kink_small_step, ?_⟩
  · rw [hd.1]; norm_num
  · rw [hd.2]; norm_num
  · unfold agrees
    rw [sub_zero, abs_zero, abs_of_pos (by norm_num : (0 : ℚ) < 20001 / 20000)]
    norm_num
  · unfold weight_difference
    rw [unit_loss_weight, unit_loss_weight]
    norm_num
  · unfold bias_difference
    rw [unit_loss_bias, unit_loss_bias]
    norm_num
  · unfold agrees
    norm_num
  · unfold agrees
    rw [abs_of_neg (by norm_num : (2200121 / 2000000 - 100001 / 50000 : ℚ) < 0),
      abs_of_pos (by norm_num : (0 : ℚ) < 100001 / 50000)]
    norm_num

/-- C32, amended: for every well-formed `expression_ann` over the reals (every ANN-compatible
shape, chromosome, weights and biases) with the activations of the specification, every
sample, the kind `MSE`, and the kind `CE` with a label whose entries add up to `1`: if no active
node with the kernel `ReLu` has the pre-activation `0`, then the gradients that `d_loss`
returns from zero accumulators are the derivatives of the single-sample loss with respect to
every weight and every bias, and every central finite difference of the loss in that weight or
bias with a small enough step agrees with its entry to within 5% relative or `1e-8` absolute
error, indeed to within every tolerance `eps > 0`. -/
theorem d_loss_is_derivative (e : expression_ann ℝ) (hwf : ann_well_formed e)
    (kind : loss_type) (input label : List ℝ)
    (hrelu : ∀ u ∈ e.m_active_nodes, e.m_n ≤ u → ann_kernel e u = "ReLu" →
      (ann_forward_record e (activation Real.exp Real.tanh Real.sqrt) input).2 u ≠ 0)
    (hkind : kind = loss_type.MSE ∨
      (kind = loss_type.CE ∧ ((List.range e.m_m).map (fun j => label.getD j 0)).sum = 1)) :
    (∀ idx, idx < e.m_weights.length →
      HasDerivAt
        (fun w => ann_loss (ann_set_weight e idx w) (activation Real.exp Real.tanh Real.sqrt)
          Real.exp Real.log kind input label)
        ((ann_d_loss e (activation Real.exp Real.tanh Real.sqrt)
          (activation_derivative Real.exp Real.tanh Real.sqrt) Real.exp Real.log kind
          (List.replicate e.m_weights.length 0) (List.replicate e.m_biases.length 0)
          input label).2.1.getD idx 0)
        (e.m_weights.getD idx 0) ∧
      (∃ δ, 0 < δ ∧ ∀ h, h ≠ 0 → |h| < δ →
        agrees
          ((ann_d_loss e (activation Real.exp Real.tanh Real.sqrt)
            (activation_derivative Real.exp Real.tanh Real.sqrt) Real.exp Real.log kind
            (List.replicate e.m_weights.length 0) (List.replicate e.m_biases.length 0)
            input label).2.1.getD idx 0)
          (weight_difference e (activation Real.exp Real.tanh Real.sqrt) Real.exp Real.log
            kind input label idx h)) ∧
      ∀ eps, 0 < eps → ∃ δ, 0 < δ ∧ ∀ h, h ≠ 0 → |h| < δ →
        |weight_difference e (activation Real.exp Real.tanh Real.sqrt) Real.exp Real.log
            kind input label idx h -
          (ann_d_loss e (activation Real.exp Real.tanh Real.sqrt)
            (activation_derivative Real.exp Real.tanh Real.sqrt) Real.exp Real.log kind
            (List.replicate e.m_weights.length 0) (List.replicate e.m_biases.length 0)
            input label).2.1.getD idx 0| ≤ eps) ∧
    (∀ j, j < e.m_biases.length →
      HasDerivAt
        (fun b => ann_loss (ann_set_bias e j b) (activation Real.exp Real.tanh Real.sqrt)
          Real.exp Real.log kind input label)
        ((ann_d_loss e (activation Real.exp Real.tanh Real.sqrt)
          (activation_derivative Real.exp Real.tanh Real.sqrt) Real.exp Real.log kind
          (List.replicate e.m_weights.length 0) (List.replicate e.m_biases.length 0)
          input label).2.2.getD j 0)
        (e.m_biases.getD j 0) ∧
      (∃ δ, 0 < δ ∧ ∀ h, h ≠ 0 → |h| < δ →
        agrees
          ((ann_d_loss e (activation Real.exp Real.tanh Real.sqrt)
            (activation_derivative Real.exp Real.tanh Real.sqrt) Real.exp Real.log kind
            (List.replicate e.m_weights.length 0) (List.replicate e.m_biases.length 0)
            input label).2.2.getD j 0)
          (bias_difference e (activation Real.exp Real.tanh Real.sqrt) Real.exp Real.log
            kind input label j h)) ∧
      ∀ eps, 0 < eps → ∃ δ, 0 < δ ∧ ∀ h, h ≠ 0 → |h| < δ →
        |bias_difference e (activation Real.exp Real.tanh Real.sqrt) Real.exp Real.log
            kind input label j h -
          (ann_d_loss e (activation Real.exp Real.tanh Real.sqrt)
            (activation_derivative Real.exp Real.tanh Real.sqrt) Real.exp Real.log kind
            (List.replicate e.m_weights.length 0) (List.replicate e.m_biases.length 0)
            input label).2.2.getD j 0| ≤ eps) := by
  have hl : kind = loss_type.MSE ∨
      (kind = loss_type.CE ∧ Real.exp = Real.exp ∧ Real.log = Real.log ∧
        ((List.range e.m_m).map (fun j => label.getD j 0)).sum = 1) := by
    rcases hkind with h | ⟨h, hs⟩
    · exact Or.inl h
    · exact Or.inr ⟨h, rfl, rfl, hs⟩
  have key := ann_gradients_are_derivatives e hwf (activation Real.exp Real.tanh Real.sqrt)
    (activation_derivative Real.exp Real.tanh Real.sqrt) Real.exp Real.log kind input label
    (fun u hu hn => activation_hasDerivAt _ _ (hrelu u hu hn)) hl
  constructor
  · intro idx hidx
    have hd := key.1 idx hidx
    exact ⟨hd, central_difference_agrees _ _ _ hd,
      fun eps heps => central_difference_near _ _ _ hd eps heps⟩
  · intro j hj
    have hd := key.2 j hj
    exact ⟨hd, central_difference_agrees _ _ _ hd,
      fun eps heps => central_difference_near _ _ _ hd eps heps⟩

theorem scenario_well_formed : ann_well_formed (scenario_ann ℝ) := by decide

theorem scenario_kernels (u : Nat) (hu : u ∈ (scenario_ann ℝ).m_active_nodes)
    (hn : (scenario_ann ℝ).m_n ≤ u) : ann_kernel (scenario_ann ℝ) u ≠ "ReLu" := by
  have hmem : u ∈ [0, 1, 2] := hu
  have h1 : 1 ≤ u := hn
  simp only [List.mem_cons, List.mem_singleton, List.not_mem_nil, or_false] at hmem
  rcases hmem with rfl | rfl | rfl
  · omega
  · decide
  · decide

theorem d_loss_is_derivative_witness :
    HasDerivAt
      (fun w => ann_loss (ann_set_weight (scenario_ann ℝ) 1 w)
        (activation Real.exp Real.tanh Real.sqrt) Real.exp Real.log loss_type.MSE [1] [0])
      ((ann_d_loss (scenario_ann ℝ) (activation Real.exp Real.tanh Real.sqrt)
        (activation_derivative Real.exp Real.tanh Real.sqrt) Real.exp Real.log loss_type.MSE
        (List.replicate (scenario_ann ℝ).m_weights.length 0)
        (List.replicate (scenario_ann ℝ).m_biases.length 0) [1] [0]).2.1.getD 1 0)
      ((scenario_ann ℝ).m_weights.getD 1 0) :=
  ((d_loss_is_derivative (scenario_ann ℝ) scenario_well_formed loss_type.MSE [1] [0]
    (fun u hu hn hk => absurd hk (scenario_kernels u hu hn)) (Or.inl rfl)).1 1
    Nat.one_lt_two).1

end dcgp
